import Mathlib

/-!
# Sky: the factorizer, the shard router, properties and the reducer

A shallow embedding of the per-table factor dictionary of the Sky event
database (db/factorizer.go) and of the event-level walkers built on it, of the
router that spreads objects over shards (db/db.go), of the validation and the
casts of properties (db/property.go), of the reduction of a selection over
its dimensions (query/reducer/reduce_selection.go) and of the handler that
renames a property (skyd/server_property_handlers.go).

Modelling conventions

* A Go `string` / `[]byte` is a list of bytes (`Bytes`), each byte a natural number.
* A `uint64` is a natural number; the one arithmetic operation on it
  (`seq += 1` in `nextid`) is taken modulo `2^64`.
* The key-value store behind `f.txn` is a finite map from a database name (the
  property name passed to `DBIOpen`) and a key to a value.  `Get` finds the row
  or reports `NotFound`, `Put` overwrites.  Each of `DBIOpen`, `Get` and `Put`
  can also fail: the factorizer state carries the schedule of the store's coming
  answers (`faults`), and every operation is appended to `log`.  `Commit` and
  `BeginTxn` in `renew` are taken to succeed.
* A function that can hit a Go runtime panic returns `none` for its results;
  the state component is the state at the moment of the panic (the deferred
  `renew` of the public entry points still runs).
* A Go `map` that is ranged over is a list of entries in the order in which
  the `range` loop visits them.
* A shard is its map from a table and an object id to the event list of the
  object, with the schedule of the coming answers of its store; the database
  keeps the roster of shards and the list of the calls handed to them.
* A Go `int` is an integer; `index + 1` in `shardCount` and the conversions
  `int(key)`, `int64(v)` wrap around at 64 bits.
-/

namespace Sky

/-- A Go string or byte slice. -/
abbrev Bytes := List Nat

/-- The size, in bytes, of the largest key that can be inserted. -/
def maxKeySize : Nat := 500

/-- The number of factors that are stored in the LRU cache (per property). -/
def cacheSize : Nat := 1000

/-- Pointwise update of a finite map represented as a function. -/
def upd {α β : Type} [DecidableEq α] (m : α → β) (a : α) (b : β) : α → β :=
  fun x => if x = a then b else m x

/-! ## encoding/binary and fmt -/

/-- The eight bytes written by `binary.BigEndian.PutUint64`. -/
def bigEndian (v : Nat) : Bytes :=
  [v / 2 ^ 56 % 256, v / 2 ^ 48 % 256, v / 2 ^ 40 % 256, v / 2 ^ 32 % 256,
   v / 2 ^ 24 % 256, v / 2 ^ 16 % 256, v / 2 ^ 8 % 256, v % 256]

/-- Go `binary.BigEndian.Uint64(b)`: reads `b[0..8]`; panics (`none`) when `b` is shorter. -/
def Uint64 : Bytes → Option Nat
  | b0 :: b1 :: b2 :: b3 :: b4 :: b5 :: b6 :: b7 :: _ =>
    some (b0 * 2 ^ 56 + b1 * 2 ^ 48 + b2 * 2 ^ 40 + b3 * 2 ^ 32
      + b4 * 2 ^ 24 + b5 * 2 ^ 16 + b6 * 2 ^ 8 + b7)
  | _ => none

/-- Go `binary.BigEndian.PutUint64(b, v)`: overwrites `b[0..8]` in place; panics
(`none`) when `b` is shorter. -/
def PutUint64 (b : Bytes) (v : Nat) : Option Bytes :=
  if b.length < 8 then none else some (bigEndian v ++ b.drop 8)

/-- Digits of `n`, most significant first, pushed in front of `acc` (ASCII). -/
def decimalAux : Nat → Nat → Bytes → Bytes
  | 0, _, acc => acc
  | fuel + 1, n, acc =>
    if n / 10 = 0 then (48 + n % 10) :: acc
    else decimalAux fuel (n / 10) ((48 + n % 10) :: acc)

/-- The `%d` rendering of an unsigned integer. -/
def decimal (n : Nat) : Bytes := decimalAux (n + 1) n []

/-! ## The LRU cache -/

/-- Modelled from the spec: the bidirectional LRU cache of §4.1 (`db/cache.go` is not
among the sources; only its tests are).  `keys` is the forward direction, `values`
the reverse direction, `list` the keys in order of recency, most recent first. -/
structure cache where
  size : Nat
  list : List Bytes
  keys : Bytes → Option Nat
  values : Nat → Option Bytes

/-- Modelled from the spec: an empty cache of fixed capacity. -/
def newCache (size : Nat) : cache :=
  { size := size, list := [], keys := fun _ => none, values := fun _ => none }

/-- Modelled from the spec: a use refreshes the recency of an entry. -/
def cache.touch (c : cache) (key : Bytes) : cache :=
  { c with list := key :: c.list.erase key }

/-- Modelled from the spec: `getValue(key) → (u64, bool)`; a hit counts as a use. -/
def cache.getValue (c : cache) (key : Bytes) : cache × Nat × Bool :=
  match c.keys key with
  | some value => (c.touch key, value, true)
  | none => (c, 0, false)

/-- Modelled from the spec: `getKey(value) → (string, bool)`; a hit counts as a use. -/
def cache.getKey (c : cache) (value : Nat) : cache × Bytes × Bool :=
  match c.values value with
  | some key => (c.touch key, key, true)
  | none => (c, [], false)

/-- Modelled from the spec: `remove(key)` drops the entry from both directions. -/
def cache.remove (c : cache) (key : Bytes) : cache :=
  match c.keys key with
  | some value =>
    { c with list := c.list.erase key, keys := upd c.keys key none,
             values := upd c.values value none }
  | none => c

/-- Modelled from the spec: `add(key, value)`.  An existing key gets the new value, its
recency is refreshed and the old value's reverse entry is removed; a new key is
entered in both directions and, beyond capacity, the least recently used entry is
evicted from both directions. -/
def cache.add (c : cache) (key : Bytes) (value : Nat) : cache :=
  match c.keys key with
  | some old =>
    { c with list := key :: c.list.erase key, keys := upd c.keys key (some value),
             values := upd (upd c.values old none) value (some key) }
  | none =>
    let c1 : cache :=
      { c with list := key :: c.list, keys := upd c.keys key (some value),
               values := upd c.values value (some key) }
    if c1.list.length > c1.size then
      match c1.list.getLast? with
      | some oldest => c1.remove oldest
      | none => c1
    else c1

/-! ## The factorizer -/

/-- One operation on the key-value store. -/
inductive Op where
  | dbiOpen (dbi : String)
  | get (dbi : String) (key : Bytes)
  | put (dbi : String) (key : Bytes) (value : Bytes)
  deriving DecidableEq, Repr

/-- The errors the factorizer returns. -/
inductive Error where
  /-- The typed error built by `NewFactorNotFound(fmt.Sprintf("factor not found: %s: %v", id, key))`. -/
  | FactorNotFound (id : String) (key : Bytes)
  /-- An untyped error built by `fmt.Errorf(format, arg)`; for an error handed up from the
  store, whose text is not modelled, `arg` is empty. -/
  | Errorf (format : String) (arg : Bytes)
  deriving DecidableEq, Repr

/-- Factorizer manages the factorization and defactorization of values for a table.
`env` holds the committed rows, `txn` the rows as the open transaction sees them,
`caches` the per-property caches, `dirty` the pending-commit flag, `log` the store
operations attempted so far and `faults` the answers the store will give to the
coming operations (`true`: the operation fails; an exhausted list: it succeeds). -/
structure Factorizer where
  env : String → Bytes → Option Bytes
  txn : String → Bytes → Option Bytes
  caches : String → Option cache
  dirty : Bool
  log : List Op
  faults : List Bool

/-- A factorizer freshly opened on an empty store that will answer every operation
(`NewFactorizer` then `Open`). -/
def NewFactorizer : Factorizer :=
  { env := fun _ _ => none, txn := fun _ _ => none, caches := fun _ => none,
    dirty := false, log := [], faults := [] }

/-- Truncate returns the value that can be saved to the factorizer. -/
def truncate (value : Bytes) : Bytes :=
  if value.length > maxKeySize then value.take maxKeySize else value

/-- The key for a given value: `">" + truncate(value)`. -/
def key (value : Bytes) : Bytes := 62 :: truncate value

/-- The reverse key for a given value: `"<" + decimal(value)`. -/
def revkey (value : Nat) : Bytes := 60 :: decimal value

/-- The key of the sequence counter: `"+"`. -/
def seqkey : Bytes := [43]

namespace Factorizer

/-- The store takes one operation: it is logged and the next scheduled answer is
consumed.  Returns whether the operation failed. -/
def fault (f : Factorizer) (op : Op) : Factorizer × Bool :=
  match f.faults with
  | [] => ({ f with log := f.log ++ [op] }, false)
  | failed :: rest => ({ f with log := f.log ++ [op], faults := rest }, failed)

/-- Get retrieves the value from the database for a given key: `(nil, nil)` when the
key is absent, an error when the store fails otherwise. -/
def get (f : Factorizer) (dbi : String) (key : Bytes) :
    Factorizer × Option Bytes × Option Error :=
  match f.fault (Op.get dbi key) with
  | (f1, true) => (f1, none, some (Error.Errorf "factor get error: %s" []))
  | (f1, false) => (f1, f.txn dbi key, none)

/-- Sets the value for a given key in the database. -/
def put (f : Factorizer) (dbi : String) (key : Bytes) (value : Bytes) :
    Factorizer × Option Error :=
  match f.fault (Op.put dbi key value) with
  | (f1, true) => (f1, some (Error.Errorf "factor put error: %s" []))
  | (f1, false) =>
    ({ f1 with txn := upd f.txn dbi (upd (f.txn dbi) key (some value)), dirty := true }, none)

/-- Renew commits any dirty changes on the transaction and renews it (commit and begin
are taken to succeed); the renewed transaction sees the committed rows. -/
def renew (f : Factorizer) : Factorizer :=
  if f.dirty then { f with dirty := false, env := f.txn } else f

/-- Cache returns the LRU cache used for a given id, creating it when missing. -/
def cache (f : Factorizer) (id : String) : Factorizer × Sky.cache :=
  match f.caches id with
  | some c => (f, c)
  | none => ({ f with caches := upd f.caches id (some (newCache cacheSize)) }, newCache cacheSize)

/-- Write-back of a cache that Go mutates through its pointer. -/
def setCache (f : Factorizer) (id : String) (c : Sky.cache) : Factorizer :=
  { f with caches := upd f.caches id (some c) }

/-- Retrieves the next available sequence number within a table for an id. -/
def nextid (f : Factorizer) (dbi : String) : Factorizer × Option (Nat × Option Error) :=
  match f.get dbi seqkey with
  | (f1, _, some err) => (f1, some (0, some err))
  | (f1, data, none) =>
    let data := data.getD (List.replicate 8 0)
    match Uint64 data with
    | none => (f1, none)
    | some seq =>
      let seq := (seq + 1) % 2 ^ 64
      match PutUint64 data seq with
      | none => (f1, none)
      | some data =>
        match f1.put dbi seqkey data with
        | (f2, some err) => (f2, some (0, some err))
        | (f2, none) => (f2, some (seq, none))

/-- Add creates a new factor for a given value. -/
def add (f : Factorizer) (id : String) (value : Bytes) : Factorizer × Option (Nat × Option Error) :=
  match f.nextid id with
  | (f1, none) => (f1, none)
  | (f1, some (_, some err)) => (f1, some (0, some err))
  | (f1, some (sequence, none)) =>
    let value := truncate value
    match f1.put id (key value) (bigEndian sequence) with
    | (f2, some err) => (f2, some (0, some err))
    | (f2, none) =>
      match f2.put id (revkey sequence) value with
      | (f3, some err) => (f3, some (0, some err))
      | (f3, none) =>
        match f3.cache id with
        | (f4, c) => (f4.setCache id (c.add value sequence), some (sequence, none))

/-- The unexported `factorize`: value to sequence. -/
def factorize (f : Factorizer) (id : String) (value : Bytes) (createIfMissing : Bool) :
    Factorizer × Option (Nat × Option Error) :=
  if value = [] then (f, some (0, none))
  else
    match f.cache id with
    | (f1, c) =>
      match c.getValue value with
      | (c1, sequence, true) => (f1.setCache id c1, some (sequence, none))
      | (_, _, false) =>
        match f1.fault (Op.dbiOpen id) with
        | (f2, true) => (f2, some (0, some (Error.Errorf "factor factorize dbi error: %s" [])))
        | (f2, false) =>
          match f2.get id (key value) with
          | (f3, _, some err) => (f3, some (0, some err))
          | (f3, some data, none) =>
            match Uint64 data with
            | none => (f3, none)
            | some sequence => (f3.setCache id (c.add value sequence), some (sequence, none))
          | (f3, none, none) =>
            if createIfMissing then f3.add id value
            else (f3, some (0, some (Error.FactorNotFound id (key value))))

/-- The unexported `defactorize`: sequence to value. -/
def defactorize (f : Factorizer) (id : String) (value : Nat) :
    Factorizer × Bytes × Option Error :=
  if value = 0 then (f, [], none)
  else
    match f.cache id with
    | (f1, c) =>
      match c.getKey value with
      | (c1, k, true) => (f1.setCache id c1, k, none)
      | (_, _, false) =>
        match f1.fault (Op.dbiOpen id) with
        | (f2, true) => (f2, [], some (Error.Errorf "factor defactorize dbi error: %s" []))
        | (f2, false) =>
          match f2.get id (revkey value) with
          | (f3, _, some err) => (f3, [], some err)
          | (f3, none, none) =>
            (f3, [], some (Error.Errorf "factor not found: %v" (revkey value)))
          | (f3, some data, none) => (f3.setCache id (c.add data value), data, none)

/-- Factorize converts a value for a property into a numeric identifier. -/
def Factorize (f : Factorizer) (id : String) (value : Bytes) (createIfMissing : Bool) :
    Factorizer × Option (Nat × Option Error) :=
  match f.factorize id value createIfMissing with
  | (f1, r) => (f1.renew, r)

/-- Defactorize converts a numeric identifier back to its string representation. -/
def Defactorize (f : Factorizer) (id : String) (value : Nat) :
    Factorizer × Bytes × Option Error :=
  match f.defactorize id value with
  | (f1, r) => (f1.renew, r)

end Factorizer

/-! ## Events and the property catalog -/

/-- The dynamic values an event carries (a Go `interface{}`), by dynamic type.
A float carries the rational it denotes. -/
inductive Value where
  | nil
  | bool (b : Bool)
  | string (s : Bytes)
  | int (v : Int)
  | int8 (v : Int)
  | int16 (v : Int)
  | int32 (v : Int)
  | int64 (v : Int)
  | uint (v : Nat)
  | uint8 (v : Nat)
  | uint16 (v : Nat)
  | uint32 (v : Nat)
  | uint64 (v : Nat)
  | float32 (v : ℚ)
  | float64 (v : ℚ)
  deriving DecidableEq

/-- Go conversion `uint64(v)` of a signed integer: two's complement. -/
def intToUint64 (v : Int) : Nat := (v % 2 ^ 64).toNat

/-- Go conversion `uint64(v)` of an unsigned integer of smaller or equal width. -/
def uintToUint64 (v : Nat) : Nat := v % 2 ^ 64

/-- Go conversion `uint64(v)` of a float: the fractional part is discarded.  Go leaves
the result implementation-dependent when the truncated value is outside
`[0, 2^64)`; the model follows the instructions emitted on amd64: a float below `2^63` is
converted as a signed integer (a negative value wraps around, a value below `-2^63`
gives `2^63`), a float from `2^63` on is converted after `2^63` is subtracted and bit 63
is set (a value of `2^64` or more gives `2^63`). -/
def floatToUint64 (v : ℚ) : Nat :=
  if Int.tdiv v.num v.den < 2 ^ 63 then
    if -(2 ^ 63 : Int) ≤ Int.tdiv v.num v.den then (Int.tdiv v.num v.den % 2 ^ 64).toNat
    else 2 ^ 63
  else if Int.tdiv v.num v.den < 2 ^ 64 then (Int.tdiv v.num v.den).toNat
  else 2 ^ 63

/-- The data type name of factor properties (`core.FactorDataType`). -/
def FactorDataType : String := "factor"

/-- Property represents part of the schema for a table. -/
structure Property where
  ID : Int
  Name : String
  DataType : String
  Transient : Bool
  deriving DecidableEq

/-- The property catalog of a table (`core.PropertyFile`). -/
structure PropertyFile where
  properties : List Property

/-- Modelled from the spec: the catalog lookup `by_id(id)` of §4.4
(`core.PropertyFile.GetProperty` is not among the sources).  `none` is the nil
`*Property` returned for an id the catalog does not hold. -/
def PropertyFile.GetProperty (pf : PropertyFile) (id : Int) : Option Property :=
  pf.properties.find? (fun p => p.ID = id)

/-- An event: a timestamp and its data, a map from property id to value.  The
entries of `Data` are listed in the order in which a `range` over the map visits them. -/
structure Event where
  Timestamp : Int
  Data : List (Int × Value)
  deriving DecidableEq

/-- How a call that returns only an `error` ends: `none` is a runtime panic,
`some none` is a nil error, `some (some e)` is the error `e`. -/
abbrev Outcome := Option (Option Error)

namespace Factorizer

/-- The `range event.Data` loop of `FactorizeEvent`, from the entry being visited on.
Returns the factorizer, the entries as the loop leaves them and how the loop ended. -/
def factorizeData (pf : PropertyFile) (createIfMissing : Bool) :
    Factorizer → List (Int × Value) → Factorizer × List (Int × Value) × Outcome
  | f, [] => (f, [], some none)
  | f, (k, v) :: rest =>
    match pf.GetProperty k with
    | none => (f, (k, v) :: rest, none)
    | some property =>
      if property.DataType = FactorDataType then
        match v with
        | Value.string stringValue =>
          match f.factorize property.Name stringValue createIfMissing with
          | (f1, none) => (f1, (k, v) :: rest, none)
          | (f1, some (_, some err)) => (f1, (k, v) :: rest, some (some err))
          | (f1, some (sequence, none)) =>
            match factorizeData pf createIfMissing f1 rest with
            | (f2, rest1, r) => (f2, (k, Value.uint64 sequence) :: rest1, r)
        | _ =>
          match factorizeData pf createIfMissing f rest with
          | (f2, rest1, r) => (f2, (k, v) :: rest1, r)
      else
        match factorizeData pf createIfMissing f rest with
        | (f2, rest1, r) => (f2, (k, v) :: rest1, r)

/-- FactorizeEvent converts all the values of an event into their numeric identifiers. -/
def FactorizeEvent (f : Factorizer) (event : Option Event) (pf : PropertyFile)
    (createIfMissing : Bool) : Factorizer × Option Event × Outcome :=
  match event with
  | none => (f, none, some none)
  | some e =>
    match factorizeData pf createIfMissing f e.Data with
    | (f1, data, r) => (f1.renew, some { e with Data := data }, r)

/-- The type switch of `DefactorizeEvent`: the sequence a value stands for. -/
def sequenceOf : Value → Nat
  | Value.int8 v => intToUint64 v
  | Value.int16 v => intToUint64 v
  | Value.int32 v => intToUint64 v
  | Value.int64 v => intToUint64 v
  | Value.uint8 v => uintToUint64 v
  | Value.uint16 v => uintToUint64 v
  | Value.uint32 v => uintToUint64 v
  | Value.uint64 v => v
  | Value.float32 v => floatToUint64 v
  | Value.float64 v => floatToUint64 v
  | _ => 0

/-- The `range event.Data` loop of `DefactorizeEvent`, from the entry being visited on. -/
def defactorizeData (pf : PropertyFile) :
    Factorizer → List (Int × Value) → Factorizer × List (Int × Value) × Outcome
  | f, [] => (f, [], some none)
  | f, (k, v) :: rest =>
    match pf.GetProperty k with
    | none => (f, (k, v) :: rest, none)
    | some property =>
      if property.DataType = FactorDataType then
        match f.defactorize property.Name (sequenceOf v) with
        | (f1, _, some err) => (f1, (k, v) :: rest, some (some err))
        | (f1, stringValue, none) =>
          match defactorizeData pf f1 rest with
          | (f2, rest1, r) => (f2, (k, Value.string stringValue) :: rest1, r)
      else
        match defactorizeData pf f rest with
        | (f2, rest1, r) => (f2, (k, v) :: rest1, r)

/-- DefactorizeEvent converts all the values of an event from their numeric
identifiers to their string values. -/
def DefactorizeEvent (f : Factorizer) (event : Option Event) (pf : PropertyFile) :
    Factorizer × Option Event × Outcome :=
  match event with
  | none => (f, none, some none)
  | some e =>
    match defactorizeData pf f e.Data with
    | (f1, data, r) => (f1.renew, some { e with Data := data }, r)

end Factorizer

/-! ## Histories of calls -/

/-- One call of the public interface of a factorizer. -/
inductive Call where
  | Factorize (id : String) (value : Bytes) (createIfMissing : Bool)
  | Defactorize (id : String) (value : Nat)
  | FactorizeEvent (event : Option Event) (pf : PropertyFile) (createIfMissing : Bool)
  | DefactorizeEvent (event : Option Event) (pf : PropertyFile)

/-- The string values among the entries of an event. -/
def stringValues : List (Int × Value) → List Bytes
  | [] => []
  | (_, Value.string s) :: rest => s :: stringValues rest
  | _ :: rest => stringValues rest

/-- The values a call can hand to `factorize`. -/
def Call.values : Call → List Bytes
  | Call.Factorize _ value _ => [value]
  | Call.FactorizeEvent (some e) _ _ => stringValues e.Data
  | _ => []

/-- The factorizer as a call leaves it, whether the call returned or panicked. -/
def Factorizer.call (f : Factorizer) : Call → Factorizer
  | Call.Factorize id value createIfMissing => (f.Factorize id value createIfMissing).1
  | Call.Defactorize id value => (f.Defactorize id value).1
  | Call.FactorizeEvent event pf createIfMissing => (f.FactorizeEvent event pf createIfMissing).1
  | Call.DefactorizeEvent event pf => (f.DefactorizeEvent event pf).1

/-- The factorizer after a history of calls. -/
def Factorizer.run (f : Factorizer) : List Call → Factorizer
  | [] => f
  | c :: rest => (f.call c).run rest

/-- An upper bound on the number of sequences a history of calls can create. -/
def cost : List Call → Nat
  | [] => 0
  | c :: rest => c.values.length + cost rest

/-! ## Sample inputs -/

/-- A value of 600 bytes, longer than the key size. -/
def longValue : Bytes := List.replicate 600 42

/-- The first 500 bytes of `longValue`. -/
def longValueHead : Bytes := List.replicate 500 42

/-- A catalog with one factor property, `action`, of id 1. -/
def actionCatalog : PropertyFile :=
  { properties := [{ ID := 1, Name := "action", DataType := "factor", Transient := false }] }

/-- A short history: one `Factorize` and one `FactorizeEvent`, both creating. -/
def sampleHistory : List Call :=
  [Call.Factorize "action" [65, 48] true,
   Call.FactorizeEvent (some { Timestamp := 0, Data := [(1, Value.string [65, 49])] })
     actionCatalog true]

/-- A fresh factorizer on an empty store that will fail its fifth operation. -/
def failingStore : Factorizer :=
  { NewFactorizer with faults := [false, false, false, false, true] }

/-! ## Predicates on factorizer states -/

/-- The sequence counter of one property: the decoded `"+"` row, `0` when it is absent. -/
def counterOf (t : Bytes → Option Bytes) : Nat :=
  match t seqkey with
  | none => 0
  | some d => (Uint64 d).getD 0

/-- Every row that `factorize` and `nextid` decode holds eight bytes. -/
def WellFormed (f : Factorizer) : Prop :=
  ∀ id, (∀ d, f.txn id seqkey = some d → d.length = 8)
    ∧ (∀ k d, f.txn id (62 :: k) = some d → d.length = 8)

/-- The dictionary of one property (`t` its rows, `ch` its cache) is consistent and
has handed out at most `n` sequences. -/
structure RowsInv (n : Nat) (t : Bytes → Option Bytes) (ch : Option cache) : Prop where
  counter_le : counterOf t ≤ n
  counter_row : ∀ d, t seqkey = some d → d = bigEndian (counterOf t) ∧ 1 ≤ counterOf t
  no_rows : t seqkey = none → ∀ k, t k = none
  fwd : ∀ k d, t (62 :: k) = some d →
    ∃ s, 1 ≤ s ∧ s ≤ counterOf t ∧ d = bigEndian s ∧ t (revkey s) = some k ∧ truncate k = k
  rev : ∀ kb val, t (60 :: kb) = some val →
    ∃ s, 1 ≤ s ∧ s ≤ counterOf t ∧ kb = decimal s ∧ t (62 :: val) = some (bigEndian s)
  dense : ∀ s, 1 ≤ s → s ≤ counterOf t → ∃ k, t (revkey s) = some k
  ckeys : ∀ c, ch = some c → ∀ k s, c.keys k = some s →
    1 ≤ s ∧ s ≤ counterOf t ∧ t (key k) = some (bigEndian s)
  cvalues : ∀ c, ch = some c → ∀ s k, c.values s = some k →
    1 ≤ s ∧ s ≤ counterOf t ∧ t (revkey s) = some (truncate k)

/-- Every property's dictionary is consistent, with at most `n` sequences each. -/
def Inv (n : Nat) (f : Factorizer) : Prop :=
  ∀ id, RowsInv n (f.txn id) (f.caches id)

/-- No cache holds, in its reverse direction, a value longer than the key size. -/
def ShortCached (f : Factorizer) : Prop :=
  ∀ id c, f.caches id = some c → ∀ s k, c.values s = some k → truncate k = k

/-! ## The database router (db/db.go) -/

/-- Modelled from the spec: `core.ObjectLocalHash` (not among the sources), the 32-bit
FNV-1a hash of the object id (§4.6). -/
def ObjectLocalHash (id : Bytes) : Nat :=
  id.foldl (fun h b => (Nat.xor h b * 16777619) % 2 ^ 32) 2166136261

/-- A call that the router hands to a shard. -/
inductive ShardCall where
  | GetEvent (tablespace : String) (id : Bytes) (timestamp : Int)
  | GetEvents (tablespace : String) (id : Bytes)
  | InsertEvent (tablespace : String) (id : Bytes) (event : Event)
  | InsertEvents (tablespace : String) (id : Bytes) (events : List Event)
  | DeleteEvent (tablespace : String) (id : Bytes) (timestamp : Int)
  | DeleteObject (tablespace : String) (id : Bytes)
  | Drop (tablespace : String)
  deriving DecidableEq

/-- The error a shard returns when its store fails: the shard and the call that failed. -/
structure ShardError where
  path : Nat
  call : ShardCall
  deriving DecidableEq

/-- Modelled from the spec: a shard (§4.5; `db/shard.go` is not among the sources).
`path` is the index in its directory name, `objects` maps a table and an object id
to the object's event list (`none`: the shard holds no key for the object) and
`faults` schedules the answers of its store to the coming calls (`true`: the call
fails and changes nothing; an exhausted list: it succeeds). -/
structure shard where
  path : Nat
  objects : String → Bytes → Option (List Event)
  faults : List Bool

/-- Modelled from the spec: `merge(old_event, new_event)` of §4.3: the data of the old
event overlaid by the data of the new one. -/
def mergeEvent (old new : Event) : Event :=
  { Timestamp := old.Timestamp,
    Data := old.Data.filter (fun kv => new.Data.all (fun kv1 => kv1.1 ≠ kv.1)) ++ new.Data }

/-- Modelled from the spec: `append_sorted(blob, event)` of §4.3: the event is merged
into the event of equal timestamp, or spliced in at its place in timestamp order. -/
def appendSorted : List Event → Event → List Event
  | [], e => [e]
  | x :: rest, e =>
    if e.Timestamp < x.Timestamp then e :: x :: rest
    else if e.Timestamp = x.Timestamp then mergeEvent x e :: rest
    else x :: appendSorted rest e

namespace shard

/-- The store of the shard takes one call and consumes its next scheduled answer. -/
def answer (s : shard) : shard × Bool :=
  match s.faults with
  | [] => (s, false)
  | failed :: rest => ({ s with faults := rest }, failed)

/-- Modelled from the spec: `get_events(table, id)`. -/
def GetEvents (s : shard) (tablespace : String) (id : Bytes) :
    shard × List Event × Option ShardError :=
  match s.answer with
  | (s1, true) => (s1, [], some ⟨s.path, ShardCall.GetEvents tablespace id⟩)
  | (s1, false) => (s1, (s.objects tablespace id).getD [], none)

/-- Modelled from the spec: `get_event(table, id, ts)`; `none` is the nil event. -/
def GetEvent (s : shard) (tablespace : String) (id : Bytes) (timestamp : Int) :
    shard × Option Event × Option ShardError :=
  match s.answer with
  | (s1, true) => (s1, none, some ⟨s.path, ShardCall.GetEvent tablespace id timestamp⟩)
  | (s1, false) =>
    (s1, ((s.objects tablespace id).getD []).find? (fun e => e.Timestamp = timestamp), none)

/-- Modelled from the spec: `insert_events(table, id, events)`: each event is spliced or
merged into the object's event list, all within one transaction. -/
def InsertEvents (s : shard) (tablespace : String) (id : Bytes) (events : List Event) :
    shard × Option ShardError :=
  match s.answer with
  | (s1, true) => (s1, some ⟨s.path, ShardCall.InsertEvents tablespace id events⟩)
  | (s1, false) =>
    ({ s1 with objects := upd s.objects tablespace (upd (s.objects tablespace) id
        (some (events.foldl appendSorted ((s.objects tablespace id).getD [])))) }, none)

/-- Modelled from the spec: `insert_event(table, id, event)`. -/
def InsertEvent (s : shard) (tablespace : String) (id : Bytes) (event : Event) :
    shard × Option ShardError :=
  match s.answer with
  | (s1, true) => (s1, some ⟨s.path, ShardCall.InsertEvent tablespace id event⟩)
  | (s1, false) =>
    ({ s1 with objects := upd s.objects tablespace (upd (s.objects tablespace) id
        (some (appendSorted ((s.objects tablespace id).getD []) event))) }, none)

/-- Modelled from the spec: `delete_event(table, id, ts)`. -/
def DeleteEvent (s : shard) (tablespace : String) (id : Bytes) (timestamp : Int) :
    shard × Option ShardError :=
  match s.answer with
  | (s1, true) => (s1, some ⟨s.path, ShardCall.DeleteEvent tablespace id timestamp⟩)
  | (s1, false) =>
    match s.objects tablespace id with
    | none => (s1, none)
    | some events =>
      ({ s1 with objects := upd s.objects tablespace (upd (s.objects tablespace) id
          (some (events.filter (fun e => e.Timestamp ≠ timestamp)))) }, none)

/-- Modelled from the spec: `delete_object(table, id)`: the object's key is removed. -/
def DeleteObject (s : shard) (tablespace : String) (id : Bytes) : shard × Option ShardError :=
  match s.answer with
  | (s1, true) => (s1, some ⟨s.path, ShardCall.DeleteObject tablespace id⟩)
  | (s1, false) =>
    ({ s1 with objects := upd s.objects tablespace (upd (s.objects tablespace) id none) }, none)

/-- Modelled from the spec: `drop(table)` removes every key in the table's keyspace. -/
def Drop (s : shard) (tablespace : String) : shard × Option ShardError :=
  match s.answer with
  | (s1, true) => (s1, some ⟨s.path, ShardCall.Drop tablespace⟩)
  | (s1, false) => ({ s1 with objects := upd s.objects tablespace (fun _ => none) }, none)

end shard

/-- Go `strconv.Atoi` on the digits after the sign: the number they denote; `none` when
there is no digit or a byte is not a decimal digit. -/
def parseDigits (s : Bytes) : Option Nat :=
  if s = [] then none
  else if s.all (fun b => decide (48 ≤ b ∧ b ≤ 57)) then
    some (s.foldl (fun n b => n * 10 + (b - 48)) 0)
  else none

/-- Go `strconv.Atoi` (64-bit `int`): an optional sign, then decimal digits; `none` is a
syntax or range error. -/
def Atoi (s : Bytes) : Option Int :=
  match s with
  | 45 :: digits =>
    match parseDigits digits with
    | some n => if n ≤ 2 ^ 63 then some (-(n : Int)) else none
    | none => none
  | 43 :: digits =>
    match parseDigits digits with
    | some n => if n < 2 ^ 63 then some (n : Int) else none
    | none => none
  | digits =>
    match parseDigits digits with
    | some n => if n < 2 ^ 63 then some (n : Int) else none
    | none => none

/-- Arithmetic on a 64-bit Go `int` wraps around. -/
def wrapInt64 (i : Int) : Int := (i + 2 ^ 63) % 2 ^ 64 - 2 ^ 63

/-- An entry of a directory listing (`os.FileInfo`). -/
structure FileInfo where
  Name : Bytes
  IsDir : Bool
  deriving DecidableEq

/-- The `range infos` loop of `shardCount`, with the count so far. -/
def shardCountLoop : List FileInfo → Int → Int
  | [], count => count
  | info :: rest, count =>
    match Atoi info.Name with
    | some index =>
      if wrapInt64 (index + 1) > count then shardCountLoop rest (wrapInt64 (index + 1))
      else shardCountLoop rest count
    | none => shardCountLoop rest count

/-- The number of shards in the database, from the listing `infos` of the data path
(`none`: `ioutil.ReadDir` failed, which `shardCount` reports with count 0) and the
default count. -/
def shardCount (infos : Option (List FileInfo)) (defaultShardCount : Int) : Int × Bool :=
  match infos with
  | none => (0, true)
  | some infos =>
    let count := shardCountLoop infos 0
    if count = 0 then (defaultShardCount, false) else (count, false)

/-- The default implementation of the DB interface: the roster of shards.  `log` lists
the calls handed to shards so far, each with the roster position of its shard. -/
structure db where
  shards : List shard
  log : List (Nat × ShardCall)

namespace db

/-- The roster position of the shard that `getShardByObjectId` retrieves for an object
identifier; `none` is the panic of the integer division by `uint32(len(db.shards))`
when that is zero. -/
def getShardByObjectId (d : db) (id : Bytes) : Option Nat :=
  if d.shards.length % 2 ^ 32 = 0 then none
  else some (ObjectLocalHash id % (d.shards.length % 2 ^ 32))

/-- A method call on the shard at a roster position: the call is logged and the shard
is replaced by what the method leaves; `none` is an index out of range. -/
def dispatch {α : Type} (d : db) (index : Nat) (call : ShardCall) (method : shard → shard × α) :
    db × Option α :=
  match d.shards[index]? with
  | none => (d, none)
  | some s =>
    match method s with
    | (s1, r) => ({ shards := d.shards.set index s1, log := d.log ++ [(index, call)] }, some r)

/-- GetEvent retrieves one event of an object from its shard. -/
def GetEvent (d : db) (tablespace : String) (id : Bytes) (timestamp : Int) :
    db × Option (Option Event × Option ShardError) :=
  match d.getShardByObjectId id with
  | none => (d, none)
  | some s =>
    d.dispatch s (ShardCall.GetEvent tablespace id timestamp)
      (fun s => s.GetEvent tablespace id timestamp)

/-- GetEvents retrieves the events of an object from its shard. -/
def GetEvents (d : db) (tablespace : String) (id : Bytes) :
    db × Option (List Event × Option ShardError) :=
  match d.getShardByObjectId id with
  | none => (d, none)
  | some s => d.dispatch s (ShardCall.GetEvents tablespace id) (fun s => s.GetEvents tablespace id)

/-- InsertEvent adds a single event to the database. -/
def InsertEvent (d : db) (tablespace : String) (id : Bytes) (event : Event) :
    db × Option (Option ShardError) :=
  match d.getShardByObjectId id with
  | none => (d, none)
  | some s =>
    d.dispatch s (ShardCall.InsertEvent tablespace id event)
      (fun s => s.InsertEvent tablespace id event)

/-- InsertEvents adds multiple events for a single object. -/
def InsertEvents (d : db) (tablespace : String) (id : Bytes) (newEvents : List Event) :
    db × Option (Option ShardError) :=
  match d.getShardByObjectId id with
  | none => (d, none)
  | some s =>
    d.dispatch s (ShardCall.InsertEvents tablespace id newEvents)
      (fun s => s.InsertEvents tablespace id newEvents)

/-- The `range objects` loop of `InsertObjects`, from the entry being visited on, with
the count so far. -/
def insertObjectsLoop (tablespace : String) :
    db → List (Bytes × List Event) → Nat → db × Option (Nat × Option ShardError)
  | d, [], count => (d, some (count, none))
  | d, (id, events) :: rest, count =>
    match d.InsertEvents tablespace id events with
    | (d1, none) => (d1, none)
    | (d1, some (some err)) => (d1, some (count, some err))
    | (d1, some none) => insertObjectsLoop tablespace d1 rest (count + events.length)

/-- InsertObjects bulk inserts events for multiple objects; `objects` lists the entries
of the map in the order in which the `range` loop visits them. -/
def InsertObjects (d : db) (tablespace : String) (objects : List (Bytes × List Event)) :
    db × Option (Nat × Option ShardError) :=
  insertObjectsLoop tablespace d objects 0

/-- DeleteEvent removes one event of an object. -/
def DeleteEvent (d : db) (tablespace : String) (id : Bytes) (timestamp : Int) :
    db × Option (Option ShardError) :=
  match d.getShardByObjectId id with
  | none => (d, none)
  | some s =>
    d.dispatch s (ShardCall.DeleteEvent tablespace id timestamp)
      (fun s => s.DeleteEvent tablespace id timestamp)

/-- DeleteObject removes an object. -/
def DeleteObject (d : db) (tablespace : String) (id : Bytes) :
    db × Option (Option ShardError) :=
  match d.getShardByObjectId id with
  | none => (d, none)
  | some s =>
    d.dispatch s (ShardCall.DeleteObject tablespace id) (fun s => s.DeleteObject tablespace id)

/-- Merge moves the events of the source object into the destination object. -/
def Merge (d : db) (tablespace : String) (destinationId : Bytes) (sourceId : Bytes) :
    db × Option (Option ShardError) :=
  match d.getShardByObjectId destinationId with
  | none => (d, none)
  | some dest =>
    match d.getShardByObjectId sourceId with
    | none => (d, none)
    | some src =>
      match d.dispatch src (ShardCall.GetEvents tablespace sourceId)
          (fun s => s.GetEvents tablespace sourceId) with
      | (d1, none) => (d1, none)
      | (d1, some (_, some err)) => (d1, some (some err))
      | (d1, some (srcEvents, none)) =>
        if srcEvents.length > 0 then
          match d1.dispatch dest (ShardCall.InsertEvents tablespace destinationId srcEvents)
              (fun s => s.InsertEvents tablespace destinationId srcEvents) with
          | (d2, none) => (d2, none)
          | (d2, some (some err)) => (d2, some (some err))
          | (d2, some none) =>
            match d2.dispatch src (ShardCall.DeleteObject tablespace sourceId)
                (fun s => s.DeleteObject tablespace sourceId) with
            | (d3, none) => (d3, none)
            | (d3, some (some err)) => (d3, some (some err))
            | (d3, some none) => (d3, some none)
        else (d1, some none)

/-- The `range db.shards` loop of `Drop`, from the shard being visited on (at roster
position `index`), with the error kept so far.  Returns the shards as the loop leaves
them, the calls it made and the error it ends with. -/
def dropLoop (tablespace : String) :
    List shard → Nat → Option ShardError → List shard × List (Nat × ShardCall) × Option ShardError
  | [], _, err => ([], [], err)
  | s :: rest, index, err =>
    match s.Drop tablespace with
    | (s1, _err) =>
      match dropLoop tablespace rest (index + 1) (if err = none then _err else err) with
      | (rest1, calls, r) => (s1 :: rest1, (index, ShardCall.Drop tablespace) :: calls, r)

/-- Drop removes a table from the database. -/
def Drop (d : db) (tablespace : String) : db × Option ShardError :=
  match dropLoop tablespace d.shards 0 none with
  | (shards, calls, err) => ({ shards := shards, log := d.log ++ calls }, err)

end db

/-! ## Properties (db/property.go) -/

/-- Modelled from the spec: the name of the factor data type (§4.4; the constants of
package `db` are declared outside the sources). -/
def DataType.Factor := "factor"

/-- Modelled from the spec: the name of the string data type. -/
def DataType.String := "string"

/-- Modelled from the spec: the name of the integer data type. -/
def DataType.Integer := "integer"

/-- Modelled from the spec: the name of the float data type. -/
def DataType.Float := "float"

/-- Modelled from the spec: the name of the boolean data type. -/
def DataType.Boolean := "boolean"

/-- Go `\w` of the regexp package: an ASCII letter, an ASCII digit or the underscore. -/
def wordChar (c : Char) : Bool := c.isAlphanum || c == '_'

/-- Go `regexp.MustCompile("^\\w+$").MatchString`: the whole text is one or more word
characters. -/
def matchWord (s : String) : Bool := !s.data.isEmpty && s.data.all wordChar

/-- Validate checks that the property is valid.  `none` is the nil error, `some msg` the
error that `fmt.Errorf` builds, with its message. -/
def Property.Validate (p : Property) : Option String :=
  if p.Name = "" ∨ matchWord p.Name = false then
    some ("invalid property name: " ++ p.Name)
  else if p.DataType = DataType.Factor ∨ p.DataType = DataType.String
      ∨ p.DataType = DataType.Integer ∨ p.DataType = DataType.Float
      ∨ p.DataType = DataType.Boolean then none
  else some ("invalid data type: " ++ p.DataType)

/-- Go conversion `int64(v)` of an integer of another type: two's complement. -/
def toInt64 (v : Int) : Int := wrapInt64 v

/-- Go conversion `int64(v)` of a float: the fractional part is discarded.  Go leaves the
result implementation-dependent when the truncated value is outside the range of
`int64`; the model takes `-2^63` there, as amd64 does. -/
def floatToInt64 (v : ℚ) : Int :=
  if -(2 ^ 63 : Int) ≤ Int.tdiv v.num v.den ∧ Int.tdiv v.num v.den < 2 ^ 63 then
    Int.tdiv v.num v.den
  else -(2 ^ 63)

/-- Go conversion `float64(v)` of an `int64`: exact up to 53 bits, beyond that rounded to
the nearest float, ties to even. -/
def int64ToFloat (v : Int) : ℚ :=
  if v.natAbs < 2 ^ 53 then v
  else
    let e := Nat.log2 v.natAbs - 52
    let q := v.natAbs / 2 ^ e
    let rem := v.natAbs % 2 ^ e
    let q1 := if rem > 2 ^ (e - 1) ∨ (rem = 2 ^ (e - 1) ∧ q % 2 = 1) then q + 1 else q
    (v.sign : ℚ) * ((q1 * 2 ^ e : Nat) : ℚ)

/-- Modelled from the spec: `promote` (declared outside the sources), the numeric
promotion of §4.4: every integer becomes an `int64`, a `float32` becomes a `float64`,
any other value is left as it is. -/
def promote : Value → Value
  | Value.int v => Value.int64 v
  | Value.int8 v => Value.int64 v
  | Value.int16 v => Value.int64 v
  | Value.int32 v => Value.int64 v
  | Value.int64 v => Value.int64 v
  | Value.uint v => Value.int64 (toInt64 v)
  | Value.uint8 v => Value.int64 v
  | Value.uint16 v => Value.int64 v
  | Value.uint32 v => Value.int64 v
  | Value.uint64 v => Value.int64 (toInt64 v)
  | Value.float32 v => Value.float64 v
  | v => v

/-- Cast converts a value into the appropriate Go type based on the property's data
type.  The untyped constant `0` that the default branches of the integer and float
cases return is a Go `int`. -/
def Property.Cast (p : Property) (v : Value) : Value :=
  if p.DataType = DataType.Factor ∨ p.DataType = DataType.String then
    match v with
    | Value.string s => Value.string s
    | _ => Value.string []
  else if p.DataType = DataType.Integer then
    match promote v with
    | Value.int64 i => Value.int64 i
    | Value.float64 x => Value.int64 (floatToInt64 x)
    | _ => Value.int 0
  else if p.DataType = DataType.Float then
    match promote v with
    | Value.float64 x => Value.float64 x
    | Value.int64 i => Value.float64 (int64ToFloat i)
    | _ => Value.int 0
  else if p.DataType = DataType.Boolean then
    match v with
    | Value.bool b => Value.bool b
    | _ => Value.bool false
  else v

/-! ## The reducer (query/reducer/reduce_selection.go) -/

/-- Modelled from the spec: the hashmap of §4.8 (`query.Hashmap` is not among the
sources): a node has scalar counters by numeric slot and child hashmaps by key. -/
inductive Hashmap where
  | mk (counters : List (Nat × ℚ)) (children : List (Nat × Hashmap))

/-- The children of a node, with their keys. -/
def Hashmap.children : Hashmap → List (Nat × Hashmap)
  | Hashmap.mk _ c => c

/-- Modelled from the spec: `submap(key)` returns the child at the key, an empty one
when the node has none. -/
def Hashmap.Submap (h : Hashmap) (key : Nat) : Hashmap :=
  match h.children.find? (fun e => e.1 = key) with
  | some e => e.2
  | none => Hashmap.mk [] []

/-- Modelled from the spec: the keys that an iterator over the node yields, in its
order. -/
def Hashmap.keys (h : Hashmap) : List Nat := h.children.map (fun e => e.1)

/-- A value of the rendered result (a Go `interface{}` in a `map[string]interface{}`):
a number or a nested dictionary. -/
inductive Output where
  | number (v : ℚ)
  | object (entries : List (Bytes × Output))

/-- A dictionary of the rendered result (`map[string]interface{}`). -/
abbrev OutputMap := List (Bytes × Output)

/-- The map read `m[key]`. -/
def entry (m : OutputMap) (key : Bytes) : Option Output :=
  (m.find? (fun e => e.1 = key)).map (fun e => e.2)

/-- The map write `m[key] = v`. -/
def setEntry (m : OutputMap) (key : Bytes) (v : Output) : OutputMap :=
  if m.any (fun e => e.1 = key) then m.map (fun e => if e.1 = key then (key, v) else e)
  else m ++ [(key, v)]

/-- Modelled from the spec: `submap` of the reducer (declared outside the sources): the
dictionary nested at the key, created empty when the key is absent.  Returns the
dictionary with the entry in place, and the nested one; `none` is the panic of the type
assertion when the key holds a number. -/
def submap (m : OutputMap) (key : Bytes) : Option (OutputMap × OutputMap) :=
  match entry m key with
  | none => some (setEntry m key (Output.object []), [])
  | some (Output.object entries) => some (m, entries)
  | some (Output.number _) => none

/-- The errors of the reducer, by their message. -/
inductive ReduceError where
  /-- Message `reduce: dimension not found: NAME`. -/
  | dimensionNotFound (name : Bytes)
  /-- Message `reduce: string dimensions are not supported: NAME`. -/
  | stringDimension (name : Bytes)
  /-- Message `reduce: float dimensions are not supported: NAME`. -/
  | floatDimension (name : Bytes)
  /-- Message `reduce: selection error`, wrapping the error of the table. -/
  | selectionError (err : String)
  /-- Message `reduce: property not found: NAME`. -/
  | propertyNotFound (name : Bytes)
  /-- Message `reduce: factor not found: NAME/KEY`. -/
  | factorNotFound (name : Bytes) (key : Nat)
  /-- An error that `reduceField` returned. -/
  | field (err : String)
  deriving DecidableEq

/-- What a reducing function returns: `none` is a panic, `some none` the nil error. -/
abbrev Reduced := OutputMap × Option (Option ReduceError)

/-- Modelled from the spec: a variable reference of the query (`ast.VarRef`). -/
structure VarRef where
  Name : Bytes
  deriving DecidableEq

/-- Modelled from the spec: a variable declaration of the query (`ast.VarDecl`). -/
structure VarDecl where
  Name : Bytes
  DataType : String
  Association : Bytes
  deriving DecidableEq

/-- Modelled from the spec: the symbol table of the query (`ast.Symtable`), by its
lookup `Find`; `none` is the nil declaration. -/
structure Symtable where
  Find : Bytes → Option VarDecl

/-- Modelled from the spec: a field of a selection (`ast.Field`). -/
structure Field where
  Name : Bytes
  deriving DecidableEq

/-- Modelled from the spec: a selection of the query (`ast.Selection`). -/
structure Selection where
  Name : Bytes
  Dimensions : List VarRef
  Fields : List Field

/-- The reducer, with what it calls outside the sources.  Modelled from the spec:
`Hash` is `query.Hash`, `tableProperty` is `r.table.Property(name)` (an error message, or the
property, `none` for nil), `Defactorize` is `Property.Defactorize` (`none`: it returned
an error) and `reduceField` is the method of that name. -/
structure Reducer where
  output : OutputMap
  Hash : Bytes → Nat
  tableProperty : Bytes → Except String (Option Property)
  Defactorize : Property → Int → Option Bytes
  reduceField : Field → Hashmap → OutputMap → Symtable → Reduced

/-- Go `strconv.Itoa`. -/
def Itoa (i : Int) : Bytes :=
  if i < 0 then 45 :: decimal i.natAbs else decimal i.natAbs

namespace Reducer

/-- The `range node.Fields` loop of `reduceSelectionDimensions`. -/
def reduceFields (r : Reducer) (h : Hashmap) (tbl : Symtable) : List Field → OutputMap → Reduced
  | [], output => (output, some none)
  | field :: rest, output =>
    match r.reduceField field h output tbl with
    | (output1, some none) => reduceFields r h tbl rest output1
    | (output1, err) => (output1, err)

/-- The `switch decl.DataType` of `reduceSelectionDimensions` for one key: the string
of the key, or the error returned; `none` is the panic of a nil declaration. -/
def keyString (r : Reducer) (tbl : Symtable) (decl : VarDecl) (dimension : VarRef) (key : Nat) :
    Option (Except ReduceError Bytes) :=
  if decl.DataType = DataType.String then
    some (Except.error (ReduceError.stringDimension dimension.Name))
  else if decl.DataType = DataType.Float then
    some (Except.error (ReduceError.floatDimension dimension.Name))
  else if decl.DataType = DataType.Integer then
    some (Except.ok (Itoa (toInt64 key)))
  else if decl.DataType = DataType.Factor then
    match tbl.Find dimension.Name with
    | none => none
    | some decl =>
      let name := if decl.Association = [] then decl.Name else decl.Association
      match r.tableProperty name with
      | Except.error err => some (Except.error (ReduceError.selectionError err))
      | Except.ok none => some (Except.error (ReduceError.propertyNotFound name))
      | Except.ok (some p) =>
        match r.Defactorize p (toInt64 key) with
        | none => some (Except.error (ReduceError.factorNotFound name key))
        | some s => some (Except.ok s)
  else if decl.DataType = DataType.Boolean then
    some (Except.ok (if key = 0 then [102, 97, 108, 115, 101] else [116, 114, 117, 101]))
  else some (Except.ok [])

/-- The loop over the dimension values of `reduceSelectionDimensions`, from the key being
visited on; `recur` is the recursive call for the next dimensions. -/
def reduceKeys (r : Reducer) (tbl : Symtable) (decl : VarDecl) (dimension : VarRef) (h : Hashmap)
    (recur : Hashmap → OutputMap → Reduced) : List Nat → OutputMap → Reduced
  | [], output => (output, some none)
  | key :: rest, output =>
    match r.keyString tbl decl dimension key with
    | none => (output, none)
    | some (Except.error err) => (output, some (some err))
    | some (Except.ok keyString) =>
      match submap output keyString with
      | none => (output, none)
      | some (output1, m) =>
        match recur (h.Submap key) m with
        | (m1, some none) =>
          reduceKeys r tbl decl dimension h recur rest (setEntry output1 keyString (Output.object m1))
        | (m1, err) => (setEntry output1 keyString (Output.object m1), err)

/-- The method `reduceSelectionDimensions`; the dictionary `output` is returned as the
call leaves it. -/
def reduceSelectionDimensions (r : Reducer) (node : Selection) (tbl : Symtable) :
    List VarRef → Hashmap → OutputMap → Reduced
  | [], h, output => r.reduceFields h tbl node.Fields output
  | dimension :: rest, h, output =>
    match tbl.Find dimension.Name with
    | none => (output, some (some (ReduceError.dimensionNotFound dimension.Name)))
    | some decl =>
      match submap output dimension.Name with
      | none => (output, none)
      | some (output1, values) =>
        match r.reduceKeys tbl decl dimension (h.Submap (r.Hash dimension.Name))
            (fun child m => reduceSelectionDimensions r node tbl rest child m)
            (h.Submap (r.Hash dimension.Name)).keys values with
        | (values1, err) => (setEntry output1 dimension.Name (Output.object values1), err)

/-- The method `reduceSelection`; returns the output of the reducer as the call leaves
it. -/
def reduceSelection (r : Reducer) (node : Selection) (h : Hashmap) (tbl : Symtable) : Reduced :=
  if node.Name ≠ [] then
    match submap r.output node.Name with
    | none => (r.output, none)
    | some (output1, m) =>
      match r.reduceSelectionDimensions node tbl node.Dimensions (h.Submap (r.Hash node.Name)) m with
      | (m1, err) => (setEntry output1 node.Name (Output.object m1), err)
  else r.reduceSelectionDimensions node tbl node.Dimensions h r.output

end Reducer

/-! ## Sample databases and queries -/

/-- A shard that holds one event of object `a` in table `users`. -/
def sourceShard : shard :=
  { path := 0,
    objects := fun t id => if t = "users" ∧ id = [97] then some [⟨1, []⟩] else none,
    faults := [] }

/-- A shard without objects, with a schedule for its store. -/
def emptyShard (path : Nat) (faults : List Bool) : shard :=
  { path := path, objects := fun _ _ => none, faults := faults }

/-- A database of two shards; object `a` lives on the first. -/
def sampleDb : db := { shards := [sourceShard, emptyShard 1 []], log := [] }

/-- A reducer on a table with the one factor property `f`, whose sequence 1 is `x`. -/
def sampleReducer : Reducer :=
  { output := [],
    Hash := ObjectLocalHash,
    tableProperty := fun name =>
      if name = [102] then Except.ok (some ⟨1, "f", "factor", false⟩) else Except.ok none,
    Defactorize := fun _ value => if value = 1 then some [120] else none,
    reduceField := fun _ _ output _ => (output, some none) }

/-- The declarations of a string variable `s`, an integer `n` and a factor `f`. -/
def sampleSymtable : Symtable :=
  { Find := fun name =>
      if name = [115] then some ⟨[115], "string", []⟩
      else if name = [110] then some ⟨[110], "integer", []⟩
      else if name = [102] then some ⟨[102], "factor", []⟩
      else none }

/-- A selection without a name and without fields. -/
def sampleSelection : Selection := { Name := [], Dimensions := [], Fields := [] }

/-- A hashmap with the keys 3 and 10 under dimension `n` and 1 and 2 under `f`. -/
def sampleHashmap : Hashmap :=
  Hashmap.mk []
    [(ObjectLocalHash [110], Hashmap.mk [] [(3, Hashmap.mk [] []), (10, Hashmap.mk [] [])]),
     (ObjectLocalHash [102], Hashmap.mk [] [(1, Hashmap.mk [] []), (2, Hashmap.mk [] [])])]

/-- A hashmap with the one key `2^64 - 1` under dimension `n`. -/
def largeKeyHashmap : Hashmap :=
  Hashmap.mk [] [(ObjectLocalHash [110], Hashmap.mk [] [(2 ^ 64 - 1, Hashmap.mk [] [])])]

/-! ## Histories of cache calls -/

/-- A call on a cache. -/
inductive CacheCall where
  | add (key : Bytes) (value : Nat)
  | getValue (key : Bytes)
  | getKey (value : Nat)
  deriving DecidableEq

/-- The cache after one call. -/
def cache.call (c : cache) : CacheCall → cache
  | CacheCall.add key value => c.add key value
  | CacheCall.getValue key => (c.getValue key).1
  | CacheCall.getKey value => (c.getKey value).1

/-- The cache after a history of calls. -/
def cache.run (c : cache) : List CacheCall → cache
  | [] => c
  | call :: rest => (c.call call).run rest

/-- No `add` of the history gives a value that the cache holds, at that moment, under
another key. -/
def cache.Distinct (c : cache) : List CacheCall → Prop
  | [] => True
  | CacheCall.add key value :: rest =>
    (∀ other, c.keys other = some value → other = key) ∧ (c.add key value).Distinct rest
  | call :: rest => (c.call call).Distinct rest

/-- The key that a call uses: the key that `add` enters or replaces, and the key of the
entry that a lookup finds; `none` for a lookup that finds nothing. -/
def cache.used (c : cache) : CacheCall → Option Bytes
  | CacheCall.add key _ => some key
  | CacheCall.getValue key => if (c.keys key).isSome then some key else none
  | CacheCall.getKey value => c.values value

/-- The keys that a history of calls uses, in the order of the calls. -/
def cache.uses (c : cache) : List CacheCall → List Bytes
  | [] => []
  | call :: rest => (c.used call).toList ++ (c.call call).uses rest

/-- The two directions of a cache agree and its recency list names each held key once. -/
structure cache.Paired (c : cache) : Prop where
  nodup : c.list.Nodup
  held : ∀ k, k ∈ c.list ↔ ∃ v, c.keys k = some v
  both : ∀ k v, c.keys k = some v ↔ c.values v = some k

/-- The recency list is in the order of the last uses: of two keys of the list, the one
in front was used after the last use of the other.  `recent` lists the keys used so far,
the latest first. -/
def cache.Ordered (c : cache) (recent : List Bytes) : Prop :=
  c.list.Pairwise (fun a b => a ∈ recent.takeWhile (fun x => decide (x ≠ b)))
  ∧ ∀ k ∈ c.list, k ∈ recent

/-! ## Stored events -/

/-- The value that the data of an event holds for a property id. -/
def dataValue (data : List (Int × Value)) (k : Int) : Option Value :=
  (data.find? (fun kv => kv.1 = k)).map (fun kv => kv.2)

/-- The events are in strictly increasing order of timestamp. -/
abbrev increasing (events : List Event) : Prop :=
  events.Pairwise (fun a b => a.Timestamp < b.Timestamp)

/-- The event list that the database holds for an object, on the shard the object is
routed to; `none`: no key, or no shard. -/
def db.stored (d : db) (tablespace : String) (id : Bytes) : Option (List Event) :=
  match d.shards[ObjectLocalHash id % d.shards.length]? with
  | some s => s.objects tablespace id
  | none => none

/-- A call on the database that reads or writes the events of one object. -/
inductive DbCall where
  | GetEvent (tablespace : String) (id : Bytes) (timestamp : Int)
  | GetEvents (tablespace : String) (id : Bytes)
  | InsertEvent (tablespace : String) (id : Bytes) (event : Event)
  | InsertEvents (tablespace : String) (id : Bytes) (events : List Event)
  | DeleteEvent (tablespace : String) (id : Bytes) (timestamp : Int)
  | DeleteObject (tablespace : String) (id : Bytes)

/-- The database after one call. -/
def db.call (d : db) : DbCall → db
  | DbCall.GetEvent tablespace id timestamp => (d.GetEvent tablespace id timestamp).1
  | DbCall.GetEvents tablespace id => (d.GetEvents tablespace id).1
  | DbCall.InsertEvent tablespace id event => (d.InsertEvent tablespace id event).1
  | DbCall.InsertEvents tablespace id events => (d.InsertEvents tablespace id events).1
  | DbCall.DeleteEvent tablespace id timestamp => (d.DeleteEvent tablespace id timestamp).1
  | DbCall.DeleteObject tablespace id => (d.DeleteObject tablespace id).1

/-- The database after a history of calls. -/
def db.run (d : db) : List DbCall → db
  | [] => d
  | call :: rest => (d.call call).run rest

/-! ## The property handlers (skyd/server_property_handlers.go) -/

/-- Modelled from the spec: a table as the handlers use it (its type is declared outside
the sources): the property catalog of §4.4 and the error, if any, that saving the
property file meets. -/
structure Table where
  properties : List Property
  saveError : Option String

/-- Modelled from the spec: `by_name(name)` of §4.4; `none` is the nil property. -/
def Table.GetPropertyByName (t : Table) (name : String) : Option Property :=
  t.properties.find? (fun p => p.Name = name)

/-- The assignment `property.Name = name` on the property that `GetPropertyByName`
returned, the first of that name in the catalog. -/
def renameFirst (name newName : String) : List Property → List Property
  | [] => []
  | p :: rest =>
    if p.Name = name then { p with Name := newName } :: rest
    else p :: renameFirst name newName rest

/-- Modelled from the spec: the server, by the tables that `OpenTable` opens; `none`:
`OpenTable` returns an error. -/
structure Server where
  tables : String → Option Table

/-- The errors that the handler returns. -/
inductive HandlerError where
  /-- The error of `OpenTable`. -/
  | openTable (name : String)
  /-- Message `Property does not exist.`. -/
  | doesNotExist
  /-- The error of `SavePropertyFile`. -/
  | save (err : String)
  deriving DecidableEq

/-- The decoded body of a request: a JSON object, of which the handler reads the entry
`name` (`none`: absent or not a string), or anything else. -/
inductive Params where
  | other
  | object (name : Option String)

/-- The handler of `PATCH /tables/:name/properties/:propertyName`.  Returns the server
as the call leaves it and the handler's results; `none` is the panic of the type
assertion on `params`. -/
def Server.updatePropertyHandler (s : Server) (tableName propertyName : String)
    (params : Params) : Server × Option (Option Property × Option HandlerError) :=
  match s.tables tableName with
  | none => (s, some (none, some (HandlerError.openTable tableName)))
  | some table =>
    match table.GetPropertyByName propertyName with
    | none => (s, some (none, some HandlerError.doesNotExist))
    | some property =>
      match params with
      | Params.other => (s, none)
      | Params.object p =>
        let name := p.getD ""
        let s1 : Server :=
          { tables := upd s.tables tableName
              (some { table with properties := renameFirst propertyName name table.properties }) }
        match table.saveError with
        | some err => (s1, some (none, some (HandlerError.save err)))
        | none => (s1, some (some { property with Name := name }, none))

/-! ## Sample cache and catalog -/

/-- A table with the two properties `a` and `b`. -/
def sampleTable : Table :=
  { properties := [⟨1, "a", "integer", false⟩, ⟨2, "b", "integer", false⟩], saveError := none }

/-- A server with the one table `t`. -/
def sampleServer : Server :=
  { tables := fun name => if name = "t" then some sampleTable else none }

/-- A database of one shard whose store answers every call. -/
def singleShardDb : db := { shards := [emptyShard 0 []], log := [] }

/-- A database of one shard that holds object `a` and whose store fails the third call. -/
def deleteFailsDb : db :=
  { shards := [{ sourceShard with faults := [false, false, true] }], log := [] }

/-- The history `add("a", 1); add("b", 2)`. -/
def sampleCacheHistory : List CacheCall := [CacheCall.add [97] 1, CacheCall.add [98] 2]

end Sky

/-! # Theorems -/


namespace Sky

open Factorizer

/-! ## Maps, encodings and keys -/

theorem upd_same {α β : Type} [DecidableEq α] (m : α → β) (a : α) (b : β) : upd m a b a = b := by
  simp [upd]

theorem upd_other {α β : Type} [DecidableEq α] (m : α → β) (a x : α) (b : β) (h : x ≠ a) :
    upd m a b x = m x := by
  simp [upd, h]

theorem Uint64_bigEndian (v : Nat) (h : v < 2 ^ 64) : Uint64 (bigEndian v) = some v := by
  simp only [bigEndian, Uint64, Option.some.injEq]
  omega

theorem Uint64_isSome_of_length (b : Bytes) (h : b.length = 8) : ∃ s, Uint64 b = some s := by
  match b, h with
  | [b0, b1, b2, b3, b4, b5, b6, b7], _ => exact ⟨_, rfl⟩

theorem PutUint64_of_length (b : Bytes) (v : Nat) (h : b.length = 8) :
    PutUint64 b v = some (bigEndian v) := by
  have : b.drop 8 = [] := by
    apply List.drop_eq_nil_of_le; omega
  simp [PutUint64, h, this]

theorem bigEndian_injective (a b : Nat) (ha : a < 2 ^ 64) (hb : b < 2 ^ 64)
    (h : bigEndian a = bigEndian b) : a = b := by
  have h1 := Uint64_bigEndian a ha
  have h2 := Uint64_bigEndian b hb
  rw [h] at h1
  rw [h1] at h2
  exact Option.some.inj h2

theorem decimalAux_eq (fuel : Nat) : ∀ (n : Nat) (acc : Bytes), 0 < n → n < fuel →
    decimalAux fuel n acc = ((Nat.digits 10 n).reverse.map (fun d => 48 + d)) ++ acc := by
  induction fuel with
  | zero => intro n acc _ h; omega
  | succ fuel ih =>
    intro n acc hpos hlt
    have hd : Nat.digits 10 n = (n % 10) :: Nat.digits 10 (n / 10) :=
      Nat.digits_def' (by norm_num) hpos
    by_cases h10 : n / 10 = 0
    · simp [decimalAux, h10, hd]
    · have h1 : 0 < n / 10 := Nat.pos_of_ne_zero h10
      have h2 : n / 10 < fuel := by omega
      simp [decimalAux, h10, hd, ih (n / 10) _ h1 h2]

theorem decimal_zero : decimal 0 = [48] := rfl

theorem decimal_pos (n : Nat) (h : 0 < n) :
    decimal n = (Nat.digits 10 n).reverse.map (fun d => 48 + d) := by
  simp [decimal, decimalAux_eq (n + 1) n [] h (by omega)]

theorem decimal_injective (a b : Nat) (h : decimal a = decimal b) : a = b := by
  have hinj : Function.Injective (fun d : Nat => 48 + d) := fun x y hxy => by
    simpa using hxy
  have key : ∀ n, 0 < n → decimal n ≠ [48] := by
    intro n hn hcon
    rw [decimal_pos n hn] at hcon
    have h0 : (Nat.digits 10 n).reverse = [0] := by
      apply List.map_injective_iff.mpr hinj
      simpa using hcon
    have h1 : Nat.digits 10 n = [0] := by
      have := congrArg List.reverse h0
      simpa using this
    have h2 := Nat.ofDigits_digits 10 n
    rw [h1] at h2
    simp [Nat.ofDigits] at h2
    omega
  rcases Nat.eq_zero_or_pos a with ha | ha <;> rcases Nat.eq_zero_or_pos b with hb | hb
  · omega
  · subst ha; rw [decimal_zero] at h; exact absurd h.symm (key b hb)
  · subst hb; rw [decimal_zero] at h; exact absurd h (key a ha)
  · rw [decimal_pos a ha, decimal_pos b hb] at h
    have h1 := List.map_injective_iff.mpr hinj h
    have h2 : Nat.digits 10 a = Nat.digits 10 b := by
      have := congrArg List.reverse h1
      simpa using this
    exact Nat.digits_inj_iff.mp h2

theorem key_ne_seqkey (v : Bytes) : key v ≠ seqkey := by simp [key, seqkey]
theorem revkey_ne_seqkey (s : Nat) : revkey s ≠ seqkey := by simp [revkey, seqkey]
theorem key_ne_revkey (v : Bytes) (s : Nat) : key v ≠ revkey s := by simp [key, revkey]

theorem truncate_truncate (v : Bytes) : truncate (truncate v) = truncate v := by
  unfold truncate
  split
  · simp [List.length_take]
  · rfl

theorem truncate_of_le (v : Bytes) (h : v.length ≤ maxKeySize) : truncate v = v := by
  simp [truncate]; intro h2; omega

theorem upd_upd {α β : Type} [DecidableEq α] (m : α → β) (a : α) (b c : β) :
    upd (upd m a b) a c = upd m a c := by
  funext x; simp only [upd]; split <;> rfl

theorem upd_self {α β : Type} [DecidableEq α] (m : α → β) (a : α) (b : β) (h : m a = b) :
    upd m a b = m := by
  funext x; simp only [upd]; split
  · subst_vars; rfl
  · rfl

theorem cache_eq (f : Factorizer) (id : String) :
    f.cache id = ({ f with caches := upd f.caches id (some ((f.caches id).getD (newCache cacheSize))) },
      (f.caches id).getD (newCache cacheSize)) := by
  unfold Factorizer.cache
  cases h : f.caches id with
  | none => rfl
  | some c => simp [upd_self f.caches id (some c) h]

/-- Normal form of `factorize` when the store answers. -/
theorem factorize_eq (f : Factorizer) (id : String) (v : Bytes) (c : Bool)
    (hfa : f.faults = []) :
    f.factorize id v c =
      if v = [] then (f, some (0, none))
      else
        let ch := (f.caches id).getD (newCache cacheSize)
        match ch.keys v with
        | some s => ({ f with caches := upd f.caches id (some (ch.touch v)) }, some (s, none))
        | none =>
          let fl : Factorizer :=
            { f with caches := upd f.caches id (some ch),
                     log := f.log ++ [Op.dbiOpen id, Op.get id (key v)] }
          match f.txn id (key v) with
          | some data =>
            match Uint64 data with
            | none => (fl, none)
            | some s => ({ fl with caches := upd f.caches id (some (ch.add v s)) }, some (s, none))
          | none =>
            if c then fl.add id v
            else (fl, some (0, some (Error.FactorNotFound id (key v)))) := by
  unfold factorize
  split
  · rfl
  · rw [cache_eq]
    simp only [cache.getValue]
    cases hk : ((f.caches id).getD (newCache cacheSize)).keys v with
    | some s => simp [setCache, upd_upd]
    | none =>
      simp only [Factorizer.get, Factorizer.fault, hfa]
      cases hrow : f.txn id (key v) with
      | none => simp
      | some data =>
        simp only
        cases hu : Uint64 data with
        | none => simp
        | some s => simp [setCache, upd_upd]

/-- Normal form of `add` when the store answers and the counter row (if any) decodes. -/
theorem add_eq (f : Factorizer) (id : String) (v : Bytes) (seq : Nat)
    (hfa : f.faults = [])
    (h8 : ((f.txn id seqkey).getD (List.replicate 8 0)).length = 8)
    (hseq : Uint64 ((f.txn id seqkey).getD (List.replicate 8 0)) = some seq) :
    f.add id v =
      ({ f with
         txn := upd f.txn id (upd (upd (upd (f.txn id) seqkey (some (bigEndian ((seq + 1) % 2 ^ 64))))
                  (key (truncate v)) (some (bigEndian ((seq + 1) % 2 ^ 64))))
                  (revkey ((seq + 1) % 2 ^ 64)) (some (truncate v))),
         caches := upd f.caches id
            (some (((f.caches id).getD (newCache cacheSize)).add (truncate v) ((seq + 1) % 2 ^ 64))),
         dirty := true,
         log := f.log ++ [Op.get id seqkey, Op.put id seqkey (bigEndian ((seq + 1) % 2 ^ 64)),
            Op.put id (key (truncate v)) (bigEndian ((seq + 1) % 2 ^ 64)),
            Op.put id (revkey ((seq + 1) % 2 ^ 64)) (truncate v)] },
       some ((seq + 1) % 2 ^ 64, none)) := by
  unfold Factorizer.add Factorizer.nextid
  simp only [Factorizer.get, Factorizer.fault, hfa, hseq, PutUint64_of_length _ _ h8,
    Factorizer.put]
  rw [cache_eq]
  simp [setCache, upd_upd, upd_same]

/-- Normal form of `defactorize` when the store answers. -/
theorem defactorize_eq (f : Factorizer) (id : String) (s : Nat) (hfa : f.faults = []) :
    f.defactorize id s =
      if s = 0 then (f, [], none)
      else
        let ch := (f.caches id).getD (newCache cacheSize)
        match ch.values s with
        | some k => ({ f with caches := upd f.caches id (some (ch.touch k)) }, k, none)
        | none =>
          match f.txn id (revkey s) with
          | none =>
            ({ f with caches := upd f.caches id (some ch),
                      log := f.log ++ [Op.dbiOpen id, Op.get id (revkey s)] },
              [], some (Error.Errorf "factor not found: %v" (revkey s)))
          | some data =>
            ({ f with caches := upd f.caches id (some (ch.add data s)),
                      log := f.log ++ [Op.dbiOpen id, Op.get id (revkey s)] }, data, none) := by
  unfold defactorize
  split
  · rfl
  · rw [cache_eq]
    simp only [cache.getKey]
    cases hk : ((f.caches id).getD (newCache cacheSize)).values s with
    | some k => simp [setCache, upd_upd]
    | none =>
      simp only [Factorizer.get, Factorizer.fault, hfa]
      cases hrow : f.txn id (revkey s) with
      | none => simp
      | some data => simp [setCache, upd_upd]


/-! ## The cache -/

theorem cache_remove_keys (c : cache) (k k' : Bytes) (s' : Nat)
    (h : (c.remove k).keys k' = some s') : c.keys k' = some s' := by
  unfold cache.remove at h
  split at h
  · simp only [upd] at h
    split at h
    · exact absurd h (by simp)
    · exact h
  · exact h

theorem cache_remove_values (c : cache) (k k' : Bytes) (s' : Nat)
    (h : (c.remove k).values s' = some k') : c.values s' = some k' := by
  unfold cache.remove at h
  split at h
  · simp only [upd] at h
    split at h
    · exact absurd h (by simp)
    · exact h
  · exact h

theorem cache_add_keys (c : cache) (k k' : Bytes) (s s' : Nat)
    (h : (c.add k s).keys k' = some s') : (k' = k ∧ s' = s) ∨ c.keys k' = some s' := by
  unfold cache.add at h
  split at h
  · simp only [upd] at h
    split at h
    · left; exact ⟨by assumption, (Option.some.inj h).symm⟩
    · right; exact h
  · have key : ∀ s'', upd c.keys k (some s) k' = some s'' → (k' = k ∧ s'' = s) ∨ c.keys k' = some s'' := by
      intro s'' h2
      simp only [upd] at h2
      split at h2
      · left; exact ⟨by assumption, (Option.some.inj h2).symm⟩
      · right; exact h2
    simp only at h
    split at h
    · split at h
      · exact key _ (cache_remove_keys _ _ _ _ h)
      · exact key _ h
    · exact key _ h

theorem cache_add_values (c : cache) (k k' : Bytes) (s s' : Nat)
    (h : (c.add k s).values s' = some k') : (s' = s ∧ k' = k) ∨ c.values s' = some k' := by
  unfold cache.add at h
  split at h
  · simp only [upd] at h
    split at h
    · left; exact ⟨by assumption, (Option.some.inj h).symm⟩
    · split at h
      · exact absurd h (by simp)
      · right; exact h
  · have key : ∀ k'', upd c.values s (some k) s' = some k'' → (s' = s ∧ k'' = k) ∨ c.values s' = some k'' := by
      intro k'' h2
      simp only [upd] at h2
      split at h2
      · left; exact ⟨by assumption, (Option.some.inj h2).symm⟩
      · right; exact h2
    simp only at h
    split at h
    · split at h
      · exact key _ (cache_remove_values _ _ _ _ h)
      · exact key _ h
    · exact key _ h

theorem cache_add_keys_self (c : cache) (k : Bytes) (s s' : Nat)
    (hmiss : c.keys k = none) (h : (c.add k s).keys k = some s') : s' = s := by
  rcases cache_add_keys c k k s s' h with h1 | h1
  · exact h1.2
  · rw [hmiss] at h1; exact absurd h1 (by simp)

/-! ## The counter -/

theorem counter_decode (t : Bytes → Option Bytes) (h8 : ∀ d, t seqkey = some d → d.length = 8) :
    ((t seqkey).getD (List.replicate 8 0)).length = 8
    ∧ Uint64 ((t seqkey).getD (List.replicate 8 0)) = some (counterOf t) := by
  unfold counterOf
  cases h : t seqkey with
  | none => exact ⟨rfl, rfl⟩
  | some d =>
    obtain ⟨s, hs⟩ := Uint64_isSome_of_length d (h8 d h)
    simp [h8 d h, hs]

theorem add_eq_counter (f : Factorizer) (id : String) (v : Bytes)
    (hfa : f.faults = [])
    (h8 : ∀ d, f.txn id seqkey = some d → d.length = 8) :
    f.add id v =
      ({ f with
         txn := upd f.txn id (upd (upd (upd (f.txn id) seqkey
                  (some (bigEndian ((counterOf (f.txn id) + 1) % 2 ^ 64))))
                  (key (truncate v)) (some (bigEndian ((counterOf (f.txn id) + 1) % 2 ^ 64))))
                  (revkey ((counterOf (f.txn id) + 1) % 2 ^ 64)) (some (truncate v))),
         caches := upd f.caches id
            (some (((f.caches id).getD (newCache cacheSize)).add (truncate v)
              ((counterOf (f.txn id) + 1) % 2 ^ 64))),
         dirty := true,
         log := f.log ++ [Op.get id seqkey,
            Op.put id seqkey (bigEndian ((counterOf (f.txn id) + 1) % 2 ^ 64)),
            Op.put id (key (truncate v)) (bigEndian ((counterOf (f.txn id) + 1) % 2 ^ 64)),
            Op.put id (revkey ((counterOf (f.txn id) + 1) % 2 ^ 64)) (truncate v)] },
       some ((counterOf (f.txn id) + 1) % 2 ^ 64, none)) :=
  add_eq f id v _ hfa (counter_decode _ h8).1 (counter_decode _ h8).2


/-! ## Preservation of the dictionary invariant -/

theorem RowsInv.mono {n m : Nat} {t : Bytes → Option Bytes} {ch : Option cache}
    (h : RowsInv n t ch) (hnm : n ≤ m) : RowsInv m t ch :=
  { h with counter_le := Nat.le_trans h.counter_le hnm }

theorem RowsInv.with_cache {n : Nat} {t : Bytes → Option Bytes} {ch : Option cache}
    (h : RowsInv n t ch) (c : cache)
    (hk : ∀ k s, c.keys k = some s → 1 ≤ s ∧ s ≤ counterOf t ∧ t (key k) = some (bigEndian s))
    (hv : ∀ s k, c.values s = some k →
      1 ≤ s ∧ s ≤ counterOf t ∧ t (revkey s) = some (truncate k)) :
    RowsInv n t (some c) :=
  { h with
    ckeys := fun c' hc' k s hks => by cases hc'; exact hk k s hks
    cvalues := fun c' hc' s k hks => by cases hc'; exact hv s k hks }

theorem RowsInv.getD_keys {n : Nat} {t : Bytes → Option Bytes} {ch : Option cache}
    (h : RowsInv n t ch) (k : Bytes) (s : Nat)
    (hks : (ch.getD (newCache cacheSize)).keys k = some s) :
    1 ≤ s ∧ s ≤ counterOf t ∧ t (key k) = some (bigEndian s) := by
  cases ch with
  | none => exact absurd hks (by simp [newCache])
  | some c => exact h.ckeys c rfl k s hks

theorem RowsInv.getD_values {n : Nat} {t : Bytes → Option Bytes} {ch : Option cache}
    (h : RowsInv n t ch) (s : Nat) (k : Bytes)
    (hks : (ch.getD (newCache cacheSize)).values s = some k) :
    1 ≤ s ∧ s ≤ counterOf t ∧ t (revkey s) = some (truncate k) := by
  cases ch with
  | none => exact absurd hks (by simp [newCache])
  | some c => exact h.cvalues c rfl s k hks

theorem RowsInv.row_length {n : Nat} {t : Bytes → Option Bytes} {ch : Option cache}
    (h : RowsInv n t ch) : ∀ d, t seqkey = some d → d.length = 8 := by
  intro d hd
  rw [(h.counter_row d hd).1]; rfl

/-- A cache hit or a store hit: the rows stay, the cache gains at most the pair found. -/
theorem RowsInv.cache_add {n : Nat} {t : Bytes → Option Bytes} {ch : Option cache}
    (h : RowsInv n t ch) (k : Bytes) (s : Nat)
    (hs : 1 ≤ s ∧ s ≤ counterOf t) (hfwd : t (key k) = some (bigEndian s))
    (hrev : t (revkey s) = some (truncate k)) :
    RowsInv n t (some ((ch.getD (newCache cacheSize)).add k s)) := by
  apply h.with_cache
  · intro k' s' hks
    rcases cache_add_keys _ _ _ _ _ hks with ⟨rfl, rfl⟩ | hold
    · exact ⟨hs.1, hs.2, hfwd⟩
    · exact h.getD_keys k' s' hold
  · intro s' k' hks
    rcases cache_add_values _ _ _ _ _ hks with ⟨rfl, rfl⟩ | hold
    · exact ⟨hs.1, hs.2, hrev⟩
    · exact h.getD_values s' k' hold


/-- The rows after `add` wrote the counter, the forward row and the reverse row. -/
theorem added_rows (t : Bytes → Option Bytes) (v : Bytes) (s : Nat) (k : Bytes) :
    upd (upd (upd t seqkey (some (bigEndian s))) (key (truncate v)) (some (bigEndian s)))
        (revkey s) (some (truncate v)) k =
      if k = revkey s then some (truncate v)
      else if k = key v then some (bigEndian s)
      else if k = seqkey then some (bigEndian s)
      else t k := by
  have hk : key (truncate v) = key v := by simp [key, truncate_truncate]
  simp only [upd, hk]

/-- A store miss with creation: `add` extends a consistent dictionary consistently. -/
theorem RowsInv.add_step {n : Nat} {t : Bytes → Option Bytes} {ch : Option cache}
    (h : RowsInv n t ch) (v : Bytes) (hmiss : t (key v) = none) (hn : n + 1 < 2 ^ 64) :
    RowsInv (n + 1)
      (upd (upd (upd t seqkey (some (bigEndian ((counterOf t + 1) % 2 ^ 64))))
        (key (truncate v)) (some (bigEndian ((counterOf t + 1) % 2 ^ 64))))
        (revkey ((counterOf t + 1) % 2 ^ 64)) (some (truncate v)))
      (some ((ch.getD (newCache cacheSize)).add (truncate v) ((counterOf t + 1) % 2 ^ 64))) := by
  have hc := h.counter_le
  have hmod : (counterOf t + 1) % 2 ^ 64 = counterOf t + 1 := Nat.mod_eq_of_lt (by omega)
  rw [hmod]
  generalize hs : counterOf t + 1 = s
  have hslt : s < 2 ^ 64 := by omega
  have hrevnone : t (revkey s) = none := by
    cases hr : t (revkey s) with
    | none => rfl
    | some val =>
      obtain ⟨s', _, hle, hdec, _⟩ := h.rev (decimal s) val hr
      have := decimal_injective _ _ hdec
      omega
  generalize ht' : upd (upd (upd t seqkey (some (bigEndian s))) (key (truncate v))
      (some (bigEndian s))) (revkey s) (some (truncate v)) = t'
  have hrows : ∀ k, t' k = if k = revkey s then some (truncate v)
      else if k = key v then some (bigEndian s)
      else if k = seqkey then some (bigEndian s) else t k := by
    intro k; rw [← ht']; exact added_rows t v s k
  have hkv : key v = 62 :: truncate v := rfl
  have hseq' : t' seqkey = some (bigEndian s) := by
    rw [hrows]; simp [revkey, seqkey, key]
  have hcnt : counterOf t' = s := by
    unfold counterOf; rw [hseq']; simp only [Uint64_bigEndian s hslt]; rfl
  have hrev' : t' (revkey s) = some (truncate v) := by rw [hrows]; simp
  have hfwd' : t' (key v) = some (bigEndian s) := by
    rw [hrows]; simp [key_ne_revkey]
  -- old rows other than the counter survive
  have hold : ∀ k x, k ≠ seqkey → t k = some x → t' k = some x := by
    intro k x hk hx
    rw [hrows]
    have h1 : k ≠ revkey s := fun e => by rw [e, hrevnone] at hx; exact absurd hx (by simp)
    have h2 : k ≠ key v := fun e => by rw [e, hmiss] at hx; exact absurd hx (by simp)
    simp [h1, h2, hk, hx]
  refine
    { counter_le := by omega
      counter_row := ?_
      no_rows := ?_
      fwd := ?_
      rev := ?_
      dense := ?_
      ckeys := ?_
      cvalues := ?_ }
  · intro d hd
    rw [hseq'] at hd
    rw [hcnt]
    exact ⟨(Option.some.inj hd).symm, by omega⟩
  · intro hnone; rw [hseq'] at hnone; exact absurd hnone (by simp)
  · intro k d hd
    rw [hcnt]
    by_cases hk : k = truncate v
    · subst hk
      have : t' (62 :: truncate v) = some (bigEndian s) := hfwd'
      rw [this] at hd
      exact ⟨s, by omega, Nat.le_refl _, (Option.some.inj hd).symm, hrev', truncate_truncate v⟩
    · have hd0 : t (62 :: k) = some d := by
        rw [hrows] at hd
        simpa [revkey, key, seqkey, hk] using hd
      obtain ⟨s0, h1, h2, h3, h4, h5⟩ := h.fwd k d hd0
      exact ⟨s0, h1, by omega, h3, hold _ _ (revkey_ne_seqkey s0) h4, h5⟩
  · intro kb val hd
    rw [hcnt]
    by_cases hk : kb = decimal s
    · subst hk
      have : t' (60 :: decimal s) = some (truncate v) := hrev'
      rw [this] at hd
      have hval : val = truncate v := (Option.some.inj hd).symm
      exact ⟨s, by omega, Nat.le_refl _, rfl, by rw [hval]; exact hfwd'⟩
    · have hd0 : t (60 :: kb) = some val := by
        rw [hrows] at hd
        simpa [revkey, key, seqkey, hk] using hd
      obtain ⟨s0, h1, h2, h3, h4⟩ := h.rev kb val hd0
      exact ⟨s0, h1, by omega, h3, hold _ _ (by simp [seqkey]) h4⟩
  · intro s0 h1 h2
    rw [hcnt] at h2
    by_cases hs0 : s0 = s
    · subst hs0; exact ⟨_, hrev'⟩
    · obtain ⟨k, hk⟩ := h.dense s0 h1 (by omega)
      exact ⟨k, hold _ _ (revkey_ne_seqkey s0) hk⟩
  · intro c hcache k s0 hks
    cases hcache
    rw [hcnt]
    rcases cache_add_keys _ _ _ _ _ hks with ⟨rfl, rfl⟩ | hold0
    · refine ⟨by omega, Nat.le_refl _, ?_⟩
      have : key (truncate v) = key v := by simp [key, truncate_truncate]
      rw [this]; exact hfwd'
    · obtain ⟨h1, h2, h3⟩ := h.getD_keys k s0 hold0
      exact ⟨h1, by omega, hold _ _ (key_ne_seqkey k) h3⟩
  · intro c hcache s0 k hks
    cases hcache
    rw [hcnt]
    rcases cache_add_values _ _ _ _ _ hks with ⟨rfl, rfl⟩ | hold0
    · refine ⟨by omega, Nat.le_refl _, ?_⟩
      rw [truncate_truncate]; exact hrev'
    · obtain ⟨h1, h2, h3⟩ := h.getD_values s0 k hold0
      exact ⟨h1, by omega, hold _ _ (revkey_ne_seqkey s0) h3⟩


theorem Inv.counter_row_length {n : Nat} {f : Factorizer} (h : Inv n f) (id : String) :
    ∀ d, f.txn id seqkey = some d → d.length = 8 :=
  (h id).row_length

theorem RowsInv.fwd_decode {n : Nat} {t : Bytes → Option Bytes} {ch : Option cache}
    (h : RowsInv n t ch) (hn : n < 2 ^ 64) (v data : Bytes) (hrow : t (key v) = some data) :
    ∃ s, Uint64 data = some s ∧ 1 ≤ s ∧ s ≤ counterOf t ∧ data = bigEndian s
      ∧ t (revkey s) = some (truncate v) := by
  obtain ⟨s, h1, h2, h3, h4, _⟩ := h.fwd (truncate v) data hrow
  have := h.counter_le
  exact ⟨s, by rw [h3]; exact Uint64_bigEndian s (by omega), h1, h2, h3, h4⟩

/-- The unexported `factorize` keeps every dictionary consistent. -/
theorem factorize_inv (n : Nat) (f : Factorizer) (id : String) (v : Bytes) (c : Bool)
    (hfa : f.faults = []) (h : Inv n f) (hn : n + 1 < 2 ^ 64) :
    Inv (n + 1) (f.factorize id v c).1 := by
  have hmono : Inv (n + 1) f := fun id' => (h id').mono (Nat.le_succ n)
  have hframe : ∀ (g : Factorizer) (t' : Bytes → Option Bytes) (ch' : cache),
      g.txn = upd f.txn id t' → g.caches = upd f.caches id (some ch') →
      RowsInv (n + 1) t' (some ch') → Inv (n + 1) g := by
    intro g t' ch' hg1 hg2 hrows id'
    rw [hg1, hg2]
    by_cases hid : id' = id
    · subst hid; simpa [upd_same] using hrows
    · simpa [upd_other _ _ _ _ hid] using hmono id'
  have hself : f.txn = upd f.txn id (f.txn id) := (upd_self _ _ _ rfl).symm
  rw [factorize_eq _ _ _ _ hfa]
  split
  · exact hmono
  · simp only
    cases hk : ((f.caches id).getD (newCache cacheSize)).keys v with
    | some s =>
      simp only
      refine hframe _ (f.txn id) _ hself rfl ?_
      exact (hmono id).with_cache _ (fun k s hks => (hmono id).getD_keys k s hks)
        (fun s k hks => (hmono id).getD_values s k hks)
    | none =>
      simp only
      cases hrow : f.txn id (key v) with
      | some data =>
        simp only
        obtain ⟨s, hs, h1, h2, h3, h4⟩ := (h id).fwd_decode (by omega) v data hrow
        rw [hs]
        simp only
        refine hframe _ (f.txn id) _ hself rfl ?_
        exact (hmono id).cache_add v s ⟨h1, h2⟩ (by rw [hrow, h3]) h4
      | none =>
        simp only
        have hgetD : RowsInv (n + 1) (f.txn id) (some ((f.caches id).getD (newCache cacheSize))) :=
          (hmono id).with_cache _ (fun k s hks => (hmono id).getD_keys k s hks)
            (fun s k hks => (hmono id).getD_values s k hks)
        cases c with
        | false =>
          simp only [Bool.false_eq_true, if_false]
          exact hframe _ (f.txn id) _ hself rfl hgetD
        | true =>
          simp only [if_true]
          have hadd := add_eq_counter
            { f with caches := upd f.caches id (some ((f.caches id).getD (newCache cacheSize))),
                     log := f.log ++ [Op.dbiOpen id, Op.get id (key v)] } id v hfa
            (h.counter_row_length id)
          rw [hadd]
          simp only [upd_same, upd_upd, Option.getD_some]
          exact hframe _ _ _ rfl rfl ((h id).add_step v hrow hn)


/-- The unexported `defactorize` keeps every dictionary consistent. -/
theorem defactorize_inv (n : Nat) (f : Factorizer) (id : String) (s : Nat)
    (hfa : f.faults = []) (h : Inv n f) : Inv n (f.defactorize id s).1 := by
  have hframe : ∀ (g : Factorizer) (ch' : cache),
      g.txn = f.txn → g.caches = upd f.caches id (some ch') →
      RowsInv n (f.txn id) (some ch') → Inv n g := by
    intro g ch' hg1 hg2 hrows id'
    rw [hg1, hg2]
    by_cases hid : id' = id
    · subst hid; simpa [upd_same] using hrows
    · simpa [upd_other _ _ _ _ hid] using h id'
  have hgetD : RowsInv n (f.txn id) (some ((f.caches id).getD (newCache cacheSize))) :=
    (h id).with_cache _ (fun k s hks => (h id).getD_keys k s hks)
      (fun s k hks => (h id).getD_values s k hks)
  rw [defactorize_eq _ _ _ hfa]
  split
  · exact h
  · simp only
    cases hk : ((f.caches id).getD (newCache cacheSize)).values s with
    | some k =>
      exact hframe _ _ rfl rfl ((h id).with_cache _ (fun k s hks => (h id).getD_keys k s hks)
        (fun s k hks => (h id).getD_values s k hks))
    | none =>
      simp only
      cases hrow : f.txn id (revkey s) with
      | none => exact hframe _ _ rfl rfl hgetD
      | some data =>
        simp only
        refine hframe _ _ rfl rfl ?_
        obtain ⟨s', h1, h2, h3, h4⟩ := (h id).rev (decimal s) data hrow
        have hs : s = s' := decimal_injective _ _ h3
        subst hs
        obtain ⟨_, _, _, _, _, htr⟩ := (h id).fwd data _ h4
        refine (h id).cache_add data s ⟨h1, h2⟩ ?_ ?_
        · simp only [key, htr]; exact h4
        · rw [htr]; exact hrow

theorem renew_txn (f : Factorizer) : f.renew.txn = f.txn := by
  unfold renew; split <;> rfl

theorem renew_caches (f : Factorizer) : f.renew.caches = f.caches := by
  unfold renew; split <;> rfl

theorem renew_inv (n : Nat) (f : Factorizer) (h : Inv n f) : Inv n f.renew := by
  intro id; rw [renew_txn, renew_caches]; exact h id

theorem renew_short (f : Factorizer) (h : ShortCached f) : ShortCached f.renew := by
  intro id c hc; rw [renew_caches] at hc; exact h id c hc

theorem ShortCached.set {f g : Factorizer} (h : ShortCached f) (id : String) (ch' : cache)
    (hg : g.caches = upd f.caches id (some ch'))
    (hch : ∀ s k, ch'.values s = some k → truncate k = k) : ShortCached g := by
  intro id' c hc s k hks
  rw [hg] at hc
  by_cases hid : id' = id
  · subst hid
    rw [upd_same] at hc
    cases hc
    exact hch s k hks
  · rw [upd_other _ _ _ _ hid] at hc
    exact h id' c hc s k hks

theorem ShortCached.getD {f : Factorizer} (h : ShortCached f) (id : String) (s : Nat) (k : Bytes)
    (hks : ((f.caches id).getD (newCache cacheSize)).values s = some k) : truncate k = k := by
  cases hc : f.caches id with
  | none => rw [hc] at hks; exact absurd hks (by simp [newCache])
  | some c => rw [hc] at hks; exact h id c hc s k hks

theorem ShortCached.add {f : Factorizer} (h : ShortCached f) (id : String) (k : Bytes) (s : Nat)
    (hk : truncate k = k) (s' : Nat) (k' : Bytes)
    (hks : (((f.caches id).getD (newCache cacheSize)).add k s).values s' = some k') :
    truncate k' = k' := by
  rcases cache_add_values _ _ _ _ _ hks with ⟨_, rfl⟩ | hold
  · exact hk
  · exact h.getD id s' k' hold

/-- With a value that fits the key size, `factorize` caches only values that fit. -/
theorem factorize_short (n : Nat) (f : Factorizer) (id : String) (v : Bytes) (c : Bool)
    (hfa : f.faults = []) (h : Inv n f) (hs : ShortCached f) (hv : truncate v = v) :
    ShortCached (f.factorize id v c).1 := by
  rw [factorize_eq _ _ _ _ hfa]
  split
  · exact hs
  · simp only
    cases hk : ((f.caches id).getD (newCache cacheSize)).keys v with
    | some s => exact hs.set id _ rfl (fun s k hks => hs.getD id s k hks)
    | none =>
      simp only
      cases hrow : f.txn id (key v) with
      | some data =>
        simp only
        cases hu : Uint64 data with
        | none => exact hs.set id _ rfl (fun s k hks => hs.getD id s k hks)
        | some s => exact hs.set id _ rfl (fun s' k' hks => hs.add id v s hv s' k' hks)
      | none =>
        simp only
        cases c with
        | false =>
          simp only [Bool.false_eq_true, if_false]
          exact hs.set id _ rfl (fun s k hks => hs.getD id s k hks)
        | true =>
          simp only [if_true]
          have hadd := add_eq_counter
            { f with caches := upd f.caches id (some ((f.caches id).getD (newCache cacheSize))),
                     log := f.log ++ [Op.dbiOpen id, Op.get id (key v)] } id v hfa
            (h.counter_row_length id)
          rw [hadd]
          simp only [upd_same, upd_upd, Option.getD_some]
          exact hs.set id _ rfl
            (fun s' k' hks => hs.add id (truncate v) _ (truncate_truncate v) s' k' hks)

/-- On a consistent dictionary `defactorize` caches only values that fit the key size. -/
theorem defactorize_short (n : Nat) (f : Factorizer) (id : String) (s : Nat)
    (hfa : f.faults = []) (h : Inv n f) (hs : ShortCached f) :
    ShortCached (f.defactorize id s).1 := by
  rw [defactorize_eq _ _ _ hfa]
  split
  · exact hs
  · simp only
    cases hk : ((f.caches id).getD (newCache cacheSize)).values s with
    | some k => exact hs.set id _ rfl (fun s k hks => hs.getD id s k hks)
    | none =>
      simp only
      cases hrow : f.txn id (revkey s) with
      | none => exact hs.set id _ rfl (fun s k hks => hs.getD id s k hks)
      | some data =>
        simp only
        obtain ⟨s', _, _, _, h4⟩ := (h id).rev (decimal s) data hrow
        obtain ⟨_, _, _, _, _, htr⟩ := (h id).fwd data _ h4
        exact hs.set id _ rfl (fun s' k' hks => hs.add id data s htr s' k' hks)


/-! ## Well-formed rows -/

theorem WellFormed.of_txn {f g : Factorizer} (h : WellFormed f) (hg : g.txn = f.txn) :
    WellFormed g := by
  intro id; rw [hg]; exact h id

theorem defactorize_txn (f : Factorizer) (id : String) (s : Nat) (hfa : f.faults = []) :
    (f.defactorize id s).1.txn = f.txn := by
  rw [defactorize_eq _ _ _ hfa]
  split
  · rfl
  · simp only
    split
    · rfl
    · split <;> rfl

/-- The unexported `factorize` writes only eight-byte counters and forward rows. -/
theorem factorize_wf (f : Factorizer) (id : String) (v : Bytes) (c : Bool)
    (hfa : f.faults = []) (h : WellFormed f) : WellFormed (f.factorize id v c).1 := by
  rw [factorize_eq _ _ _ _ hfa]
  split
  · exact h
  · simp only
    split
    · exact h.of_txn rfl
    · split
      · split
        · exact h.of_txn rfl
        · exact h.of_txn rfl
      · cases c with
        | false => simp only [Bool.false_eq_true, if_false]; exact h.of_txn rfl
        | true =>
          simp only [if_true]
          have hadd := add_eq_counter
            { f with caches := upd f.caches id (some ((f.caches id).getD (newCache cacheSize))),
                     log := f.log ++ [Op.dbiOpen id, Op.get id (key v)] } id v hfa (h id).1
          rw [hadd]
          simp only
          intro id'
          by_cases hid : id' = id
          · subst hid
            simp only [upd_same]
            constructor
            · intro d hd
              rw [added_rows] at hd
              simp only [revkey, key, seqkey, if_true] at hd
              simp at hd
              rw [← hd]; rfl
            · intro k d hd
              rw [added_rows] at hd
              simp only [revkey, key, seqkey] at hd
              simp at hd
              split at hd
              · rw [← Option.some.inj hd]; rfl
              · exact (h id').2 k d hd
          · simp only [upd_other _ _ _ _ hid]; exact h id'

/-! ## A store that answers keeps answering -/

theorem factorize_faults (f : Factorizer) (id : String) (v : Bytes) (c : Bool)
    (hfa : f.faults = []) (h8 : ∀ d, f.txn id seqkey = some d → d.length = 8) :
    (f.factorize id v c).1.faults = [] := by
  rw [factorize_eq _ _ _ _ hfa]
  split
  · exact hfa
  · simp only
    split
    · exact hfa
    · split
      · split
        · exact hfa
        · exact hfa
      · cases c with
        | false => simp only [Bool.false_eq_true, if_false]; exact hfa
        | true =>
          simp only [if_true]
          have hadd := add_eq_counter
            { f with caches := upd f.caches id (some ((f.caches id).getD (newCache cacheSize))),
                     log := f.log ++ [Op.dbiOpen id, Op.get id (key v)] } id v hfa h8
          rw [hadd]
          exact hfa

theorem defactorize_faults (f : Factorizer) (id : String) (s : Nat) (hfa : f.faults = []) :
    (f.defactorize id s).1.faults = [] := by
  rw [defactorize_eq _ _ _ hfa]
  split
  · exact hfa
  · simp only
    split
    · exact hfa
    · split <;> exact hfa

theorem renew_faults (f : Factorizer) : f.renew.faults = f.faults := by
  unfold renew; split <;> rfl

/-! ## Induction over histories of calls -/

/-- A property with a budget that `factorize` spends by one, over the loop of
`FactorizeEvent`. -/
theorem factorizeData_ind (P : Nat → Factorizer → Prop) (ok : Bytes → Prop) (lim : Nat → Prop)
    (hlim : ∀ n m, n ≤ m → lim m → lim n)
    (hmono : ∀ n m f, n ≤ m → P n f → P m f)
    (hf : ∀ n f id v c, ok v → lim (n + 1) → P n f → P (n + 1) (f.factorize id v c).1)
    (pf : PropertyFile) (c : Bool) :
    ∀ (data : List (Int × Value)) (n : Nat) (f : Factorizer),
      (∀ v ∈ stringValues data, ok v) → lim (n + (stringValues data).length) → P n f →
      P (n + (stringValues data).length) (factorizeData pf c f data).1 := by
  intro data
  induction data with
  | nil => intro n f _ _ h; simpa [factorizeData, stringValues] using h
  | cons kv rest ih =>
    intro n f hok hl h
    obtain ⟨k, v⟩ := kv
    have hskip : stringValues rest = stringValues ((k, v) :: rest)
        ∨ ∃ sv, v = Value.string sv ∧ stringValues ((k, v) :: rest) = sv :: stringValues rest := by
      cases v <;> simp [stringValues]
    have hle : (stringValues rest).length ≤ (stringValues ((k, v) :: rest)).length := by
      rcases hskip with h1 | ⟨sv, _, h1⟩
      · rw [h1]
      · rw [h1]; simp
    have hokrest : ∀ x ∈ stringValues rest, ok x := by
      intro x hx
      apply hok
      rcases hskip with h1 | ⟨sv, _, h1⟩
      · rw [← h1]; exact hx
      · rw [h1]; exact List.mem_cons_of_mem _ hx
    have hpass : ∀ g, P n g → P (n + (stringValues ((k, v) :: rest)).length)
        (factorizeData pf c g rest).1 := by
      intro g hg
      exact hmono _ _ _ (by omega)
        (ih n g hokrest (hlim _ _ (by omega) hl) hg)
    have hstop : ∀ g, P n g → P (n + (stringValues ((k, v) :: rest)).length) g :=
      fun g hg => hmono _ _ _ (by omega) hg
    unfold factorizeData
    cases hp : pf.GetProperty k with
    | none => exact hstop f h
    | some property =>
      simp only
      by_cases hdt : property.DataType = FactorDataType
      · simp only [hdt, if_true]
        cases v with
        | string stringValue =>
          simp only
          have hsv : stringValues ((k, Value.string stringValue) :: rest)
              = stringValue :: stringValues rest := rfl
          have hstep : P (n + 1) (f.factorize property.Name stringValue c).1 :=
            hf n f _ stringValue c (hok _ (by rw [hsv]; exact List.mem_cons_self _ _))
              (hlim _ _ (by rw [hsv]; simp) hl) h
          split
          · rename_i heq
            rw [heq] at hstep
            exact hmono _ _ _ (by rw [hsv]; simp) hstep
          · rename_i heq
            rw [heq] at hstep
            exact hmono _ _ _ (by rw [hsv]; simp) hstep
          · rename_i heq
            rw [heq] at hstep
            simp only at hstep
            have := ih (n + 1) _ hokrest (hlim _ _ (by rw [hsv]; simp; omega) hl) hstep
            rw [hsv]
            simp only [List.length_cons]
            have e : n + ((stringValues rest).length + 1) = n + 1 + (stringValues rest).length := by
              omega
            rw [e]
            exact this
        | _ => exact hpass f h
      · simp only [hdt, if_false]
        exact hpass f h

/-- A property that `defactorize` keeps, over the loop of `DefactorizeEvent`. -/
theorem defactorizeData_ind (Q : Factorizer → Prop)
    (hd : ∀ f id s, Q f → Q (f.defactorize id s).1) (pf : PropertyFile) :
    ∀ (data : List (Int × Value)) (f : Factorizer), Q f → Q (defactorizeData pf f data).1 := by
  intro data
  induction data with
  | nil => intro f h; exact h
  | cons kv rest ih =>
    intro f h
    obtain ⟨k, v⟩ := kv
    unfold defactorizeData
    cases hp : pf.GetProperty k with
    | none => exact h
    | some property =>
      simp only
      by_cases hdt : property.DataType = FactorDataType
      · simp only [hdt, if_true]
        have hstep := hd f property.Name (sequenceOf v) h
        split
        · rename_i heq
          rw [heq] at hstep
          exact hstep
        · rename_i heq
          rw [heq] at hstep
          exact ih _ hstep
      · simp only [hdt, if_false]
        exact ih f h

/-- Induction over one call of the public interface. -/
theorem call_ind (P : Nat → Factorizer → Prop) (ok : Bytes → Prop) (lim : Nat → Prop)
    (hlim : ∀ n m, n ≤ m → lim m → lim n)
    (hmono : ∀ n m f, n ≤ m → P n f → P m f)
    (hf : ∀ n f id v c, ok v → lim (n + 1) → P n f → P (n + 1) (f.factorize id v c).1)
    (hd : ∀ n f id s, P n f → P n (f.defactorize id s).1)
    (hr : ∀ n f, P n f → P n f.renew) :
    ∀ (c : Call) (n : Nat) (f : Factorizer),
      (∀ v ∈ c.values, ok v) → lim (n + c.values.length) → P n f →
      P (n + c.values.length) (f.call c) := by
  intro c n f hok hl h
  cases c with
  | Factorize id value createIfMissing =>
    simp only [Call.values, List.length_singleton] at hl ⊢
    simp only [Factorizer.call, Factorize]
    exact hr _ _ (hf n f id value createIfMissing (hok _ (by simp [Call.values])) hl h)
  | Defactorize id value =>
    simp only [Call.values, List.length_nil, Nat.add_zero]
    simp only [Factorizer.call, Defactorize]
    exact hr _ _ (hd n f id value h)
  | FactorizeEvent event pf createIfMissing =>
    cases event with
    | none => simpa [Call.values, Factorizer.call, FactorizeEvent] using h
    | some e =>
      simp only [Call.values] at hl hok ⊢
      simp only [Factorizer.call, FactorizeEvent]
      exact hr _ _ (factorizeData_ind P ok lim hlim hmono hf pf createIfMissing e.Data n f hok hl h)
  | DefactorizeEvent event pf =>
    cases event with
    | none => simpa [Call.values, Factorizer.call, DefactorizeEvent] using h
    | some e =>
      simp only [Call.values, List.length_nil, Nat.add_zero]
      simp only [Factorizer.call, DefactorizeEvent]
      exact hr _ _ (defactorizeData_ind (P n) (hd n) pf e.Data f h)

/-- Induction over a history of calls. -/
theorem run_ind (P : Nat → Factorizer → Prop) (ok : Bytes → Prop) (lim : Nat → Prop)
    (hlim : ∀ n m, n ≤ m → lim m → lim n)
    (hmono : ∀ n m f, n ≤ m → P n f → P m f)
    (hf : ∀ n f id v c, ok v → lim (n + 1) → P n f → P (n + 1) (f.factorize id v c).1)
    (hd : ∀ n f id s, P n f → P n (f.defactorize id s).1)
    (hr : ∀ n f, P n f → P n f.renew) :
    ∀ (calls : List Call) (n : Nat) (f : Factorizer),
      (∀ c ∈ calls, ∀ v ∈ c.values, ok v) → lim (n + cost calls) → P n f →
      P (n + cost calls) (f.run calls) := by
  intro calls
  induction calls with
  | nil => intro n f _ _ h; simpa [cost, Factorizer.run] using h
  | cons c rest ih =>
    intro n f hok hl h
    simp only [cost, Factorizer.run] at hl ⊢
    have h1 := call_ind P ok lim hlim hmono hf hd hr c n f (hok c (List.mem_cons_self _ _))
      (hlim _ _ (by omega) hl) h
    have h2 := ih (n + c.values.length) (f.call c)
      (fun c' hc' => hok c' (List.mem_cons_of_mem _ hc')) (by rw [Nat.add_assoc]; exact hl) h1
    rw [Nat.add_assoc] at h2
    exact h2

theorem newFactorizer_inv : Inv 0 NewFactorizer := by
  intro id
  refine
    { counter_le := Nat.le_refl _
      counter_row := fun d hd => absurd hd (by simp [NewFactorizer])
      no_rows := fun _ k => rfl
      fwd := fun k d hd => absurd hd (by simp [NewFactorizer])
      rev := fun k d hd => absurd hd (by simp [NewFactorizer])
      dense := fun s h1 h2 => by
        have : counterOf (NewFactorizer.txn id) = 0 := rfl
        omega
      ckeys := fun c hc => absurd hc (by simp [NewFactorizer])
      cvalues := fun c hc => absurd hc (by simp [NewFactorizer]) }

theorem newFactorizer_wf : WellFormed NewFactorizer := by
  intro id
  exact ⟨fun d hd => absurd hd (by simp [NewFactorizer]),
    fun k d hd => absurd hd (by simp [NewFactorizer])⟩

/-- Every state a history of calls reaches from an empty store has well-formed rows,
and the store keeps answering. -/
theorem run_wf (calls : List Call) :
    (NewFactorizer.run calls).faults = [] ∧ WellFormed (NewFactorizer.run calls) := by
  have := run_ind (fun _ f => f.faults = [] ∧ WellFormed f) (fun _ => True) (fun _ => True)
    (fun _ _ _ _ => trivial) (fun _ _ _ _ h => h)
    (fun _ f id v c _ _ h => ⟨factorize_faults f id v c h.1 (h.2 id).1, factorize_wf f id v c h.1 h.2⟩)
    (fun _ f id s h => ⟨defactorize_faults f id s h.1, h.2.of_txn (defactorize_txn f id s h.1)⟩)
    (fun _ f h => ⟨(renew_faults f).trans h.1, h.2.of_txn (renew_txn f)⟩)
    calls 0 NewFactorizer (fun _ _ _ _ => trivial) trivial ⟨rfl, newFactorizer_wf⟩
  exact this

/-- Every state a history of calls reaches from an empty store is consistent, as long
as the history cannot exhaust the 64-bit sequence counter. -/
theorem run_inv (calls : List Call) (hcost : cost calls < 2 ^ 64) :
    (NewFactorizer.run calls).faults = [] ∧ Inv (cost calls) (NewFactorizer.run calls) := by
  have := run_ind (fun n f => f.faults = [] ∧ Inv n f) (fun _ => True) (fun n => n < 2 ^ 64)
    (fun _ _ hnm hm => Nat.lt_of_le_of_lt hnm hm)
    (fun _ _ f hnm h => ⟨h.1, fun id => (h.2 id).mono hnm⟩)
    (fun n f id v c _ hn h =>
      ⟨factorize_faults f id v c h.1 (h.2.counter_row_length id),
        factorize_inv n f id v c h.1 h.2 hn⟩)
    (fun n f id s h => ⟨defactorize_faults f id s h.1, defactorize_inv n f id s h.1 h.2⟩)
    (fun n f h => ⟨(renew_faults f).trans h.1, renew_inv n f h.2⟩)
    calls 0 NewFactorizer (fun _ _ _ _ => trivial) (by simpa using hcost)
    ⟨rfl, newFactorizer_inv⟩
  simpa using this

/-- When every value handed to `factorize` fits the key size, the caches hold only
values that fit. -/
theorem run_inv_short (calls : List Call) (hcost : cost calls < 2 ^ 64)
    (hshort : ∀ c ∈ calls, ∀ v ∈ c.values, v.length ≤ maxKeySize) :
    (NewFactorizer.run calls).faults = [] ∧ Inv (cost calls) (NewFactorizer.run calls)
      ∧ ShortCached (NewFactorizer.run calls) := by
  have := run_ind (fun n f => f.faults = [] ∧ Inv n f ∧ ShortCached f)
    (fun v => v.length ≤ maxKeySize) (fun n => n < 2 ^ 64)
    (fun _ _ hnm hm => Nat.lt_of_le_of_lt hnm hm)
    (fun _ _ f hnm h => ⟨h.1, fun id => (h.2.1 id).mono hnm, h.2.2⟩)
    (fun n f id v c hv hn h =>
      ⟨factorize_faults f id v c h.1 (h.2.1.counter_row_length id),
        factorize_inv n f id v c h.1 h.2.1 hn,
        factorize_short n f id v c h.1 h.2.1 h.2.2 (truncate_of_le v hv)⟩)
    (fun n f id s h =>
      ⟨defactorize_faults f id s h.1, defactorize_inv n f id s h.1 h.2.1,
        defactorize_short n f id s h.1 h.2.1 h.2.2⟩)
    (fun n f h => ⟨(renew_faults f).trans h.1, renew_inv n f h.2.1, renew_short f h.2.2⟩)
    calls 0 NewFactorizer hshort (by simpa using hcost)
    ⟨rfl, newFactorizer_inv, fun id c hc => absurd hc (by simp [NewFactorizer])⟩
  simpa using this

/-! ## Lookups on a consistent dictionary -/

theorem Uint64_of_wf (f : Factorizer) (hwf : WellFormed f) (id : String) (v data : Bytes)
    (hrow : f.txn id (key v) = some data) : ∃ s, Uint64 data = some s :=
  Uint64_isSome_of_length data ((hwf id).2 (truncate v) data hrow)

/-- A `factorize` call with creation on well-formed rows, followed by a second
`factorize` of the same value. -/
theorem factorize_twice (f : Factorizer) (id : String) (v : Bytes) (c : Bool)
    (hfa : f.faults = []) (hwf : WellFormed f) (hv : v ≠ []) :
    ∃ s, (f.factorize id v true).2 = some (s, none) ∧
      ∀ g : Factorizer, g.faults = [] → g.txn = (f.factorize id v true).1.txn →
        g.caches = (f.factorize id v true).1.caches →
        (g.factorize id v c).2 = some (s, none) ∧ (g.factorize id v c).1.txn = g.txn := by
  rw [factorize_eq f _ _ _ hfa]
  simp only [hv, if_false]
  cases hk : ((f.caches id).getD (newCache cacheSize)).keys v with
  | some s =>
    refine ⟨s, rfl, ?_⟩
    intro g hga hg1 hg2
    rw [factorize_eq g _ _ _ hga]
    simp only [hv, if_false, hg2, upd_same, Option.getD_some]
    have : (((f.caches id).getD (newCache cacheSize)).touch v).keys v = some s := hk
    rw [this]
    exact ⟨rfl, rfl⟩
  | none =>
    simp only
    cases hrow : f.txn id (key v) with
    | some data =>
      obtain ⟨s, hs⟩ := Uint64_of_wf f hwf id v data hrow
      simp only [hs]
      refine ⟨s, rfl, ?_⟩
      intro g hga hg1 hg2
      rw [factorize_eq g _ _ _ hga]
      simp only [hv, if_false, hg2, upd_same, Option.getD_some]
      cases hk2 : (((f.caches id).getD (newCache cacheSize)).add v s).keys v with
      | some s' =>
        have := cache_add_keys_self _ _ _ _ hk hk2
        subst this
        exact ⟨rfl, rfl⟩
      | none =>
        simp only [hg1, hrow, hs]
        exact ⟨trivial, trivial⟩
    | none =>
      simp only [if_true]
      have hadd := add_eq_counter
        { f with caches := upd f.caches id (some ((f.caches id).getD (newCache cacheSize))),
                 log := f.log ++ [Op.dbiOpen id, Op.get id (key v)] } id v hfa (hwf id).1
      rw [hadd]
      simp only [upd_same, upd_upd, Option.getD_some]
      generalize hs : (counterOf (f.txn id) + 1) % 2 ^ 64 = s
      have hslt : s < 2 ^ 64 := by rw [← hs]; exact Nat.mod_lt _ (by norm_num)
      refine ⟨s, rfl, ?_⟩
      intro g hga hg1 hg2
      rw [factorize_eq g _ _ _ hga]
      simp only [hv, if_false, hg2, upd_same, Option.getD_some]
      have hrow' : g.txn id (key v) = some (bigEndian s) := by
        rw [hg1]; simp only [upd_same]
        rw [added_rows]; simp [key_ne_revkey]
      cases hk2 : (((f.caches id).getD (newCache cacheSize)).add (truncate v) s).keys v with
      | some s' =>
        simp only
        rcases cache_add_keys _ _ _ _ _ hk2 with ⟨_, rfl⟩ | hold
        · exact ⟨rfl, trivial⟩
        · rw [hk] at hold; exact absurd hold (by simp)
      | none =>
        simp only [hrow', Uint64_bigEndian s hslt]
        exact ⟨trivial, trivial⟩

/-- C3 (factor identity): in every state that a history of calls reaches from an empty
store that answers every operation, two successive `Factorize(id, value, true)` calls on a non-empty value return
the same sequence without error, and the second call leaves every row of the store
(forward rows, reverse rows and the `"+"` counter) as the first call left it. -/
theorem factor_identity (calls : List Call) (id : String) (value : Bytes) (hvalue : value ≠ []) :
    ∃ s, ((NewFactorizer.run calls).Factorize id value true).2 = some (s, none)
      ∧ (((NewFactorizer.run calls).Factorize id value true).1.Factorize id value true).2
          = some (s, none)
      ∧ (((NewFactorizer.run calls).Factorize id value true).1.Factorize id value true).1.txn
          = ((NewFactorizer.run calls).Factorize id value true).1.txn := by
  obtain ⟨hfa, hwf⟩ := run_wf calls
  obtain ⟨s, h1, h2⟩ := factorize_twice (NewFactorizer.run calls) id value true hfa hwf hvalue
  have h3 := h2 ((NewFactorizer.run calls).factorize id value true).1.renew
    ((renew_faults _).trans (factorize_faults _ id value true hfa (hwf id).1))
    (renew_txn _) (renew_caches _)
  refine ⟨s, ?_, ?_, ?_⟩
  · simpa [Factorize] using h1
  · simpa [Factorize] using h3.1
  · simp only [Factorize, renew_txn]
    exact h3.2.trans (renew_txn _)


/-- On a consistent dictionary, `factorize` without creation returns exactly the
sequence of the forward row. -/
theorem factorize_lookup (n : Nat) (f : Factorizer) (id : String) (v : Bytes) (s : Nat)
    (hfa : f.faults = []) (h : Inv n f) (hn : n < 2 ^ 64) (hv : v ≠ []) :
    (f.factorize id v false).2 = some (s, none) ↔
      (f.txn id (key v) = some (bigEndian s) ∧ 1 ≤ s ∧ s ≤ counterOf (f.txn id)) := by
  have hc := (h id).counter_le
  rw [factorize_eq f _ _ _ hfa]
  simp only [hv, if_false]
  cases hk : ((f.caches id).getD (newCache cacheSize)).keys v with
  | some s' =>
    obtain ⟨h1, h2, h3⟩ := (h id).getD_keys v s' hk
    simp only [Option.some.injEq, Prod.mk.injEq, and_true]
    constructor
    · rintro rfl; exact ⟨h3, h1, h2⟩
    · rintro ⟨h4, _, h6⟩
      rw [h3] at h4
      exact bigEndian_injective _ _ (by omega) (by omega) (Option.some.inj h4)
  | none =>
    simp only
    cases hrow : f.txn id (key v) with
    | some data =>
      obtain ⟨s', hs', h1, h2, h3, _⟩ := (h id).fwd_decode hn v data hrow
      simp only [hs', Option.some.injEq, Prod.mk.injEq, and_true]
      constructor
      · rintro rfl; exact ⟨h3, h1, h2⟩
      · rintro ⟨h4, _, h6⟩
        rw [h3] at h4
        exact bigEndian_injective _ _ (by omega) (by omega) h4
    | none => simp

/-- On a consistent dictionary whose caches hold only values that fit the key size,
`defactorize` returns exactly the value of the reverse row. -/
theorem defactorize_lookup (n : Nat) (f : Factorizer) (id : String) (s : Nat) (v : Bytes)
    (hfa : f.faults = []) (h : Inv n f) (hsh : ShortCached f) (hs : s ≠ 0) :
    (f.defactorize id s).2 = (v, none) ↔ f.txn id (revkey s) = some v := by
  rw [defactorize_eq f _ _ hfa]
  simp only [hs, if_false]
  cases hk : ((f.caches id).getD (newCache cacheSize)).values s with
  | some k =>
    obtain ⟨_, _, h3⟩ := (h id).getD_values s k hk
    rw [hsh.getD id s k hk] at h3
    simp only [Prod.mk.injEq, and_true, h3, Option.some.injEq]
  | none =>
    simp only
    cases hrow : f.txn id (revkey s) with
    | some data => simp
    | none => simp

/-- On a consistent dictionary the forward and the reverse rows are inverse to each other. -/
theorem RowsInv.fwd_iff_rev {n : Nat} {t : Bytes → Option Bytes} {ch : Option cache}
    (h : RowsInv n t ch) (hn : n < 2 ^ 64) (v : Bytes) (s : Nat) :
    (t (62 :: v) = some (bigEndian s) ∧ 1 ≤ s ∧ s ≤ counterOf t) ↔ t (revkey s) = some v := by
  have hc := h.counter_le
  constructor
  · rintro ⟨h1, h2, h3⟩
    obtain ⟨s', _, h5, h6, h7, _⟩ := h.fwd v _ h1
    have : s = s' := bigEndian_injective _ _ (by omega) (by omega) h6
    rw [this]; exact h7
  · intro h1
    obtain ⟨s', h2, h3, h4, h5⟩ := h.rev (decimal s) v h1
    have : s = s' := decimal_injective _ _ h4
    subst this
    exact ⟨h5, h2, h3⟩

/-- C7 (the factor dictionary is a bijection): in every state reached from an empty store
(one that answers every operation) by a history of calls that hands only values of at most 500 bytes to `factorize`
(and fewer than `2^64` of them, so that the 64-bit counter cannot wrap), for a
non-empty value of at most 500 bytes and a sequence other than 0,
`Factorize(id, value, false)` returns the sequence exactly when
`Defactorize(id, sequence)` returns the value; hence two values that receive the
same sequence are equal. -/
theorem factor_dictionary_bijection (calls : List Call)
    (hshort : ∀ c ∈ calls, ∀ v ∈ c.values, v.length ≤ maxKeySize)
    (hcost : cost calls < 2 ^ 64)
    (id : String) (value : Bytes) (sequence : Nat)
    (hvalue : value ≠ []) (hlen : value.length ≤ maxKeySize) (hsequence : sequence ≠ 0) :
    (((NewFactorizer.run calls).Factorize id value false).2 = some (sequence, none)
      ↔ ((NewFactorizer.run calls).Defactorize id sequence).2 = (value, none))
    ∧ ∀ other : Bytes, other ≠ [] → other.length ≤ maxKeySize →
        ((NewFactorizer.run calls).Factorize id other false).2 = some (sequence, none) →
        ((NewFactorizer.run calls).Factorize id value false).2 = some (sequence, none) →
        other = value := by
  obtain ⟨hfa, hinv, hsh⟩ := run_inv_short calls hcost hshort
  generalize NewFactorizer.run calls = f at hfa hinv hsh
  have hiff : ∀ v : Bytes, v ≠ [] → v.length ≤ maxKeySize →
      ((f.Factorize id v false).2 = some (sequence, none)
        ↔ (f.Defactorize id sequence).2 = (v, none)) := by
    intro v hv hl
    have e1 : (f.Factorize id v false).2 = (f.factorize id v false).2 := rfl
    have e2 : (f.Defactorize id sequence).2 = (f.defactorize id sequence).2 := rfl
    rw [e1, e2, factorize_lookup _ f id v sequence hfa hinv hcost hv,
      defactorize_lookup _ f id sequence v hfa hinv hsh hsequence]
    have hkey : key v = 62 :: v := by simp [key, truncate_of_le v hl]
    rw [hkey]
    exact (hinv id).fwd_iff_rev hcost v sequence
  refine ⟨hiff value hvalue hlen, ?_⟩
  intro other ho hol h1 h2
  have d1 := (hiff other ho hol).mp h1
  have d2 := (hiff value hvalue hlen).mp h2
  rw [d1] at d2
  exact (Prod.mk.inj d2).1

/-- C8 as amended (sequence counter invariant while the store answers): after every history
of calls on a factorizer started from an empty store that answers every operation
(whether the calls returned, returned an error or panicked), as long as fewer than
`2^64` values were handed to `factorize`, for each property the `"+"` row is absent
exactly when the property has no forward row (and then it has no row at all), and
when present it is the big-endian encoding of a counter that some forward row holds
and that no forward row exceeds. -/
theorem sequence_counter_invariant (calls : List Call) (hcost : cost calls < 2 ^ 64)
    (id : String) :
    ((NewFactorizer.run calls).txn id seqkey = none
      ↔ ∀ value, (NewFactorizer.run calls).txn id (62 :: value) = none)
    ∧ ((NewFactorizer.run calls).txn id seqkey = none
      → ∀ k, (NewFactorizer.run calls).txn id k = none)
    ∧ ∀ data, (NewFactorizer.run calls).txn id seqkey = some data →
        ∃ counter, data = bigEndian counter ∧ counter < 2 ^ 64
          ∧ (∃ value, (NewFactorizer.run calls).txn id (62 :: value) = some (bigEndian counter))
          ∧ ∀ value row, (NewFactorizer.run calls).txn id (62 :: value) = some row →
              ∃ sequence, row = bigEndian sequence ∧ sequence ≤ counter := by
  have hinv := (run_inv calls hcost).2 id
  generalize (NewFactorizer.run calls).txn id = t at hinv
  generalize (NewFactorizer.run calls).caches id = ch at hinv
  have hc := hinv.counter_le
  have hmax : ∀ data, t seqkey = some data →
      ∃ counter, data = bigEndian counter ∧ counter < 2 ^ 64
        ∧ (∃ value, t (62 :: value) = some (bigEndian counter))
        ∧ ∀ value row, t (62 :: value) = some row →
            ∃ sequence, row = bigEndian sequence ∧ sequence ≤ counter := by
    intro data hdata
    obtain ⟨h1, h2⟩ := hinv.counter_row data hdata
    refine ⟨counterOf t, h1, by omega, ?_, ?_⟩
    · obtain ⟨k, hk⟩ := hinv.dense (counterOf t) h2 (Nat.le_refl _)
      exact ⟨k, ((hinv.fwd_iff_rev hcost k (counterOf t)).mpr hk).1⟩
    · intro value row hrow
      obtain ⟨s, _, h4, h5, _⟩ := hinv.fwd value row hrow
      exact ⟨s, h5, h4⟩
  refine ⟨⟨fun hnone value => hinv.no_rows hnone _, ?_⟩, hinv.no_rows, hmax⟩
  intro hno
  cases hseq : t seqkey with
  | none => rfl
  | some data =>
    obtain ⟨counter, _, _, ⟨value, hrow⟩, _⟩ := hmax data hseq
    rw [hno value] at hrow
    exact absurd hrow (by simp)

/-! ## The round trip on histories of short values -/

theorem run_append (f : Factorizer) (a b : List Call) : f.run (a ++ b) = (f.run a).run b := by
  induction a generalizing f with
  | nil => rfl
  | cons c rest ih => simp only [List.cons_append, Factorizer.run]; exact ih _

theorem cost_append (a b : List Call) : cost (a ++ b) = cost a + cost b := by
  induction a with
  | nil => simp [cost]
  | cons c rest ih =>
    show c.values.length + cost (rest ++ b) = c.values.length + cost rest + cost b
    rw [ih]; omega

/-- The factor round trip while no long value is around: in every state reached from an
empty store (one that answers every operation) by a history of calls that hands only
values of at most 500 bytes to `factorize` (and fewer than `2^64 - 1` of them), for a
non-empty value of at most 500 bytes `Factorize(id, value, true)` returns a sequence
without error and the following `Defactorize` of that sequence returns the value. -/
theorem factor_round_trip_on_short_histories (calls : List Call)
    (hshort : ∀ c ∈ calls, ∀ v ∈ c.values, v.length ≤ maxKeySize)
    (hcost : cost calls + 1 < 2 ^ 64)
    (id : String) (value : Bytes) (hvalue : value ≠ []) (hlen : value.length ≤ maxKeySize) :
    ∃ s, ((NewFactorizer.run calls).Factorize id value true).2 = some (s, none)
      ∧ (((NewFactorizer.run calls).Factorize id value true).1.Defactorize id s).2
          = (value, none) := by
  obtain ⟨hfa, hwf⟩ := run_wf calls
  obtain ⟨s, h1, h2⟩ :=
    factorize_twice (NewFactorizer.run calls) id value false hfa hwf hvalue
  have hrun : NewFactorizer.run (calls ++ [Call.Factorize id value true])
      = ((NewFactorizer.run calls).Factorize id value true).1 := by
    rw [run_append]; rfl
  have hcost2 : cost (calls ++ [Call.Factorize id value true]) < 2 ^ 64 := by
    rw [cost_append]; simpa [cost, Call.values] using hcost
  have hshort2 : ∀ c ∈ calls ++ [Call.Factorize id value true], ∀ v ∈ c.values,
      v.length ≤ maxKeySize := by
    intro c hc v hv
    rcases List.mem_append.mp hc with hc | hc
    · exact hshort c hc v hv
    · simp only [List.mem_singleton] at hc
      subst hc
      simp only [Call.values, List.mem_singleton] at hv
      subst hv; exact hlen
  obtain ⟨hga, hinv, hsh⟩ := run_inv_short _ hcost2 hshort2
  rw [hrun] at hga hinv hsh
  generalize hg : ((NewFactorizer.run calls).Factorize id value true).1 = g at hga hinv hsh
  have hgt : g.txn = ((NewFactorizer.run calls).factorize id value true).1.txn := by
    rw [← hg]; exact renew_txn _
  have hgc : g.caches = ((NewFactorizer.run calls).factorize id value true).1.caches := by
    rw [← hg]; exact renew_caches _
  have h3 := (h2 g hga hgt hgc).1
  have hrow := (factorize_lookup _ g id value s hga hinv hcost2 hvalue).mp h3
  have hkey : key value = 62 :: value := by simp [key, truncate_of_le value hlen]
  rw [hkey] at hrow
  have hrev := ((hinv id).fwd_iff_rev hcost2 value s).mp hrow
  refine ⟨s, h1, ?_⟩
  have e2 : (g.Defactorize id s).2 = (g.defactorize id s).2 := rfl
  rw [e2]
  exact (defactorize_lookup _ g id s value hga hinv hsh (by omega)).mpr hrev

/-! ## The claims on single calls -/

set_option maxRecDepth 100000

/-- C1 (factor round trip), refuted on the code: after `Factorize` was called twice with a
600-byte value, `Factorize` of its 500-byte prefix (a non-empty value of at most 500
bytes) returns sequence 1 without error, and the following `Defactorize` of
sequence 1 returns the 600-byte value, not the value that was factorized. -/
theorem factor_round_trip_broken_by_long_value :
    longValueHead ≠ []
    ∧ longValueHead.length ≤ 500
    ∧ ((NewFactorizer.run [Call.Factorize "p" longValue true,
          Call.Factorize "p" longValue true]).Factorize "p" longValueHead true).2
        = some (1, none)
    ∧ (((NewFactorizer.run [Call.Factorize "p" longValue true,
          Call.Factorize "p" longValue true]).Factorize "p" longValueHead true).1.Defactorize
          "p" 1).2 = (longValue, none)
    ∧ longValue ≠ longValueHead := by
  decide

/-- C2 (truncation on read-back), refuted on the code: the first `Factorize` of a 600-byte
value creates sequence 1 and a `Defactorize` right after it returns the first 500
bytes; but when the forward row already exists and the value itself is not a key of
the cache, `Factorize` returns sequence 1 and the following `Defactorize` returns all
600 bytes, not the first 500. -/
theorem factor_truncation_lost_on_read_back :
    ((NewFactorizer.Factorize "p" longValue true).1.Defactorize "p" 1).2
        = (longValue.take 500, none)
    ∧ (NewFactorizer.run [Call.Factorize "p" longValue true]).txn "p" (key longValue)
        = some (bigEndian 1)
    ∧ ((NewFactorizer.run [Call.Factorize "p" longValue true]).Factorize "p" longValue true).2
        = some (1, none)
    ∧ (((NewFactorizer.run [Call.Factorize "p" longValue true]).Factorize "p" longValue
          true).1.Defactorize "p" 1).2 = (longValue, none)
    ∧ longValue ≠ longValue.take 500 := by
  decide

/-- Witness of C3: the identity holds after one earlier `Factorize` of another value. -/
theorem factor_identity_witness :
    ([65, 49] : Bytes) ≠ []
    ∧ ∃ s, ((NewFactorizer.run sampleHistory).Factorize "action" [65, 49] true).2 = some (s, none)
      ∧ (((NewFactorizer.run sampleHistory).Factorize "action" [65, 49] true).1.Factorize
            "action" [65, 49] true).2 = some (s, none)
      ∧ (((NewFactorizer.run sampleHistory).Factorize "action" [65, 49] true).1.Factorize
            "action" [65, 49] true).1.txn
          = ((NewFactorizer.run sampleHistory).Factorize "action" [65, 49] true).1.txn :=
  ⟨by decide, factor_identity sampleHistory "action" [65, 49] (by decide)⟩

/-- C4 (the empty value is the reserved sequence 0): for every state, property and value
of `createIfMissing`, `Factorize(id, "", c)` returns `(0, nil)` and
`Defactorize(id, 0)` returns `("", nil)`; neither call changes a row of the store,
touches a cache or performs a `Get` or a `Put`. -/
theorem empty_value_is_sequence_zero (f : Factorizer) (id : String) (createIfMissing : Bool) :
    (f.Factorize id [] createIfMissing).2 = some (0, none)
    ∧ (f.Defactorize id 0).2 = ([], none)
    ∧ (f.Factorize id [] createIfMissing).1.txn = f.txn
    ∧ (f.Factorize id [] createIfMissing).1.log = f.log
    ∧ (f.Factorize id [] createIfMissing).1.caches = f.caches
    ∧ (f.Defactorize id 0).1.txn = f.txn
    ∧ (f.Defactorize id 0).1.log = f.log
    ∧ (f.Defactorize id 0).1.caches = f.caches := by
  simp only [Factorize, factorize, Defactorize, defactorize, renew, if_true]
  cases f.dirty <;> simp

/-- C5 (factorize without create fails on a missing value): on a store that answers, for a
non-empty value that is neither a key of the property's cache nor present as
forward row `">" + truncate(value)`, `Factorize(id, value, false)` returns sequence
0 with the `FactorNotFound` error and leaves every row of the store unchanged. -/
theorem factorize_without_create_fails (f : Factorizer) (id : String) (value : Bytes)
    (hstore : f.faults = [])
    (hvalue : value ≠ [])
    (hcache : ∀ c, f.caches id = some c → c.keys value = none)
    (hrow : f.txn id (key value) = none) :
    (f.Factorize id value false).2 = some (0, some (Error.FactorNotFound id (key value)))
    ∧ (f.Factorize id value false).1.txn = f.txn := by
  have hk : ((f.caches id).getD (newCache cacheSize)).keys value = none := by
    cases hc : f.caches id with
    | none => rfl
    | some c => exact hcache c hc
  have e1 : (f.Factorize id value false).2 = (f.factorize id value false).2 := rfl
  have e2 : (f.Factorize id value false).1.txn = (f.factorize id value false).1.txn :=
    renew_txn _
  rw [e1, e2, factorize_eq _ _ _ _ hstore]
  simp [hvalue, hk, hrow]

/-- Witness of C5: on a fresh factorizer the value `"a"` is missing. -/
theorem factorize_without_create_fails_witness :
    NewFactorizer.faults = []
    ∧ ([97] : Bytes) ≠ []
    ∧ (∀ c, NewFactorizer.caches "p" = some c → c.keys [97] = none)
    ∧ NewFactorizer.txn "p" (key [97]) = none
    ∧ (NewFactorizer.Factorize "p" [97] false).2
        = some (0, some (Error.FactorNotFound "p" (key [97])))
    ∧ (NewFactorizer.Factorize "p" [97] false).1.txn = NewFactorizer.txn :=
  ⟨rfl, by decide, fun _ hc => by simp [NewFactorizer] at hc, rfl,
    factorize_without_create_fails NewFactorizer "p" [97] rfl (by decide)
      (fun _ hc => by simp [NewFactorizer] at hc) rfl⟩

/-- C6 (defactorize of a missing sequence), refuted on the code as to the error kind:
`Defactorize("p", 1)` on an empty store returns the empty string with the untyped
error built by `fmt.Errorf`, which is not a `FactorNotFound` error, whereas
`Factorize` without create returns the typed `FactorNotFound` error for a missing
value. -/
theorem defactorize_missing_error_is_untyped :
    (NewFactorizer.Defactorize "p" 1).2
        = ([], some (Error.Errorf "factor not found: %v" (revkey 1)))
    ∧ (∀ id k, (NewFactorizer.Defactorize "p" 1).2.2 ≠ some (Error.FactorNotFound id k))
    ∧ (NewFactorizer.Factorize "p" [97] false).2
        = some (0, some (Error.FactorNotFound "p" (key [97]))) := by
  refine ⟨by decide, ?_, by decide⟩
  intro id k h
  have : (NewFactorizer.Defactorize "p" 1).2.2
      = some (Error.Errorf "factor not found: %v" (revkey 1)) := by decide
  rw [this] at h
  cases h

/-- Witness of C7: after `"A0"` and `"A1"` were factorized, `"A1"` and sequence 2
correspond in both directions. -/
theorem factor_dictionary_bijection_witness :
    (∀ c ∈ sampleHistory, ∀ v ∈ c.values, v.length ≤ maxKeySize)
    ∧ cost sampleHistory < 2 ^ 64
    ∧ ((NewFactorizer.run sampleHistory).Factorize "action" [65, 49] false).2 = some (2, none)
    ∧ ((((NewFactorizer.run sampleHistory).Factorize "action" [65, 49] false).2 = some (2, none)
        ↔ ((NewFactorizer.run sampleHistory).Defactorize "action" 2).2 = ([65, 49], none))
      ∧ ∀ other : Bytes, other ≠ [] → other.length ≤ maxKeySize →
          ((NewFactorizer.run sampleHistory).Factorize "action" other false).2 = some (2, none) →
          ((NewFactorizer.run sampleHistory).Factorize "action" [65, 49] false).2
            = some (2, none) →
          other = [65, 49]) :=
  ⟨by decide, by decide, by decide,
    factor_dictionary_bijection sampleHistory (by decide) (by decide) "action" [65, 49] 2
      (by decide) (by decide) (by decide)⟩

/-- Witness of C8: the counter of `action` after the sample history. -/
theorem sequence_counter_invariant_witness :
    cost sampleHistory < 2 ^ 64
    ∧ (NewFactorizer.run sampleHistory).txn "action" seqkey = some (bigEndian 2)
    ∧ (((NewFactorizer.run sampleHistory).txn "action" seqkey = none
        ↔ ∀ value, (NewFactorizer.run sampleHistory).txn "action" (62 :: value) = none)
      ∧ ((NewFactorizer.run sampleHistory).txn "action" seqkey = none
        → ∀ k, (NewFactorizer.run sampleHistory).txn "action" k = none)
      ∧ ∀ data, (NewFactorizer.run sampleHistory).txn "action" seqkey = some data →
          ∃ counter, data = bigEndian counter ∧ counter < 2 ^ 64
            ∧ (∃ value, (NewFactorizer.run sampleHistory).txn "action" (62 :: value)
                = some (bigEndian counter))
            ∧ ∀ value row, (NewFactorizer.run sampleHistory).txn "action" (62 :: value)
                = some row → ∃ sequence, row = bigEndian sequence ∧ sequence ≤ counter) :=
  ⟨by decide, by decide, sequence_counter_invariant sampleHistory (by decide) "action"⟩

/-- C8 as stated (the invariant also after failed calls), refuted on the code: when the store
fails the `Put` of the forward row (its fifth operation) during `Factorize("p", "a", true)` on an
empty store, the call returns the put error, yet the counter written by `nextid`
stays in the transaction and the deferred `renew` commits it: the `"+"` row holds 1
while the property has no forward row. -/
theorem sequence_counter_ahead_after_failed_put :
    (failingStore.Factorize "p" [97] true).2
        = some (0, some (Error.Errorf "factor put error: %s" []))
    ∧ (failingStore.Factorize "p" [97] true).1.log
        = [Op.dbiOpen "p", Op.get "p" (key [97]), Op.get "p" seqkey,
           Op.put "p" seqkey (bigEndian 1), Op.put "p" (key [97]) (bigEndian 1)]
    ∧ (failingStore.Factorize "p" [97] true).1.txn "p" seqkey = some (bigEndian 1)
    ∧ (failingStore.Factorize "p" [97] true).1.env "p" seqkey = some (bigEndian 1)
    ∧ (∀ value, (failingStore.Factorize "p" [97] true).1.txn "p" (62 :: value) = none)
    ∧ (∀ value, (failingStore.Factorize "p" [97] true).1.env "p" (62 :: value) = none) :=
  ⟨by decide, by decide, by decide, by decide, fun _ => rfl, fun _ => rfl⟩

/-! ## The claims on events -/

/-- C9 (unknown properties), refuted on the code: for an event whose data holds the id 7,
which the catalog resolves to no property, `FactorizeEvent` (with and without
create) and `DefactorizeEvent` end in a runtime panic, the dereference of the nil
property, instead of skipping the entry. -/
theorem unknown_property_panics :
    PropertyFile.GetProperty { properties := [] } 7 = none
    ∧ (NewFactorizer.FactorizeEvent (some { Timestamp := 0, Data := [(7, Value.int64 5)] })
        { properties := [] } true).2.2 = none
    ∧ (NewFactorizer.FactorizeEvent (some { Timestamp := 0, Data := [(7, Value.int64 5)] })
        { properties := [] } false).2.2 = none
    ∧ (NewFactorizer.DefactorizeEvent (some { Timestamp := 0, Data := [(7, Value.int64 5)] })
        { properties := [] }).2.2 = none := by
  decide

/-- C10 (event-level round trip), refuted on the code on two inputs.  First, an event whose
only factor value is the short string `"A0"` and that also carries the id 2, unknown
to the catalog: `FactorizeEvent` panics, in whichever order the entries are visited.
Second, after the 600-byte value was
factorized twice, the event whose factor value is its 500-byte prefix:
`FactorizeEvent` replaces the value by sequence 1 and `DefactorizeEvent` then
succeeds but leaves the 600-byte value in the event. -/
theorem event_round_trip_broken :
    (NewFactorizer.FactorizeEvent
        (some { Timestamp := 0, Data := [(1, Value.string [65, 48]), (2, Value.int64 5)] })
        actionCatalog true).2.2 = none
    ∧ (NewFactorizer.FactorizeEvent
        (some { Timestamp := 0, Data := [(2, Value.int64 5), (1, Value.string [65, 48])] })
        actionCatalog true).2.2 = none
    ∧ ((NewFactorizer.run [Call.Factorize "action" longValue true,
          Call.Factorize "action" longValue true]).FactorizeEvent
        (some { Timestamp := 0, Data := [(1, Value.string longValueHead)] })
        actionCatalog true).2
        = (some { Timestamp := 0, Data := [(1, Value.uint64 1)] }, some none)
    ∧ (((NewFactorizer.run [Call.Factorize "action" longValue true,
          Call.Factorize "action" longValue true]).FactorizeEvent
        (some { Timestamp := 0, Data := [(1, Value.string longValueHead)] })
        actionCatalog true).1.DefactorizeEvent
        (some { Timestamp := 0, Data := [(1, Value.uint64 1)] }) actionCatalog).2
        = (some { Timestamp := 0, Data := [(1, Value.string longValue)] }, some none)
    ∧ longValue ≠ longValueHead := by
  decide

end Sky

namespace Sky

set_option maxRecDepth 100000

/-! ## Routing -/

theorem getShardByObjectId_eq (d : db) (id : Bytes)
    (h1 : 1 ≤ d.shards.length) (h2 : d.shards.length < 2 ^ 32) :
    d.getShardByObjectId id = some (ObjectLocalHash id % d.shards.length) := by
  unfold db.getShardByObjectId
  have hm : d.shards.length % 2 ^ 32 = d.shards.length := Nat.mod_eq_of_lt h2
  rw [hm]
  have : d.shards.length ≠ 0 := by omega
  simp [this]

theorem dispatch_eq {α : Type} (d : db) (index : Nat) (call : ShardCall)
    (method : shard → shard × α) (s : shard) (h : d.shards[index]? = some s) :
    d.dispatch index call method
      = ({ shards := d.shards.set index (method s).1, log := d.log ++ [(index, call)] },
          some (method s).2) := by
  unfold db.dispatch
  rw [h]

theorem routed_shard (d : db) (id : Bytes) (h1 : 1 ≤ d.shards.length) :
    ∃ s, d.shards[ObjectLocalHash id % d.shards.length]? = some s := by
  have hlt : ObjectLocalHash id % d.shards.length < d.shards.length :=
    Nat.mod_lt _ (by omega)
  exact ⟨d.shards[ObjectLocalHash id % d.shards.length], List.getElem?_eq_getElem hlt⟩

/-- C11 (shard routing): in a database of `N` shards with `1 ≤ N < 2^32`, for every table
and object id, `getShardByObjectId` selects roster position `ObjectLocalHash(id) mod N`,
which is below `N`; every database of the same shard count selects the same position; and
`GetEvent`, `GetEvents`, `InsertEvent`, `InsertEvents`, `InsertObjects` (of that object),
`DeleteEvent` and `DeleteObject` each hand exactly one call, their own, to the shard at that
position. -/
theorem shard_routing (d : db) (tablespace : String) (id : Bytes)
    (h1 : 1 ≤ d.shards.length) (h2 : d.shards.length < 2 ^ 32) :
    d.getShardByObjectId id = some (ObjectLocalHash id % d.shards.length)
    ∧ ObjectLocalHash id % d.shards.length < d.shards.length
    ∧ (∀ other : db, other.shards.length = d.shards.length →
        other.getShardByObjectId id = d.getShardByObjectId id)
    ∧ (∀ timestamp, (d.GetEvent tablespace id timestamp).1.log
        = d.log ++ [(ObjectLocalHash id % d.shards.length,
            ShardCall.GetEvent tablespace id timestamp)])
    ∧ (d.GetEvents tablespace id).1.log
        = d.log ++ [(ObjectLocalHash id % d.shards.length, ShardCall.GetEvents tablespace id)]
    ∧ (∀ event, (d.InsertEvent tablespace id event).1.log
        = d.log ++ [(ObjectLocalHash id % d.shards.length,
            ShardCall.InsertEvent tablespace id event)])
    ∧ (∀ events, (d.InsertEvents tablespace id events).1.log
        = d.log ++ [(ObjectLocalHash id % d.shards.length,
            ShardCall.InsertEvents tablespace id events)])
    ∧ (∀ events, (d.InsertObjects tablespace [(id, events)]).1.log
        = d.log ++ [(ObjectLocalHash id % d.shards.length,
            ShardCall.InsertEvents tablespace id events)])
    ∧ (∀ timestamp, (d.DeleteEvent tablespace id timestamp).1.log
        = d.log ++ [(ObjectLocalHash id % d.shards.length,
            ShardCall.DeleteEvent tablespace id timestamp)])
    ∧ (d.DeleteObject tablespace id).1.log
        = d.log ++ [(ObjectLocalHash id % d.shards.length,
            ShardCall.DeleteObject tablespace id)] := by
  have hr := getShardByObjectId_eq d id h1 h2
  obtain ⟨s, hs⟩ := routed_shard d id h1
  refine ⟨hr, Nat.mod_lt _ (by omega), ?_, ?_, ?_, ?_, ?_, ?_, ?_, ?_⟩
  · intro other ho
    rw [hr, getShardByObjectId_eq other id (by omega) (by omega), ho]
  · intro timestamp
    simp only [db.GetEvent, hr, dispatch_eq d _ _ _ s hs]
  · simp only [db.GetEvents, hr, dispatch_eq d _ _ _ s hs]
  · intro event
    simp only [db.InsertEvent, hr, dispatch_eq d _ _ _ s hs]
  · intro events
    simp only [db.InsertEvents, hr, dispatch_eq d _ _ _ s hs]
  · intro events
    simp only [db.InsertObjects, db.insertObjectsLoop, db.InsertEvents, hr,
      dispatch_eq d _ _ _ s hs]
    cases h : (s.InsertEvents tablespace id events).2 <;> simp [db.insertObjectsLoop]
  · intro timestamp
    simp only [db.DeleteEvent, hr, dispatch_eq d _ _ _ s hs]
  · simp only [db.DeleteObject, hr, dispatch_eq d _ _ _ s hs]

/-! ## Shard count -/

theorem Atoi_range (s : Bytes) (k : Int) (h : Atoi s = some k) :
    -(2 ^ 63 : Int) ≤ k ∧ k < 2 ^ 63 := by
  unfold Atoi at h
  split at h
  · split at h
    · split at h
      · simp only [Option.some.injEq] at h
        subst h
        constructor
        · have : ((_ : Nat) : Int) ≤ ((2 ^ 63 : Nat) : Int) := Int.ofNat_le.mpr ‹_ ≤ 2 ^ 63›
          push_cast at this
          omega
        · omega
      · cases h
    · cases h
  · split at h
    · split at h
      · simp only [Option.some.injEq] at h
        subst h
        constructor
        · omega
        · have : ((_ : Nat) : Int) < ((2 ^ 63 : Nat) : Int) := Int.ofNat_lt.mpr ‹_ < 2 ^ 63›
          push_cast at this
          omega
      · cases h
    · cases h
  · split at h
    · split at h
      · simp only [Option.some.injEq] at h
        subst h
        constructor
        · omega
        · have : ((_ : Nat) : Int) < ((2 ^ 63 : Nat) : Int) := Int.ofNat_lt.mpr ‹_ < 2 ^ 63›
          push_cast at this
          omega
      · cases h
    · cases h

theorem wrapInt64_succ (k : Int) (h1 : -(2 ^ 63 : Int) ≤ k) (h2 : k < 2 ^ 63 - 1) :
    wrapInt64 (k + 1) = k + 1 := by
  unfold wrapInt64
  have : (k + 1 + 2 ^ 63) % 2 ^ 64 = k + 1 + 2 ^ 63 := Int.emod_eq_of_lt (by omega) (by omega)
  omega

theorem wrapInt64_max : wrapInt64 (2 ^ 63 - 1 + 1) = -(2 ^ 63) := by
  unfold wrapInt64
  norm_num

theorem shard.answer_ok (s : shard) (h : s.faults = []) : s.answer = (s, false) := by
  unfold shard.answer
  rw [h]

theorem shard.GetEvents_ok (s : shard) (tablespace : String) (id : Bytes) (h : s.faults = []) :
    s.GetEvents tablespace id = (s, (s.objects tablespace id).getD [], none) := by
  unfold shard.GetEvents
  rw [shard.answer_ok s h]

theorem shard.InsertEvents_ok (s : shard) (tablespace : String) (id : Bytes)
    (events : List Event) (h : s.faults = []) :
    s.InsertEvents tablespace id events
      = ({ s with objects := upd s.objects tablespace (upd (s.objects tablespace) id
            (some (events.foldl appendSorted ((s.objects tablespace id).getD [])))) }, none) := by
  unfold shard.InsertEvents
  rw [shard.answer_ok s h]

theorem shard.DeleteObject_ok (s : shard) (tablespace : String) (id : Bytes)
    (h : s.faults = []) :
    s.DeleteObject tablespace id
      = ({ s with objects := upd s.objects tablespace (upd (s.objects tablespace) id none) },
          none) := by
  unfold shard.DeleteObject
  rw [shard.answer_ok s h]

theorem shard.Drop_ok (s : shard) (tablespace : String) (h : s.faults = []) :
    s.Drop tablespace
      = ({ s with objects := upd s.objects tablespace (fun _ => none) }, none) := by
  unfold shard.Drop
  rw [shard.answer_ok s h]

theorem set_getElem?_self {α : Type} (l : List α) (i : Nat) (a : α) (h : l[i]? = some a) :
    l.set i a = l := by
  induction l generalizing i with
  | nil => rfl
  | cons x rest ih =>
    cases i with
    | zero =>
      simp only [List.getElem?_cons_zero, Option.some.injEq] at h
      simp [h]
    | succ j =>
      simp only [List.getElem?_cons_succ] at h
      simp [ih j h]

theorem dispatch_mk {α : Type} (shards : List shard) (log : List (Nat × ShardCall)) (index : Nat)
    (call : ShardCall) (method : shard → shard × α) (s : shard) (h : shards[index]? = some s) :
    db.dispatch { shards := shards, log := log } index call method
      = ({ shards := shards.set index (method s).1, log := log ++ [(index, call)] },
          some (method s).2) :=
  dispatch_eq { shards := shards, log := log } index call method s h

theorem db_GetEvents_ok (d : db) (tablespace : String) (id : Bytes) (s : shard)
    (h1 : 1 ≤ d.shards.length) (h2 : d.shards.length < 2 ^ 32)
    (hs : d.shards[ObjectLocalHash id % d.shards.length]? = some s) (hf : s.faults = []) :
    d.GetEvents tablespace id
      = ({ shards := d.shards,
           log := d.log ++ [(ObjectLocalHash id % d.shards.length,
              ShardCall.GetEvents tablespace id)] },
          some ((s.objects tablespace id).getD [], none)) := by
  simp only [db.GetEvents, getShardByObjectId_eq d id h1 h2, dispatch_eq d _ _ _ s hs,
    shard.GetEvents_ok s tablespace id hf, set_getElem?_self d.shards _ s hs]

/-- C14 (postcondition of `Merge`): in a database of `1 ≤ N < 2^32` shards whose stores
answer every call, for distinct ids `destinationId ≠ sourceId` where the source object
holds the non-empty event list `srcEvents`: `GetEvents` of the source returns `srcEvents`;
`Merge` returns nil; it makes exactly the calls `GetEvents(source)`,
`InsertEvents(destination, srcEvents)`, `DeleteObject(source)`; the destination then holds
its former events with `srcEvents` spliced or merged in by timestamp; and `GetEvents` of the
source afterwards returns the empty list. -/
theorem merge_postcondition (d : db) (tablespace : String) (destinationId sourceId : Bytes)
    (srcEvents : List Event) (src dest : shard)
    (h1 : 1 ≤ d.shards.length) (h2 : d.shards.length < 2 ^ 32)
    (hne : destinationId ≠ sourceId)
    (hf : ∀ s ∈ d.shards, s.faults = [])
    (hsrc : d.shards[ObjectLocalHash sourceId % d.shards.length]? = some src)
    (hdest : d.shards[ObjectLocalHash destinationId % d.shards.length]? = some dest)
    (hev : src.objects tablespace sourceId = some srcEvents) (hpos : srcEvents ≠ []) :
    (d.GetEvents tablespace sourceId).2 = some (srcEvents, none)
    ∧ (d.Merge tablespace destinationId sourceId).2 = some none
    ∧ (d.Merge tablespace destinationId sourceId).1.log
        = d.log ++ [(ObjectLocalHash sourceId % d.shards.length,
              ShardCall.GetEvents tablespace sourceId),
            (ObjectLocalHash destinationId % d.shards.length,
              ShardCall.InsertEvents tablespace destinationId srcEvents),
            (ObjectLocalHash sourceId % d.shards.length,
              ShardCall.DeleteObject tablespace sourceId)]
    ∧ (∃ s, (d.Merge tablespace destinationId sourceId).1.shards[
              ObjectLocalHash destinationId % d.shards.length]? = some s
          ∧ s.objects tablespace destinationId
              = some (srcEvents.foldl appendSorted
                  ((dest.objects tablespace destinationId).getD [])))
    ∧ ((d.Merge tablespace destinationId sourceId).1.GetEvents tablespace sourceId).2
        = some ([], none) := by
  have hsf : src.faults = [] := hf src (List.getElem?_mem hsrc)
  have hdf : dest.faults = [] := hf dest (List.getElem?_mem hdest)
  have hlen : 0 < srcEvents.length := List.length_pos.mpr hpos
  have hsi : ObjectLocalHash sourceId % d.shards.length < d.shards.length :=
    Nat.mod_lt _ (by omega)
  have hdi : ObjectLocalHash destinationId % d.shards.length < d.shards.length :=
    Nat.mod_lt _ (by omega)
  refine ⟨?_, ?_⟩
  · rw [db_GetEvents_ok d tablespace sourceId src h1 h2 hsrc hsf, hev]
    rfl
  -- the shard of the source after the insert into the destination
  obtain ⟨src2, hsrc2, hsrc2f, hsrc2o⟩ : ∃ src2 : shard,
      (d.shards.set (ObjectLocalHash destinationId % d.shards.length)
        (dest.InsertEvents tablespace destinationId srcEvents).1)[
          ObjectLocalHash sourceId % d.shards.length]? = some src2
      ∧ src2.faults = [] ∧ src2.objects tablespace sourceId = some srcEvents := by
    rw [List.getElem?_set]
    by_cases hi : ObjectLocalHash destinationId % d.shards.length
        = ObjectLocalHash sourceId % d.shards.length
    · rw [if_pos hi, if_pos hdi]
      refine ⟨_, rfl, ?_, ?_⟩
      · rw [shard.InsertEvents_ok dest tablespace destinationId srcEvents hdf]
        exact hdf
      · rw [shard.InsertEvents_ok dest tablespace destinationId srcEvents hdf]
        have hsd : src = dest := by
          rw [hi] at hdest
          rw [hsrc] at hdest
          exact Option.some.inj hdest
        have hne2 : sourceId ≠ destinationId := fun h => hne h.symm
        simp [upd, hne2, ← hsd, hev]
    · rw [if_neg hi]
      exact ⟨src, hsrc, hsf, hev⟩
  have hmerge : d.Merge tablespace destinationId sourceId
      = ({ shards := (d.shards.set (ObjectLocalHash destinationId % d.shards.length)
              (dest.InsertEvents tablespace destinationId srcEvents).1).set
                (ObjectLocalHash sourceId % d.shards.length)
                (src2.DeleteObject tablespace sourceId).1,
           log := d.log ++ [(ObjectLocalHash sourceId % d.shards.length,
                ShardCall.GetEvents tablespace sourceId)]
              ++ [(ObjectLocalHash destinationId % d.shards.length,
                ShardCall.InsertEvents tablespace destinationId srcEvents)]
              ++ [(ObjectLocalHash sourceId % d.shards.length,
                ShardCall.DeleteObject tablespace sourceId)] }, some none) := by
    unfold db.Merge
    simp only [getShardByObjectId_eq d _ h1 h2, dispatch_eq d _ _ _ src hsrc,
      shard.GetEvents_ok src tablespace sourceId hsf, set_getElem?_self d.shards _ src hsrc,
      hev, Option.getD_some, hlen, gt_iff_lt, if_true]
    rw [dispatch_mk _ _ _ _ _ dest hdest]
    simp only [shard.InsertEvents_ok dest tablespace destinationId srcEvents hdf]
    simp only [shard.InsertEvents_ok dest tablespace destinationId srcEvents hdf] at hsrc2
    rw [dispatch_mk _ _ _ _ _ src2 hsrc2]
    simp only [shard.DeleteObject_ok src2 tablespace sourceId hsrc2f]
  rw [hmerge]
  refine ⟨rfl, by simp, ?_, ?_⟩
  · simp only
    rw [List.getElem?_set]
    by_cases hi : ObjectLocalHash sourceId % d.shards.length
        = ObjectLocalHash destinationId % d.shards.length
    · rw [if_pos hi, if_pos (by simpa using hsi)]
      refine ⟨_, rfl, ?_⟩
      rw [shard.DeleteObject_ok src2 tablespace sourceId hsrc2f]
      have h2s : src2 = (dest.InsertEvents tablespace destinationId srcEvents).1 := by
        rw [List.getElem?_set, if_pos hi.symm, if_pos hdi] at hsrc2
        exact (Option.some.inj hsrc2).symm
      rw [h2s, shard.InsertEvents_ok dest tablespace destinationId srcEvents hdf]
      simp [upd, hne]
    · rw [if_neg hi, List.getElem?_set, if_pos rfl, if_pos hdi]
      refine ⟨_, rfl, ?_⟩
      rw [shard.InsertEvents_ok dest tablespace destinationId srcEvents hdf]
      simp [upd]
  · have hget : ((d.shards.set (ObjectLocalHash destinationId % d.shards.length)
              (dest.InsertEvents tablespace destinationId srcEvents).1).set
                (ObjectLocalHash sourceId % d.shards.length)
                (src2.DeleteObject tablespace sourceId).1)[
            ObjectLocalHash sourceId % d.shards.length]?
        = some (src2.DeleteObject tablespace sourceId).1 := by
      rw [List.getElem?_set, if_pos rfl, if_pos (by simpa using hsi)]
    rw [db_GetEvents_ok _ tablespace sourceId (src2.DeleteObject tablespace sourceId).1
      (by simpa using h1) (by simpa using h2) (by simpa using hget)
      (by rw [shard.DeleteObject_ok src2 tablespace sourceId hsrc2f]; exact hsrc2f)]
    rw [shard.DeleteObject_ok src2 tablespace sourceId hsrc2f]
    simp [upd]

/-! ## Drop -/

theorem dropLoop_nil (tablespace : String) (shards : List shard) :
    ∀ (index : Nat) (err : Option ShardError),
      (db.dropLoop tablespace shards index err).2.2 = none →
      err = none
      ∧ ∀ s ∈ (db.dropLoop tablespace shards index err).1, ∀ id, s.objects tablespace id = none := by
  induction shards with
  | nil => intro index err h; exact ⟨by simpa [db.dropLoop] using h, by simp [db.dropLoop]⟩
  | cons s rest ih =>
    intro index err h
    unfold db.dropLoop at h ⊢
    simp only at h ⊢
    obtain ⟨he, hrest⟩ := ih (index + 1) _ h
    have herr : err = none := by
      by_contra hc
      rw [if_neg hc] at he
      exact hc he
    rw [herr, if_pos rfl] at he
    refine ⟨herr, ?_⟩
    intro s1 hs1
    rcases List.mem_cons.mp hs1 with h1 | h1
    · rw [h1]
      intro id
      unfold shard.Drop at he ⊢
      split at he
      · cases he
      · simp [upd]
    · exact hrest s1 h1

theorem dropLoop_again (tablespace : String) (shards : List shard)
    (hf : ∀ s ∈ shards, s.faults = [])
    (ho : ∀ s ∈ shards, ∀ id, s.objects tablespace id = none) :
    ∀ (index : Nat) (err : Option ShardError),
      (db.dropLoop tablespace shards index err).1 = shards
      ∧ (db.dropLoop tablespace shards index err).2.2 = err := by
  induction shards with
  | nil => intro index err; simp [db.dropLoop]
  | cons s rest ih =>
    intro index err
    have hsf := hf s (List.mem_cons_self _ _)
    have hso := ho s (List.mem_cons_self _ _)
    obtain ⟨a, b⟩ := ih (fun x hx => hf x (List.mem_cons_of_mem _ hx))
      (fun x hx => ho x (List.mem_cons_of_mem _ hx)) (index + 1)
      (if err = none then none else err)
    have hsame : ({ s with objects := upd s.objects tablespace (fun _ => none) } : shard) = s := by
      have : upd s.objects tablespace (fun _ => none) = s.objects := by
        funext t id
        unfold upd
        split
        · rename_i h; rw [h, hso id]
        · rfl
      rw [this]
    unfold db.dropLoop
    rw [shard.Drop_ok s tablespace hsf, hsame]
    simp only
    refine ⟨by rw [a], ?_⟩
    rw [b]
    split
    · rename_i h; exact h.symm
    · rfl

/-- C15 (idempotence of `Drop`): if `Drop(table)` returns nil, then no shard holds a key of
that table, and if the stores answer the following calls, an immediately following
`Drop(table)` returns nil as well and leaves every shard as it was. -/
theorem drop_idempotence (d : db) (tablespace : String)
    (h : (d.Drop tablespace).2 = none) :
    (∀ s ∈ (d.Drop tablespace).1.shards, ∀ id, s.objects tablespace id = none)
    ∧ ((∀ s ∈ (d.Drop tablespace).1.shards, s.faults = []) →
        ((d.Drop tablespace).1.Drop tablespace).2 = none
        ∧ ((d.Drop tablespace).1.Drop tablespace).1.shards = (d.Drop tablespace).1.shards) := by
  have h0 : (db.dropLoop tablespace d.shards 0 none).2.2 = none := by
    simpa [db.Drop] using h
  obtain ⟨_, ho⟩ := dropLoop_nil tablespace d.shards 0 none h0
  have ho1 : ∀ s ∈ (d.Drop tablespace).1.shards, ∀ id, s.objects tablespace id = none := by
    simpa [db.Drop] using ho
  refine ⟨ho1, ?_⟩
  intro hf
  obtain ⟨a, b⟩ := dropLoop_again tablespace (d.Drop tablespace).1.shards hf ho1 0 none
  constructor
  · show (db.dropLoop tablespace (d.Drop tablespace).1.shards 0 none).2.2 = none
    exact b
  · show (db.dropLoop tablespace (d.Drop tablespace).1.shards 0 none).1 = _
    exact a

/-! ## Properties -/

theorem wordChar_iff (c : Char) :
    wordChar c = true
      ↔ (('A' ≤ c ∧ c ≤ 'Z') ∨ ('a' ≤ c ∧ c ≤ 'z') ∨ ('0' ≤ c ∧ c ≤ '9') ∨ c = '_') := by
  have e1 : 'A'.val = 65 := rfl
  have e2 : 'Z'.val = 90 := rfl
  have e3 : 'a'.val = 97 := rfl
  have e4 : 'z'.val = 122 := rfl
  have e5 : '0'.val = 48 := rfl
  have e6 : '9'.val = 57 := rfl
  simp only [wordChar, Char.isAlphanum, Char.isAlpha, Char.isUpper, Char.isLower, Char.isDigit,
    Bool.or_eq_true, Bool.and_eq_true, decide_eq_true_eq, beq_iff_eq, Char.le_def, ge_iff_le,
    e1, e2, e3, e4, e5, e6]
  tauto

theorem matchWord_iff (s : String) :
    matchWord s = true
      ↔ s ≠ "" ∧ ∀ c ∈ s.data,
          ('A' ≤ c ∧ c ≤ 'Z') ∨ ('a' ≤ c ∧ c ≤ 'z') ∨ ('0' ≤ c ∧ c ≤ '9') ∨ c = '_' := by
  have hne : s.data.isEmpty = false ↔ s ≠ "" := by
    rw [Ne, String.ext_iff]
    cases s.data <;> simp
  simp only [matchWord, Bool.and_eq_true, Bool.not_eq_true', List.all_eq_true, hne, wordChar_iff]

/-- C16 (property validation): `Validate` returns nil exactly when the name is non-empty,
consists only of characters in `[A-Za-z0-9_]`, and the data type is one of `factor`,
`string`, `integer`, `float`, `boolean`; when the name is not of that form, the error is
the one with the message `invalid property name: NAME`, whatever the data type. -/
theorem property_validation (p : Property) :
    (p.Validate = none
      ↔ (p.Name ≠ "" ∧ ∀ c ∈ p.Name.data,
            ('A' ≤ c ∧ c ≤ 'Z') ∨ ('a' ≤ c ∧ c ≤ 'z') ∨ ('0' ≤ c ∧ c ≤ '9') ∨ c = '_')
        ∧ p.DataType ∈ ["factor", "string", "integer", "float", "boolean"])
    ∧ (¬ (p.Name ≠ "" ∧ ∀ c ∈ p.Name.data,
            ('A' ≤ c ∧ c ≤ 'Z') ∨ ('a' ≤ c ∧ c ≤ 'z') ∨ ('0' ≤ c ∧ c ≤ '9') ∨ c = '_') →
        p.Validate = some ("invalid property name: " ++ p.Name)) := by
  have hm := matchWord_iff p.Name
  have ht : (p.DataType = DataType.Factor ∨ p.DataType = DataType.String
      ∨ p.DataType = DataType.Integer ∨ p.DataType = DataType.Float
      ∨ p.DataType = DataType.Boolean)
      ↔ p.DataType ∈ ["factor", "string", "integer", "float", "boolean"] := by
    simp [DataType.Factor, DataType.String, DataType.Integer, DataType.Float, DataType.Boolean]
  constructor
  · unfold Property.Validate
    by_cases hw : matchWord p.Name = true
    · have hw2 := hm.mp hw
      have hc : ¬ (p.Name = "" ∨ matchWord p.Name = false) := by
        rintro (h | h)
        · exact hw2.1 h
        · rw [hw] at h; cases h
      rw [if_neg hc]
      by_cases hd : p.DataType = DataType.Factor ∨ p.DataType = DataType.String
          ∨ p.DataType = DataType.Integer ∨ p.DataType = DataType.Float
          ∨ p.DataType = DataType.Boolean
      · rw [if_pos hd]
        exact ⟨fun _ => ⟨hw2, ht.mp hd⟩, fun _ => rfl⟩
      · rw [if_neg hd]
        exact ⟨fun h => (by cases h), fun h => absurd (ht.mpr h.2) hd⟩
    · have hc : p.Name = "" ∨ matchWord p.Name = false := by
        right
        cases h : matchWord p.Name
        · rfl
        · exact absurd h hw
      rw [if_pos hc]
      exact ⟨fun h => (by cases h), fun h => absurd (hm.mpr h.1) hw⟩
  · intro hn
    have hw : ¬ matchWord p.Name = true := fun h => hn (hm.mp h)
    have hc : p.Name = "" ∨ matchWord p.Name = false := by
      right
      cases h : matchWord p.Name
      · rfl
      · exact absurd h hw
    unfold Property.Validate
    rw [if_pos hc]

/-- C17 (type of what `Cast` returns), refuted on the code: for an integer property a
string or nil input, and for a float property a boolean or nil input, `Cast` returns the
Go `int` 0 (the untyped constant `0` of the default branch), which is neither an `int64`
nor a `float64`.  The numeric conversions do yield the declared type: the float `7`
becomes the `int64` 7 and the integer 3 the `float64` 3. -/
theorem cast_default_is_untyped_int :
    (∀ s : Bytes, Property.Cast ⟨1, "count", "integer", false⟩ (Value.string s) = Value.int 0)
    ∧ Property.Cast ⟨1, "count", "integer", false⟩ Value.nil = Value.int 0
    ∧ Property.Cast ⟨2, "price", "float", false⟩ (Value.bool true) = Value.int 0
    ∧ Property.Cast ⟨2, "price", "float", false⟩ Value.nil = Value.int 0
    ∧ Value.int 0 ≠ Value.int64 0
    ∧ (∀ x : ℚ, Value.int 0 ≠ Value.float64 x)
    ∧ Property.Cast ⟨1, "count", "integer", false⟩ (Value.float64 7) = Value.int64 7
    ∧ Property.Cast ⟨2, "price", "float", false⟩ (Value.int 3) = Value.float64 3 := by
  refine ⟨fun s => ?_, ?_, ?_, ?_, ?_, ?_, ?_, ?_⟩
  · simp [Property.Cast, DataType.Factor, DataType.String, DataType.Integer, promote]
  · simp [Property.Cast, DataType.Factor, DataType.String, DataType.Integer, promote]
  · simp [Property.Cast, DataType.Factor, DataType.String, DataType.Integer, DataType.Float,
      promote]
  · simp [Property.Cast, DataType.Factor, DataType.String, DataType.Integer, DataType.Float,
      promote]
  · simp
  · intro x; simp
  · simp [Property.Cast, DataType.Factor, DataType.String, DataType.Integer, promote]
    simp [floatToInt64]
  · simp [Property.Cast, DataType.Factor, DataType.String, DataType.Integer, DataType.Float,
      promote]
    simp [int64ToFloat]

/-! ## Dictionaries of the result -/

theorem entry_map_set (m : OutputMap) (k k1 : Bytes) (v : Output) :
    entry (m.map (fun e => if e.1 = k then (k, v) else e)) k1
      = if k1 = k then (if m.any (fun e => e.1 = k) then some v else none) else entry m k1 := by
  induction m with
  | nil => simp [entry]
  | cons e rest ih =>
    unfold entry at ih ⊢
    by_cases hek : e.1 = k
    · by_cases hk : k1 = k
      · subst hk
        simp [hek, List.find?_cons]
      · have hk2 : ¬ k = k1 := fun h => hk h.symm
        simp only [List.map_cons, hek, if_true, List.find?_cons, hk, hk2, decide_False, if_false]
        simpa [hk] using ih
    · by_cases hk : k1 = k
      · subst hk
        simp only [List.map_cons, hek, if_false, List.find?_cons, decide_False, List.any_cons,
          Bool.false_or]
        simpa using ih
      · simp only [List.map_cons, hek, if_false, List.find?_cons, hk]
        by_cases he1 : e.1 = k1
        · simp [he1]
        · simp only [he1, decide_False]
          simpa [hk] using ih

theorem entry_of_any_false (m : OutputMap) (k : Bytes) (h : m.any (fun e => e.1 = k) = false) :
    entry m k = none := by
  induction m with
  | nil => rfl
  | cons e rest ih =>
    simp only [List.any_cons, Bool.or_eq_false_iff, decide_eq_false_iff_not] at h
    unfold entry at ih ⊢
    simp only [List.find?_cons, h.1, decide_False]
    exact ih h.2

theorem entry_setEntry (m : OutputMap) (k k1 : Bytes) (v : Output) :
    entry (setEntry m k v) k1 = if k1 = k then some v else entry m k1 := by
  unfold setEntry
  by_cases ha : m.any (fun e => e.1 = k) = true
  · rw [if_pos ha, entry_map_set, ha]
    simp
  · have ha2 : m.any (fun e => e.1 = k) = false := by
      cases h : m.any (fun e => e.1 = k)
      · rfl
      · exact absurd h ha
    rw [if_neg ha]
    by_cases hk : k1 = k
    · subst hk
      have hn := entry_of_any_false m k1 ha2
      unfold entry at hn ⊢
      simp only [Option.map_eq_none'] at hn
      simp [List.find?_append, hn]
    · rw [if_neg hk]
      have hk2 : ¬ k = k1 := fun h => hk h.symm
      unfold entry
      simp [List.find?_append, List.find?_cons, hk2]

theorem submap_setEntry (m out0 values : OutputMap) (k k1 : Bytes) (v : Output)
    (h : submap m k = some (out0, values)) :
    entry (setEntry out0 k v) k1 = if k1 = k then some v else entry m k1 := by
  unfold submap at h
  split at h
  · simp only [Option.some.injEq, Prod.mk.injEq] at h
    rw [← h.1, entry_setEntry, entry_setEntry]
    by_cases hk : k1 = k <;> simp [hk]
  · simp only [Option.some.injEq, Prod.mk.injEq] at h
    rw [← h.1, entry_setEntry]
  · cases h

/-! ## Rendering of keys -/

theorem decimal_ge (n : Nat) : ∀ b ∈ decimal n, 48 ≤ b := by
  rcases Nat.eq_zero_or_pos n with h | h
  · subst h; simp [decimal_zero]
  · rw [decimal_pos n h]
    intro b hb
    simp only [List.mem_map] at hb
    obtain ⟨d, _, rfl⟩ := hb
    omega

theorem Itoa_injective (i j : Int) (h : Itoa i = Itoa j) : i = j := by
  unfold Itoa at h
  by_cases hi : i < 0 <;> by_cases hj : j < 0
  · rw [if_pos hi, if_pos hj] at h
    have := decimal_injective _ _ (List.cons.inj h).2
    omega
  · rw [if_pos hi, if_neg hj] at h
    have := decimal_ge j.natAbs 45 (by rw [← h]; exact List.mem_cons_self _ _)
    omega
  · rw [if_neg hi, if_pos hj] at h
    have := decimal_ge i.natAbs 45 (by rw [h]; exact List.mem_cons_self _ _)
    omega
  · rw [if_neg hi, if_neg hj] at h
    have := decimal_injective _ _ h
    omega

theorem toInt64_of_lt (k : Nat) (h : k < 2 ^ 63) : toInt64 k = k := by
  unfold toInt64 wrapInt64
  omega

theorem toInt64_injective (a b : Nat) (ha : a < 2 ^ 64) (hb : b < 2 ^ 64)
    (h : toInt64 a = toInt64 b) : a = b := by
  unfold toInt64 wrapInt64 at h
  omega

theorem Itoa_of_lt (k : Nat) (h : k < 2 ^ 63) : Itoa (toInt64 k) = decimal k := by
  rw [toInt64_of_lt k h]
  unfold Itoa
  simp

theorem toInt64_of_ge (k : Nat) (h1 : 2 ^ 63 ≤ k) (h2 : k < 2 ^ 64) :
    toInt64 k = (k : Int) - 2 ^ 64 := by
  unfold toInt64 wrapInt64
  omega

theorem Itoa_of_ge (k : Nat) (h1 : 2 ^ 63 ≤ k) (h2 : k < 2 ^ 64) :
    Itoa (toInt64 k) = 45 :: decimal (2 ^ 64 - k) := by
  rw [toInt64_of_ge k h1 h2]
  unfold Itoa
  have hneg : ((k : Int) - 2 ^ 64) < 0 := by omega
  have habs : ((k : Int) - 2 ^ 64).natAbs = 2 ^ 64 - k := by omega
  rw [if_pos hneg, habs]

/-! ## The loop over the dimension values -/

theorem reduceKeys_entries (r : Reducer) (tbl : Symtable) (decl : VarDecl) (dimension : VarRef)
    (h : Hashmap) (recur : Hashmap → OutputMap → Reduced) (keys : List Nat) :
    ∀ output output1 : OutputMap,
      r.reduceKeys tbl decl dimension h recur keys output = (output1, some none) →
      (∀ ks, (∃ es, entry output ks = some (Output.object es)) →
          ∃ es, entry output1 ks = some (Output.object es))
      ∧ ∀ k ∈ keys, ∃ ks, r.keyString tbl decl dimension k = some (Except.ok ks)
          ∧ ∃ es, entry output1 ks = some (Output.object es) := by
  induction keys with
  | nil =>
    intro output output1 hres
    simp only [Reducer.reduceKeys, Prod.mk.injEq, and_true] at hres
    subst hres
    exact ⟨fun ks hk => hk, by simp⟩
  | cons key rest ih =>
    intro output output1 hres
    unfold Reducer.reduceKeys at hres
    cases hks : r.keyString tbl decl dimension key with
    | none => rw [hks] at hres; simp at hres
    | some res =>
      cases res with
      | error err => rw [hks] at hres; simp at hres
      | ok ks =>
        rw [hks] at hres
        simp only at hres
        cases hsub : submap output ks with
        | none => rw [hsub] at hres; simp at hres
        | some pair =>
          obtain ⟨out0, m⟩ := pair
          rw [hsub] at hres
          simp only at hres
          cases hrec : recur (h.Submap key) m with
          | mk m1 res1 =>
            rw [hrec] at hres
            have hok : res1 = some none := by
              rcases res1 with _ | _ | e
              · simp at hres
              · rfl
              · simp at hres
            subst hok
            simp only at hres
            obtain ⟨keep, all⟩ := ih _ _ hres
            have hat : ∀ ks1, (∃ es, entry output ks1 = some (Output.object es)) →
                ∃ es, entry (setEntry out0 ks (Output.object m1)) ks1
                  = some (Output.object es) := by
              intro ks1 ⟨es, hes⟩
              rw [submap_setEntry output out0 m ks ks1 _ hsub]
              by_cases hk : ks1 = ks
              · exact ⟨m1, by simp [hk]⟩
              · exact ⟨es, by simp [hk, hes]⟩
            refine ⟨fun ks1 hk => keep ks1 (hat ks1 hk), ?_⟩
            intro k hk
            rcases List.mem_cons.mp hk with rfl | hk
            · refine ⟨ks, hks, keep ks ⟨m1, ?_⟩⟩
              rw [submap_setEntry output out0 m ks ks _ hsub]
              simp
            · exact all k hk

theorem reduceKeys_stops (r : Reducer) (tbl : Symtable) (decl : VarDecl) (dimension : VarRef)
    (h : Hashmap) (recur : Hashmap → OutputMap → Reduced) (key : Nat) (post : List Nat)
    (err : ReduceError) (hk : r.keyString tbl decl dimension key = some (Except.error err))
    (pre : List Nat) :
    ∀ output output1 : OutputMap,
      r.reduceKeys tbl decl dimension h recur pre output = (output1, some none) →
      r.reduceKeys tbl decl dimension h recur (pre ++ key :: post) output
        = (output1, some (some err)) := by
  induction pre with
  | nil =>
    intro output output1 hres
    simp only [Reducer.reduceKeys, Prod.mk.injEq, and_true] at hres
    subst hres
    simp [Reducer.reduceKeys, hk]
  | cons k rest ih =>
    intro output output1 hres
    rw [List.cons_append]
    unfold Reducer.reduceKeys at hres ⊢
    cases hks : r.keyString tbl decl dimension k with
    | none => rw [hks] at hres; simp at hres
    | some res =>
      cases res with
      | error e => rw [hks] at hres; simp at hres
      | ok ks =>
        rw [hks] at hres
        simp only at hres ⊢
        cases hsub : submap output ks with
        | none => rw [hsub] at hres; simp at hres
        | some pair =>
          obtain ⟨out0, m⟩ := pair
          rw [hsub] at hres
          simp only at hres ⊢
          cases hrec : recur (h.Submap k) m with
          | mk m1 res1 =>
            rw [hrec] at hres
            have hok : res1 = some none := by
              rcases res1 with _ | _ | e
              · simp at hres
              · rfl
              · simp at hres
            subst hok
            simp only at hres ⊢
            exact ih _ _ hres

theorem reduceSelectionDimensions_cons (r : Reducer) (node : Selection) (tbl : Symtable)
    (dimension : VarRef) (rest : List VarRef) (h : Hashmap) (output out0 values : OutputMap)
    (decl : VarDecl) (hd : tbl.Find dimension.Name = some decl)
    (hs : submap output dimension.Name = some (out0, values)) :
    r.reduceSelectionDimensions node tbl (dimension :: rest) h output
      = (setEntry out0 dimension.Name (Output.object
            (r.reduceKeys tbl decl dimension (h.Submap (r.Hash dimension.Name))
              (fun child m => r.reduceSelectionDimensions node tbl rest child m)
              (h.Submap (r.Hash dimension.Name)).keys values).1),
          (r.reduceKeys tbl decl dimension (h.Submap (r.Hash dimension.Name))
              (fun child m => r.reduceSelectionDimensions node tbl rest child m)
              (h.Submap (r.Hash dimension.Name)).keys values).2) := by
  rw [Reducer.reduceSelectionDimensions, hd]
  simp only [hs]

theorem reduce_entries (r : Reducer) (node : Selection) (tbl : Symtable)
    (dimension : VarRef) (rest : List VarRef) (h : Hashmap) (output output1 : OutputMap)
    (decl : VarDecl) (hd : tbl.Find dimension.Name = some decl)
    (hres : r.reduceSelectionDimensions node tbl (dimension :: rest) h output
      = (output1, some none)) :
    ∃ values, entry output1 dimension.Name = some (Output.object values)
      ∧ ∀ k ∈ (h.Submap (r.Hash dimension.Name)).keys,
          ∃ ks, r.keyString tbl decl dimension k = some (Except.ok ks)
            ∧ ∃ es, entry values ks = some (Output.object es) := by
  cases hs : submap output dimension.Name with
  | none =>
    rw [Reducer.reduceSelectionDimensions, hd] at hres
    simp [hs] at hres
  | some pair =>
    obtain ⟨out0, values⟩ := pair
    rw [reduceSelectionDimensions_cons r node tbl dimension rest h output out0 values decl hd hs]
      at hres
    simp only [Prod.mk.injEq] at hres
    obtain ⟨h1, h2⟩ := hres
    refine ⟨(r.reduceKeys tbl decl dimension (h.Submap (r.Hash dimension.Name))
        (fun child m => r.reduceSelectionDimensions node tbl rest child m)
        (h.Submap (r.Hash dimension.Name)).keys values).1, ?_, ?_⟩
    · rw [← h1, submap_setEntry output out0 values _ _ _ hs]
      simp
    · exact (reduceKeys_entries r tbl decl dimension _ _ _ values _ (Prod.ext rfl h2)).2

/-! ## Witnesses on the router -/

/-- Witness of C11: object `a` of the two-shard sample database lives on shard 0. -/
theorem shard_routing_witness :
    1 ≤ sampleDb.shards.length ∧ sampleDb.shards.length < 2 ^ 32
    ∧ sampleDb.getShardByObjectId [97] = some 0
    ∧ (sampleDb.DeleteObject "users" [97]).1.log = [(0, ShardCall.DeleteObject "users" [97])] :=
  ⟨by decide, by decide,
    (shard_routing sampleDb "users" [97] (by decide) (by decide)).1,
    (shard_routing sampleDb "users" [97] (by decide) (by decide)).2.2.2.2.2.2.2.2.2⟩

/-- Witness of C14: merging object `a` into object `b` of the sample database. -/
theorem merge_postcondition_witness :
    sampleDb.shards[ObjectLocalHash [97] % sampleDb.shards.length]? = some sourceShard
    ∧ sourceShard.objects "users" [97] = some [⟨1, []⟩]
    ∧ (sampleDb.Merge "users" [98] [97]).2 = some none
    ∧ ((sampleDb.Merge "users" [98] [97]).1.GetEvents "users" [97]).2 = some ([], none) :=
  ⟨rfl, rfl,
    (merge_postcondition sampleDb "users" [98] [97] [⟨1, []⟩] sourceShard (emptyShard 1 [])
      (by decide) (by decide) (by decide) (by decide) rfl rfl rfl (by decide)).2.1,
    (merge_postcondition sampleDb "users" [98] [97] [⟨1, []⟩] sourceShard (emptyShard 1 [])
      (by decide) (by decide) (by decide) (by decide) rfl rfl rfl (by decide)).2.2.2.2⟩

/-- Witness of C15: dropping table `users` of the sample database twice. -/
theorem drop_idempotence_witness :
    (sampleDb.Drop "users").2 = none
    ∧ (∀ s ∈ (sampleDb.Drop "users").1.shards, s.faults = [])
    ∧ (∀ s ∈ (sampleDb.Drop "users").1.shards, ∀ id, s.objects "users" id = none)
    ∧ ((sampleDb.Drop "users").1.Drop "users").2 = none :=
  ⟨by decide, by decide,
    (drop_idempotence sampleDb "users" (by decide)).1,
    ((drop_idempotence sampleDb "users" (by decide)).2 (by decide)).1⟩


/-! ## The claims on the reducer -/

/-- String and float dimensions: when the next dimension is declared string or float and
the output has a dictionary (or nothing) under the dimension name,
`reduceSelectionDimensions` returns nil if the submap of the dimension holds no key, and
returns the error of the unsupported type only if it holds one.  In both cases the
dictionary under the dimension name gets no entry. -/
theorem unsupported_dimension_error_needs_a_key (r : Reducer) (node : Selection)
    (tbl : Symtable) (dimension : VarRef) (rest : List VarRef) (h : Hashmap)
    (output out0 values : OutputMap) (decl : VarDecl)
    (hd : tbl.Find dimension.Name = some decl)
    (ht : decl.DataType = DataType.String ∨ decl.DataType = DataType.Float)
    (hs : submap output dimension.Name = some (out0, values)) :
    ((h.Submap (r.Hash dimension.Name)).keys = [] →
      r.reduceSelectionDimensions node tbl (dimension :: rest) h output
        = (setEntry out0 dimension.Name (Output.object values), some none))
    ∧ ((h.Submap (r.Hash dimension.Name)).keys ≠ [] →
      r.reduceSelectionDimensions node tbl (dimension :: rest) h output
        = (setEntry out0 dimension.Name (Output.object values),
            some (some (if decl.DataType = DataType.String
              then ReduceError.stringDimension dimension.Name
              else ReduceError.floatDimension dimension.Name)))) := by
  rw [reduceSelectionDimensions_cons r node tbl dimension rest h output out0 values decl hd hs]
  constructor
  · intro hk
    rw [hk]
    rfl
  · intro hk
    obtain ⟨k, post, hkeys⟩ := List.exists_cons_of_ne_nil hk
    rw [hkeys]
    rcases ht with ht | ht
    · simp [Reducer.reduceKeys, Reducer.keyString, ht]
    · simp [Reducer.reduceKeys, Reducer.keyString, ht, DataType.String, DataType.Float]

/-- C18 (string and float dimensions are rejected), refuted on the code for a dimension
without keys: for the dimension `s`, declared string, and a hashmap whose submap of `s`
holds no key, `reduceSelectionDimensions` returns nil, not an error; the output gets the
empty dictionary under `s`. -/
theorem string_dimension_without_keys_is_accepted :
    sampleSymtable.Find [115] = some ⟨[115], "string", []⟩
    ∧ ((Hashmap.mk [] []).Submap (sampleReducer.Hash [115])).keys = []
    ∧ sampleReducer.reduceSelectionDimensions sampleSelection sampleSymtable [⟨[115]⟩]
          (Hashmap.mk [] []) []
        = ([([115], Output.object [])], some none) :=
  ⟨rfl, rfl,
    (unsupported_dimension_error_needs_a_key sampleReducer sampleSelection sampleSymtable
      ⟨[115]⟩ [] (Hashmap.mk [] []) [] [([115], Output.object [])] []
      ⟨[115], "string", []⟩ rfl (Or.inl rfl) rfl).1 rfl⟩

/-- Counterexample to C19: the key `2^64 - 1` of the integer dimension `n` is rendered
`-1`; the output holds no entry named by the decimal representation
`18446744073709551615` of the key. -/
theorem large_key_is_rendered_negative :
    sampleSymtable.Find [110] = some ⟨[110], "integer", []⟩
    ∧ (largeKeyHashmap.Submap (sampleReducer.Hash [110])).keys = [2 ^ 64 - 1]
    ∧ sampleReducer.keyString sampleSymtable ⟨[110], "integer", []⟩ ⟨[110]⟩ (2 ^ 64 - 1)
        = some (Except.ok [45, 49])
    ∧ sampleReducer.reduceSelectionDimensions sampleSelection sampleSymtable [⟨[110]⟩]
          largeKeyHashmap []
        = ([([110], Output.object [([45, 49], Output.object [])])], some none)
    ∧ decimal (2 ^ 64 - 1)
        = [49, 56, 52, 52, 54, 55, 52, 52, 48, 55, 51, 55, 48, 57, 53, 53, 49, 54, 49, 53]
    ∧ entry [([45, 49], Output.object [])] (decimal (2 ^ 64 - 1)) = none := by
  refine ⟨rfl, by decide, rfl, rfl, by decide, rfl⟩

/-- C19, amended (rendering of dimension keys): when `reduceSelectionDimensions` returns
nil, the output holds a dictionary under the dimension name in which, for every key `k` of
the submap of the dimension, there is a nested dictionary named `strconv.Itoa(int(k))` if
the dimension is declared integer: the decimal representation of `k` for `k < 2^63`, and
`-` followed by the decimal representation of `2^64 - k` for `2^63 ≤ k < 2^64`; and named
`false` for `k = 0` and `true` otherwise if it is declared boolean; for an integer
dimension distinct keys below `2^64` are rendered by distinct names. -/
theorem dimension_key_rendering (r : Reducer) (node : Selection) (tbl : Symtable)
    (dimension : VarRef) (rest : List VarRef) (h : Hashmap) (output output1 : OutputMap)
    (decl : VarDecl) (hd : tbl.Find dimension.Name = some decl)
    (hres : r.reduceSelectionDimensions node tbl (dimension :: rest) h output
      = (output1, some none)) :
    ∃ values, entry output1 dimension.Name = some (Output.object values)
      ∧ (decl.DataType = DataType.Integer →
          ∀ k ∈ (h.Submap (r.Hash dimension.Name)).keys,
            r.keyString tbl decl dimension k = some (Except.ok (Itoa (toInt64 k)))
            ∧ (k < 2 ^ 63 → Itoa (toInt64 k) = decimal k)
            ∧ (2 ^ 63 ≤ k → k < 2 ^ 64 → Itoa (toInt64 k) = 45 :: decimal (2 ^ 64 - k))
            ∧ ∃ es, entry values (Itoa (toInt64 k)) = some (Output.object es))
      ∧ (decl.DataType = DataType.Boolean →
          ∀ k ∈ (h.Submap (r.Hash dimension.Name)).keys,
            r.keyString tbl decl dimension k
              = some (Except.ok (if k = 0 then [102, 97, 108, 115, 101] else [116, 114, 117, 101]))
            ∧ ∃ es, entry values (if k = 0 then [102, 97, 108, 115, 101] else [116, 114, 117, 101])
                = some (Output.object es))
      ∧ (decl.DataType = DataType.Integer →
          ∀ k1 k2 : Nat, k1 < 2 ^ 64 → k2 < 2 ^ 64 →
            r.keyString tbl decl dimension k1 = r.keyString tbl decl dimension k2 → k1 = k2) := by
  obtain ⟨values, hv, hall⟩ := reduce_entries r node tbl dimension rest h output output1 decl hd hres
  have hint : decl.DataType = DataType.Integer → ∀ k,
      r.keyString tbl decl dimension k = some (Except.ok (Itoa (toInt64 k))) := by
    intro ht k
    simp [Reducer.keyString, ht, DataType.String, DataType.Float, DataType.Integer]
  have hbool : decl.DataType = DataType.Boolean → ∀ k,
      r.keyString tbl decl dimension k
        = some (Except.ok (if k = 0 then [102, 97, 108, 115, 101] else [116, 114, 117, 101])) := by
    intro ht k
    simp [Reducer.keyString, ht, DataType.String, DataType.Float, DataType.Integer,
      DataType.Factor, DataType.Boolean]
  refine ⟨values, hv, ?_, ?_, ?_⟩
  · intro ht k hk
    obtain ⟨ks, hks, hes⟩ := hall k hk
    rw [hint ht k] at hks
    simp only [Option.some.injEq, Except.ok.injEq] at hks
    refine ⟨hint ht k, Itoa_of_lt k, Itoa_of_ge k, ?_⟩
    rw [hks]
    exact hes
  · intro ht k hk
    obtain ⟨ks, hks, hes⟩ := hall k hk
    rw [hbool ht k] at hks
    simp only [Option.some.injEq, Except.ok.injEq] at hks
    refine ⟨hbool ht k, ?_⟩
    rw [hks]
    exact hes
  · intro ht k1 k2 hk1 hk2 heq
    rw [hint ht k1, hint ht k2] at heq
    simp only [Option.some.injEq, Except.ok.injEq] at heq
    exact toInt64_injective k1 k2 hk1 hk2 (Itoa_injective _ _ heq)

/-- Witness of C19: the keys 3 and 10 of an integer dimension are rendered `3` and `10`. -/
theorem dimension_key_rendering_witness :
    sampleSymtable.Find [110] = some ⟨[110], "integer", []⟩
    ∧ (sampleHashmap.Submap (sampleReducer.Hash [110])).keys = [3, 10]
    ∧ sampleReducer.reduceSelectionDimensions sampleSelection sampleSymtable [⟨[110]⟩]
          sampleHashmap []
        = ([([110], Output.object [([51], Output.object []), ([49, 48], Output.object [])])],
            some none)
    ∧ ∃ values,
        entry [([110], Output.object [([51], Output.object []), ([49, 48], Output.object [])])]
            [110] = some (Output.object values)
        ∧ ∃ es, entry values (Itoa (toInt64 10)) = some (Output.object es) :=
  ⟨rfl, by decide, rfl,
    match dimension_key_rendering sampleReducer sampleSelection sampleSymtable ⟨[110]⟩ []
        sampleHashmap []
        [([110], Output.object [([51], Output.object []), ([49, 48], Output.object [])])]
        ⟨[110], "integer", []⟩ rfl rfl with
    | ⟨values, hv, hint, _⟩ => ⟨values, hv, (hint rfl 10 (by decide)).2.2.2⟩⟩

theorem keyString_factor (r : Reducer) (tbl : Symtable) (decl : VarDecl) (dimension : VarRef)
    (k : Nat) (hd : tbl.Find dimension.Name = some decl)
    (hf : decl.DataType = DataType.Factor) :
    r.keyString tbl decl dimension k
      = match r.tableProperty (if decl.Association = [] then decl.Name else decl.Association) with
        | Except.error err => some (Except.error (ReduceError.selectionError err))
        | Except.ok none =>
          some (Except.error (ReduceError.propertyNotFound
            (if decl.Association = [] then decl.Name else decl.Association)))
        | Except.ok (some p) =>
          match r.Defactorize p (toInt64 k) with
          | none =>
            some (Except.error (ReduceError.factorNotFound
              (if decl.Association = [] then decl.Name else decl.Association) k))
          | some s => some (Except.ok s) := by
  simp only [Reducer.keyString, hf, hd, DataType.String, DataType.Float, DataType.Integer,
    DataType.Factor, String.reduceEq, if_false, if_true]

/-- C20 (lookup of factor dimensions): for a dimension declared factor, with `name` the
`Association` of the declaration if that is non-empty and its `Name` otherwise: a key whose
sequence the property `name` of the table defactorizes is rendered by the resulting string;
when `reduceSelectionDimensions` returns nil, every key of the submap was defactorized
through that property and its string names a nested dictionary of the output; and when the
keys before `k` were reduced and the property is missing, its lookup fails or it has no
factor for `k`, the call returns the corresponding error with the output as the keys
before `k` left it, whatever keys follow. -/
theorem factor_dimension_lookup (r : Reducer) (node : Selection) (tbl : Symtable)
    (dimension : VarRef) (rest : List VarRef) (h : Hashmap) (output : OutputMap)
    (decl : VarDecl) (hd : tbl.Find dimension.Name = some decl)
    (hf : decl.DataType = DataType.Factor) :
    (∀ (k : Nat) p s,
        r.tableProperty (if decl.Association = [] then decl.Name else decl.Association)
          = Except.ok (some p) →
        r.Defactorize p (toInt64 k) = some s →
        r.keyString tbl decl dimension k = some (Except.ok s))
    ∧ (∀ output1,
        r.reduceSelectionDimensions node tbl (dimension :: rest) h output = (output1, some none) →
        ∃ values, entry output1 dimension.Name = some (Output.object values)
          ∧ ∀ k ∈ (h.Submap (r.Hash dimension.Name)).keys, ∃ p s es,
              r.tableProperty (if decl.Association = [] then decl.Name else decl.Association)
                = Except.ok (some p)
              ∧ r.Defactorize p (toInt64 k) = some s
              ∧ entry values s = some (Output.object es))
    ∧ (∀ (out0 values values1 : OutputMap) (pre : List Nat) (k : Nat) (post : List Nat),
        submap output dimension.Name = some (out0, values) →
        (h.Submap (r.Hash dimension.Name)).keys = pre ++ k :: post →
        r.reduceKeys tbl decl dimension (h.Submap (r.Hash dimension.Name))
            (fun child m => r.reduceSelectionDimensions node tbl rest child m) pre values
          = (values1, some none) →
        (∀ p s,
          r.tableProperty (if decl.Association = [] then decl.Name else decl.Association)
            = Except.ok (some p) →
          r.Defactorize p (toInt64 k) ≠ some s) →
        ∃ err,
          ((∃ e, r.tableProperty (if decl.Association = [] then decl.Name else decl.Association)
                = Except.error e ∧ err = ReduceError.selectionError e)
            ∨ (r.tableProperty (if decl.Association = [] then decl.Name else decl.Association)
                = Except.ok none
              ∧ err = ReduceError.propertyNotFound
                  (if decl.Association = [] then decl.Name else decl.Association))
            ∨ (∃ p, r.tableProperty (if decl.Association = [] then decl.Name else decl.Association)
                = Except.ok (some p)
              ∧ err = ReduceError.factorNotFound
                  (if decl.Association = [] then decl.Name else decl.Association) k))
          ∧ r.reduceSelectionDimensions node tbl (dimension :: rest) h output
              = (setEntry out0 dimension.Name (Output.object values1), some (some err))) := by
  refine ⟨?_, ?_, ?_⟩
  · intro k p s hp hs
    rw [keyString_factor r tbl decl dimension k hd hf, hp]
    simp only [hs]
  · intro output1 hres
    obtain ⟨values, hv, hall⟩ :=
      reduce_entries r node tbl dimension rest h output output1 decl hd hres
    refine ⟨values, hv, ?_⟩
    intro k hk
    obtain ⟨ks, hks, es, hes⟩ := hall k hk
    rw [keyString_factor r tbl decl dimension k hd hf] at hks
    cases hp : r.tableProperty (if decl.Association = [] then decl.Name else decl.Association) with
    | error e => rw [hp] at hks; simp at hks
    | ok found =>
      cases found with
      | none => rw [hp] at hks; simp at hks
      | some p =>
        rw [hp] at hks
        simp only at hks
        cases hs : r.Defactorize p (toInt64 k) with
        | none => rw [hs] at hks; simp at hks
        | some s =>
          rw [hs] at hks
          simp only [Option.some.injEq, Except.ok.injEq] at hks
          exact ⟨p, s, es, rfl, hs, by rw [hks]; exact hes⟩
  · intro out0 values values1 pre k post hs hkeys hpre hmiss
    have hstop : ∀ err, r.keyString tbl decl dimension k = some (Except.error err) →
        r.reduceSelectionDimensions node tbl (dimension :: rest) h output
          = (setEntry out0 dimension.Name (Output.object values1), some (some err)) := by
      intro err herr
      rw [reduceSelectionDimensions_cons r node tbl dimension rest h output out0 values decl hd hs,
        hkeys, reduceKeys_stops r tbl decl dimension _ _ k post err herr pre values values1 hpre]
    have hks := keyString_factor r tbl decl dimension k hd hf
    cases hp : r.tableProperty (if decl.Association = [] then decl.Name else decl.Association) with
    | error e =>
      rw [hp] at hks
      exact ⟨_, Or.inl ⟨e, rfl, rfl⟩, hstop _ hks⟩
    | ok found =>
      cases found with
      | none =>
        rw [hp] at hks
        exact ⟨_, Or.inr (Or.inl ⟨rfl, rfl⟩), hstop _ hks⟩
      | some p =>
        rw [hp] at hks
        simp only at hks
        cases hs2 : r.Defactorize p (toInt64 k) with
        | some s => exact absurd hs2 (hmiss p s hp)
        | none =>
          rw [hs2] at hks
          exact ⟨_, Or.inr (Or.inr ⟨p, rfl, rfl⟩), hstop _ hks⟩

/-- Witness of C20: sequence 1 of the factor dimension `f` is rendered `x`, and the
sequence 2, which has no factor, ends the reduction with an error. -/
theorem factor_dimension_lookup_witness :
    sampleSymtable.Find [102] = some ⟨[102], "factor", []⟩
    ∧ (sampleHashmap.Submap (sampleReducer.Hash [102])).keys = [1] ++ 2 :: []
    ∧ sampleReducer.keyString sampleSymtable ⟨[102], "factor", []⟩ ⟨[102]⟩ 1
        = some (Except.ok [120])
    ∧ ∃ err,
        sampleReducer.reduceSelectionDimensions sampleSelection sampleSymtable [⟨[102]⟩]
            sampleHashmap []
          = ([([102], Output.object [([120], Output.object [])])], some (some err)) :=
  ⟨rfl, by decide,
    (factor_dimension_lookup sampleReducer sampleSelection sampleSymtable ⟨[102]⟩ []
      sampleHashmap [] ⟨[102], "factor", []⟩ rfl rfl).1 1 ⟨1, "f", "factor", false⟩ [120] rfl rfl,
    match (factor_dimension_lookup sampleReducer sampleSelection sampleSymtable ⟨[102]⟩ []
      sampleHashmap [] ⟨[102], "factor", []⟩ rfl rfl).2.2
        [([102], Output.object [])] [] [([120], Output.object [])] [1] 2 [] rfl (by decide) rfl
        (fun p s _ hs => by
          have h2 : sampleReducer.Defactorize p (toInt64 ((2 : Nat) : Int)) = none := rfl
          rw [h2] at hs
          cases hs) with
    | ⟨err, _, hres⟩ => ⟨err, hres⟩⟩

end Sky

namespace Sky

set_option maxRecDepth 100000

/-! ## The loop of Drop -/

theorem dropLoop_spec (tablespace : String) (shards : List shard) :
    ∀ (index : Nat) (err : Option ShardError),
      (db.dropLoop tablespace shards index err).1 = shards.map (fun s => (s.Drop tablespace).1)
      ∧ (db.dropLoop tablespace shards index err).2.1
          = (List.range' index shards.length).map (fun i => (i, ShardCall.Drop tablespace))
      ∧ (db.dropLoop tablespace shards index err).2.2
          = (err.toList ++ shards.filterMap (fun s => (s.Drop tablespace).2)).head? := by
  induction shards with
  | nil => intro index err; cases err <;> simp [db.dropLoop]
  | cons s rest ih =>
    intro index err
    obtain ⟨a, b, c⟩ := ih (index + 1) (if err = none then (s.Drop tablespace).2 else err)
    unfold db.dropLoop
    simp only [a, b, c]
    refine ⟨by simp, by simp [List.range'], ?_⟩
    cases err with
    | some e => simp
    | none =>
      cases hs : (s.Drop tablespace).2 with
      | none => simp [hs]
      | some e => simp [hs]

/-- C30 (`Drop` visits every shard): for every table and every schedule of failures,
`Drop` hands exactly one `Drop` call to each shard, in roster order, and leaves each shard
as its own `Drop` leaves it; it returns nil exactly when the `Drop` of every shard returned
nil, and otherwise the error of the first shard in the roster whose `Drop` failed. -/
theorem drop_visits_every_shard (d : db) (tablespace : String) :
    (d.Drop tablespace).1.log
        = d.log ++ (List.range d.shards.length).map (fun i => (i, ShardCall.Drop tablespace))
    ∧ (d.Drop tablespace).1.shards = d.shards.map (fun s => (s.Drop tablespace).1)
    ∧ ((d.Drop tablespace).2 = none ↔ ∀ s ∈ d.shards, (s.Drop tablespace).2 = none)
    ∧ (d.Drop tablespace).2
        = (d.shards.filterMap (fun s => (s.Drop tablespace).2)).head? := by
  obtain ⟨a, b, c⟩ := dropLoop_spec tablespace d.shards 0 none
  have hres : (d.Drop tablespace).2
      = (d.shards.filterMap (fun s => (s.Drop tablespace).2)).head? := by
    show (db.dropLoop tablespace d.shards 0 none).2.2 = _
    rw [c]; rfl
  refine ⟨?_, ?_, ?_, hres⟩
  · show d.log ++ (db.dropLoop tablespace d.shards 0 none).2.1 = _
    rw [b, List.range_eq_range']
  · show (db.dropLoop tablespace d.shards 0 none).1 = _
    rw [a]
  · rw [hres]
    constructor
    · intro h s hs
      cases hr : (s.Drop tablespace).2 with
      | none => rfl
      | some e =>
        have : e ∈ d.shards.filterMap (fun s => (s.Drop tablespace).2) :=
          List.mem_filterMap.mpr ⟨s, hs, hr⟩
        rw [List.head?_eq_none_iff] at h
        rw [h] at this
        cases this
    · intro h
      rw [List.head?_eq_none_iff, List.filterMap_eq_nil_iff]
      exact h

/-! ## Shard count by parsed names -/

theorem shardCountLoop_skip (info : FileInfo) (rest : List FileInfo) (count : Int)
    (hc : 0 ≤ count) (hneg : ∀ k, Atoi info.Name = some k → k < 0) :
    shardCountLoop (info :: rest) count = shardCountLoop rest count := by
  cases hp : Atoi info.Name with
  | none => simp only [shardCountLoop, hp]
  | some index =>
    have hlt := hneg index hp
    obtain ⟨r1, _⟩ := Atoi_range _ _ hp
    have hwr : wrapInt64 (index + 1) = index + 1 := wrapInt64_succ index r1 (by omega)
    simp only [shardCountLoop, hp, hwr]
    rw [if_neg (by omega)]

theorem shardCountLoop_insert (extra : FileInfo) (post : List FileInfo)
    (hneg : ∀ k, Atoi extra.Name = some k → k < 0) (pre : List FileInfo) :
    ∀ count : Int, 0 ≤ count →
      shardCountLoop (pre ++ extra :: post) count = shardCountLoop (pre ++ post) count := by
  induction pre with
  | nil => intro count hc; exact shardCountLoop_skip extra post count hc hneg
  | cons info rest ih =>
    intro count hc
    simp only [List.cons_append, shardCountLoop]
    split
    · split
      · rename_i h
        exact ih _ (by omega)
      · exact ih _ hc
    · exact ih _ hc

/-- Counterexample to C27: next to the subdirectory `0`, a subdirectory named `+3` raises
the shard count from 1 to 4, and one named `007` raises it to 8. -/
theorem signed_and_padded_names_count :
    shardCount (some [⟨[48], true⟩]) 4 = (1, false)
    ∧ shardCount (some [⟨[48], true⟩, ⟨[43, 51], true⟩]) 4 = (4, false)
    ∧ shardCount (some [⟨[48], true⟩, ⟨[48, 48, 55], true⟩]) 4 = (8, false) := by
  decide

/-- C27, amended (which directory entries count): adding to the listing of the data
directory, at any place, an entry whose name `strconv.Atoi` does not parse to a
non-negative integer does not change what `shardCount` returns. -/
theorem shard_count_ignores_unparsed_names (pre post : List FileInfo) (extra : FileInfo)
    (defaultShardCount : Int)
    (hneg : ∀ k, Atoi extra.Name = some k → k < 0) :
    shardCount (some (pre ++ extra :: post)) defaultShardCount
      = shardCount (some (pre ++ post)) defaultShardCount := by
  simp only [shardCount, shardCountLoop_insert extra post hneg pre 0 (le_refl _)]

/-- Witness of C27: the entry `3a` between the entries `0` and `2` changes nothing. -/
theorem shard_count_ignores_unparsed_names_witness :
    Atoi [51, 97] = none
    ∧ shardCount (some ([FileInfo.mk [48] true] ++ FileInfo.mk [51, 97] true
          :: [FileInfo.mk [50] true])) 4
        = shardCount (some ([FileInfo.mk [48] true] ++ [FileInfo.mk [50] true])) 4 :=
  ⟨by decide,
    shard_count_ignores_unparsed_names [FileInfo.mk [48] true] [FileInfo.mk [50] true]
      (FileInfo.mk [51, 97] true) 4 (by decide)⟩

/-! ## One shard call per object -/

/-- C24 (rename collision), refuted on the code: on a table that holds the properties `a`
(id 1) and `b` (id 2), the handler of `PATCH /tables/t/properties/a` with the new name `b`
returns the property with id 1 and name `b` and a nil error, and the catalog then holds
two properties named `b`. -/
theorem rename_collision_is_accepted :
    sampleTable.GetPropertyByName "a" = some ⟨1, "a", "integer", false⟩
    ∧ sampleTable.GetPropertyByName "b" = some ⟨2, "b", "integer", false⟩
    ∧ (sampleServer.updatePropertyHandler "t" "a" (Params.object (some "b"))).2
        = some (some ⟨1, "b", "integer", false⟩, none)
    ∧ ((sampleServer.updatePropertyHandler "t" "a" (Params.object (some "b"))).1.tables "t").map
          (fun t => t.properties)
        = some [⟨1, "b", "integer", false⟩, ⟨2, "b", "integer", false⟩] := by
  decide

/-- C28 (numeric coercion in `DefactorizeEvent`), refuted on the code for the Go types
`int` and `uint`: with `A0` stored under sequence 1 of the factor property `action`, the
value `int64(1)` is replaced by `A0`, but the values `int(1)` and `uint(1)` are replaced
by the empty string, as if they were sequence 0. -/
theorem plain_int_is_not_coerced :
    ((NewFactorizer.run sampleHistory).Defactorize "action" 1).2 = ([65, 48], none)
    ∧ ((NewFactorizer.run sampleHistory).DefactorizeEvent
          (some { Timestamp := 0, Data := [(1, Value.int64 1)] }) actionCatalog).2
        = (some { Timestamp := 0, Data := [(1, Value.string [65, 48])] }, some none)
    ∧ ((NewFactorizer.run sampleHistory).DefactorizeEvent
          (some { Timestamp := 0, Data := [(1, Value.int 1)] }) actionCatalog).2
        = (some { Timestamp := 0, Data := [(1, Value.string [])] }, some none)
    ∧ ((NewFactorizer.run sampleHistory).DefactorizeEvent
          (some { Timestamp := 0, Data := [(1, Value.uint 1)] }) actionCatalog).2
        = (some { Timestamp := 0, Data := [(1, Value.string [])] }, some none) := by
  decide

/-! ## What a shard call does to the stored events -/

theorem shard.answer_objects (s : shard) : s.answer.1.objects = s.objects := by
  unfold shard.answer
  cases s.faults <;> rfl

theorem shard.GetEvents_objects (s : shard) (tablespace : String) (id : Bytes) :
    (s.GetEvents tablespace id).1.objects = s.objects := by
  have h := shard.answer_objects s
  unfold shard.GetEvents
  cases ha : s.answer with
  | mk s1 failed =>
    rw [ha] at h
    cases failed <;> exact h

theorem shard.GetEvents_result (s : shard) (tablespace : String) (id : Bytes)
    (events : List Event)
    (h : (s.GetEvents tablespace id).2 = (events, none)) :
    events = (s.objects tablespace id).getD [] := by
  unfold shard.GetEvents at h
  cases ha : s.answer with
  | mk s1 failed =>
    rw [ha] at h
    cases failed
    · simp only [Prod.mk.injEq, and_true] at h
      exact h.symm
    · simp at h

theorem shard.GetEvent_objects (s : shard) (tablespace : String) (id : Bytes) (timestamp : Int) :
    (s.GetEvent tablespace id timestamp).1.objects = s.objects := by
  have h := shard.answer_objects s
  unfold shard.GetEvent
  cases ha : s.answer with
  | mk s1 failed =>
    rw [ha] at h
    cases failed <;> exact h

theorem shard.InsertEvents_objects (s : shard) (tablespace : String) (id : Bytes)
    (events : List Event) :
    ((s.InsertEvents tablespace id events).2 = none
      ∧ (s.InsertEvents tablespace id events).1.objects
          = upd s.objects tablespace (upd (s.objects tablespace) id
              (some (events.foldl appendSorted ((s.objects tablespace id).getD [])))))
    ∨ ((s.InsertEvents tablespace id events).2
          = some ⟨s.path, ShardCall.InsertEvents tablespace id events⟩
      ∧ (s.InsertEvents tablespace id events).1.objects = s.objects) := by
  have h := shard.answer_objects s
  unfold shard.InsertEvents
  cases ha : s.answer with
  | mk s1 failed =>
    rw [ha] at h
    cases failed
    · exact Or.inl ⟨rfl, rfl⟩
    · exact Or.inr ⟨rfl, h⟩

theorem shard.InsertEvent_objects (s : shard) (tablespace : String) (id : Bytes)
    (event : Event) :
    ((s.InsertEvent tablespace id event).2 = none
      ∧ (s.InsertEvent tablespace id event).1.objects
          = upd s.objects tablespace (upd (s.objects tablespace) id
              (some (appendSorted ((s.objects tablespace id).getD []) event))))
    ∨ ((s.InsertEvent tablespace id event).2
          = some ⟨s.path, ShardCall.InsertEvent tablespace id event⟩
      ∧ (s.InsertEvent tablespace id event).1.objects = s.objects) := by
  have h := shard.answer_objects s
  unfold shard.InsertEvent
  cases ha : s.answer with
  | mk s1 failed =>
    rw [ha] at h
    cases failed
    · exact Or.inl ⟨rfl, rfl⟩
    · exact Or.inr ⟨rfl, h⟩

theorem shard.DeleteObject_objects (s : shard) (tablespace : String) (id : Bytes) :
    ((s.DeleteObject tablespace id).2 = none
      ∧ (s.DeleteObject tablespace id).1.objects
          = upd s.objects tablespace (upd (s.objects tablespace) id none))
    ∨ ((s.DeleteObject tablespace id).2
          = some ⟨s.path, ShardCall.DeleteObject tablespace id⟩
      ∧ (s.DeleteObject tablespace id).1.objects = s.objects) := by
  have h := shard.answer_objects s
  unfold shard.DeleteObject
  cases ha : s.answer with
  | mk s1 failed =>
    rw [ha] at h
    cases failed
    · exact Or.inl ⟨rfl, rfl⟩
    · exact Or.inr ⟨rfl, h⟩

theorem shard.DeleteEvent_objects (s : shard) (tablespace : String) (id : Bytes)
    (timestamp : Int) :
    (s.DeleteEvent tablespace id timestamp).1.objects = s.objects
    ∨ ∃ events, s.objects tablespace id = some events
        ∧ (s.DeleteEvent tablespace id timestamp).1.objects
            = upd s.objects tablespace (upd (s.objects tablespace) id
                (some (events.filter (fun e => e.Timestamp ≠ timestamp)))) := by
  have h := shard.answer_objects s
  unfold shard.DeleteEvent
  cases ha : s.answer with
  | mk s1 failed =>
    rw [ha] at h
    cases failed
    · simp only
      cases ho : s.objects tablespace id with
      | none => exact Or.inl h
      | some events => exact Or.inr ⟨events, rfl, rfl⟩
    · exact Or.inl h

/-! ## What a database call does to the stored events -/

theorem dispatch_stored {α : Type} (d : db) (index : Nat) (call : ShardCall)
    (method : shard → shard × α) (s : shard) (hs : d.shards[index]? = some s)
    (tablespace : String) (id : Bytes) :
    (d.dispatch index call method).1.stored tablespace id
      = if ObjectLocalHash id % d.shards.length = index then (method s).1.objects tablespace id
        else d.stored tablespace id := by
  have hlt : index < d.shards.length := by
    by_contra hc
    rw [List.getElem?_eq_none (by omega)] at hs
    cases hs
  rw [dispatch_eq d index call method s hs]
  unfold db.stored
  simp only [List.length_set, List.getElem?_set]
  by_cases hi : ObjectLocalHash id % d.shards.length = index
  · rw [if_pos hi, if_pos hi.symm, if_pos hlt]
  · rw [if_neg hi, if_neg (fun h => hi h.symm)]

theorem dispatch_length {α : Type} (d : db) (index : Nat) (call : ShardCall)
    (method : shard → shard × α) :
    (d.dispatch index call method).1.shards.length = d.shards.length := by
  unfold db.dispatch
  cases d.shards[index]? with
  | none => rfl
  | some s => simp

theorem stored_of_objects {α : Type} (d : db) (index : Nat) (call : ShardCall)
    (method : shard → shard × α) (s : shard) (hs : d.shards[index]? = some s)
    (ho : (method s).1.objects = s.objects) :
    (d.dispatch index call method).1.stored = d.stored := by
  funext tablespace id
  rw [dispatch_stored d index call method s hs]
  by_cases hi : ObjectLocalHash id % d.shards.length = index
  · rw [if_pos hi, ho]
    unfold db.stored
    rw [hi, hs]
  · rw [if_neg hi]

theorem stored_of_write {α : Type} (d : db) (call : ShardCall)
    (method : shard → shard × α) (s : shard) (tablespace : String) (id : Bytes)
    (value : Option (List Event))
    (hs : d.shards[ObjectLocalHash id % d.shards.length]? = some s)
    (ho : (method s).1.objects = upd s.objects tablespace (upd (s.objects tablespace) id value))
    (t1 : String) (id1 : Bytes) :
    (d.dispatch (ObjectLocalHash id % d.shards.length) call method).1.stored t1 id1
      = if t1 = tablespace ∧ id1 = id then value else d.stored t1 id1 := by
  rw [dispatch_stored d _ call method s hs]
  by_cases hi : ObjectLocalHash id1 % d.shards.length = ObjectLocalHash id % d.shards.length
  · rw [if_pos hi, ho]
    have hst : d.stored t1 id1 = s.objects t1 id1 := by
      unfold db.stored
      rw [hi, hs]
    rw [hst]
    unfold upd
    by_cases ht : t1 = tablespace
    · by_cases hid : id1 = id
      · simp [ht, hid]
      · simp [ht, hid]
    · simp [ht]
  · rw [if_neg hi]
    have hid : id1 ≠ id := fun h => hi (by rw [h])
    simp [hid]

/-! ## Merge, step by step -/

theorem db_GetEvents_dispatch (d : db) (tablespace : String) (id : Bytes)
    (h1 : 1 ≤ d.shards.length) (h2 : d.shards.length < 2 ^ 32) :
    d.GetEvents tablespace id
      = d.dispatch (ObjectLocalHash id % d.shards.length) (ShardCall.GetEvents tablespace id)
          (fun s => s.GetEvents tablespace id) := by
  simp only [db.GetEvents, getShardByObjectId_eq d id h1 h2]

theorem db_InsertEvents_dispatch (d : db) (tablespace : String) (id : Bytes)
    (events : List Event) (h1 : 1 ≤ d.shards.length) (h2 : d.shards.length < 2 ^ 32) :
    d.InsertEvents tablespace id events
      = d.dispatch (ObjectLocalHash id % d.shards.length)
          (ShardCall.InsertEvents tablespace id events)
          (fun s => s.InsertEvents tablespace id events) := by
  simp only [db.InsertEvents, getShardByObjectId_eq d id h1 h2]

theorem db_InsertEvent_dispatch (d : db) (tablespace : String) (id : Bytes)
    (event : Event) (h1 : 1 ≤ d.shards.length) (h2 : d.shards.length < 2 ^ 32) :
    d.InsertEvent tablespace id event
      = d.dispatch (ObjectLocalHash id % d.shards.length)
          (ShardCall.InsertEvent tablespace id event)
          (fun s => s.InsertEvent tablespace id event) := by
  simp only [db.InsertEvent, getShardByObjectId_eq d id h1 h2]

theorem db_DeleteObject_dispatch (d : db) (tablespace : String) (id : Bytes)
    (h1 : 1 ≤ d.shards.length) (h2 : d.shards.length < 2 ^ 32) :
    d.DeleteObject tablespace id
      = d.dispatch (ObjectLocalHash id % d.shards.length) (ShardCall.DeleteObject tablespace id)
          (fun s => s.DeleteObject tablespace id) := by
  simp only [db.DeleteObject, getShardByObjectId_eq d id h1 h2]

theorem db_DeleteEvent_dispatch (d : db) (tablespace : String) (id : Bytes) (timestamp : Int)
    (h1 : 1 ≤ d.shards.length) (h2 : d.shards.length < 2 ^ 32) :
    d.DeleteEvent tablespace id timestamp
      = d.dispatch (ObjectLocalHash id % d.shards.length)
          (ShardCall.DeleteEvent tablespace id timestamp)
          (fun s => s.DeleteEvent tablespace id timestamp) := by
  simp only [db.DeleteEvent, getShardByObjectId_eq d id h1 h2]

theorem db_GetEvent_dispatch (d : db) (tablespace : String) (id : Bytes) (timestamp : Int)
    (h1 : 1 ≤ d.shards.length) (h2 : d.shards.length < 2 ^ 32) :
    d.GetEvent tablespace id timestamp
      = d.dispatch (ObjectLocalHash id % d.shards.length)
          (ShardCall.GetEvent tablespace id timestamp)
          (fun s => s.GetEvent tablespace id timestamp) := by
  simp only [db.GetEvent, getShardByObjectId_eq d id h1 h2]

theorem Merge_steps (d : db) (tablespace : String) (destinationId sourceId : Bytes)
    (h1 : 1 ≤ d.shards.length) (h2 : d.shards.length < 2 ^ 32) :
    (∀ events err, (d.GetEvents tablespace sourceId).2 = some (events, some err) →
        d.Merge tablespace destinationId sourceId
          = ((d.GetEvents tablespace sourceId).1, some (some err)))
    ∧ ((d.GetEvents tablespace sourceId).2 = some ([], none) →
        d.Merge tablespace destinationId sourceId
          = ((d.GetEvents tablespace sourceId).1, some none))
    ∧ (∀ events err, events ≠ [] →
        (d.GetEvents tablespace sourceId).2 = some (events, none) →
        ((d.GetEvents tablespace sourceId).1.InsertEvents tablespace destinationId events).2
          = some (some err) →
        d.Merge tablespace destinationId sourceId
          = (((d.GetEvents tablespace sourceId).1.InsertEvents tablespace destinationId
                events).1, some (some err)))
    ∧ (∀ events, events ≠ [] →
        (d.GetEvents tablespace sourceId).2 = some (events, none) →
        ((d.GetEvents tablespace sourceId).1.InsertEvents tablespace destinationId events).2
          = some none →
        d.Merge tablespace destinationId sourceId
          = ((d.GetEvents tablespace sourceId).1.InsertEvents tablespace destinationId
                events).1.DeleteObject tablespace sourceId) := by
  have hm : d.Merge tablespace destinationId sourceId
      = match d.GetEvents tablespace sourceId with
        | (d1, none) => (d1, none)
        | (d1, some (_, some err)) => (d1, some (some err))
        | (d1, some (srcEvents, none)) =>
          if srcEvents.length > 0 then
            match d1.dispatch (ObjectLocalHash destinationId % d.shards.length)
                (ShardCall.InsertEvents tablespace destinationId srcEvents)
                (fun s => s.InsertEvents tablespace destinationId srcEvents) with
            | (d2, none) => (d2, none)
            | (d2, some (some err)) => (d2, some (some err))
            | (d2, some none) =>
              match d2.dispatch (ObjectLocalHash sourceId % d.shards.length)
                  (ShardCall.DeleteObject tablespace sourceId)
                  (fun s => s.DeleteObject tablespace sourceId) with
              | (d3, none) => (d3, none)
              | (d3, some (some err)) => (d3, some (some err))
              | (d3, some none) => (d3, some none)
          else (d1, some none) := by
    rw [db_GetEvents_dispatch d tablespace sourceId h1 h2]
    simp only [db.Merge, getShardByObjectId_eq d _ h1 h2]
  have hlen1 : (d.GetEvents tablespace sourceId).1.shards.length = d.shards.length := by
    rw [db_GetEvents_dispatch d tablespace sourceId h1 h2]
    exact dispatch_length _ _ _ _
  refine ⟨?_, ?_, ?_, ?_⟩
  · intro events err hr
    rw [hm]
    cases hg : d.GetEvents tablespace sourceId with
    | mk d1 r =>
      rw [hg] at hr
      simp only at hr
      subst hr
      rfl
  · intro hr
    rw [hm]
    cases hg : d.GetEvents tablespace sourceId with
    | mk d1 r =>
      rw [hg] at hr
      simp only at hr
      subst hr
      simp
  · intro events err hne hr hi
    have hpos : events.length > 0 := List.length_pos.mpr hne
    rw [db_InsertEvents_dispatch _ tablespace destinationId events (by omega) (by omega),
      hlen1] at hi ⊢
    rw [hm]
    cases hg : d.GetEvents tablespace sourceId with
    | mk d1 r =>
      rw [hg] at hr hi
      simp only at hr hi ⊢
      subst hr
      simp only [hpos, if_true]
      cases hd : d1.dispatch (ObjectLocalHash destinationId % d.shards.length)
          (ShardCall.InsertEvents tablespace destinationId events)
          (fun s => s.InsertEvents tablespace destinationId events) with
      | mk d2 r2 =>
        rw [hd] at hi
        simp only at hi
        subst hi
        rfl
  · intro events hne hr hi
    have hpos : events.length > 0 := List.length_pos.mpr hne
    have hlen2 : ((d.GetEvents tablespace sourceId).1.InsertEvents tablespace destinationId
        events).1.shards.length = d.shards.length := by
      rw [db_InsertEvents_dispatch _ tablespace destinationId events (by omega) (by omega),
        dispatch_length, hlen1]
    rw [db_DeleteObject_dispatch _ tablespace sourceId (by omega) (by omega), hlen2]
    rw [db_InsertEvents_dispatch _ tablespace destinationId events (by omega) (by omega),
      hlen1] at hi ⊢
    rw [hm]
    cases hg : d.GetEvents tablespace sourceId with
    | mk d1 r =>
      rw [hg] at hr hi
      simp only at hr hi ⊢
      subst hr
      simp only [hpos, if_true]
      cases hd : d1.dispatch (ObjectLocalHash destinationId % d.shards.length)
          (ShardCall.InsertEvents tablespace destinationId events)
          (fun s => s.InsertEvents tablespace destinationId events) with
      | mk d2 r2 =>
        rw [hd] at hi
        simp only at hi
        subst hi
        simp only
        cases hx : d2.dispatch (ObjectLocalHash sourceId % d.shards.length)
            (ShardCall.DeleteObject tablespace sourceId)
            (fun s => s.DeleteObject tablespace sourceId) with
        | mk d3 r3 =>
          rcases r3 with _ | _ | e <;> rfl

/-! ## The effect of the routed calls -/

theorem db_GetEvents_effect (d : db) (tablespace : String) (id : Bytes)
    (h1 : 1 ≤ d.shards.length) (h2 : d.shards.length < 2 ^ 32) :
    (d.GetEvents tablespace id).1.stored = d.stored
    ∧ (d.GetEvents tablespace id).1.log
        = d.log ++ [(ObjectLocalHash id % d.shards.length, ShardCall.GetEvents tablespace id)]
    ∧ (d.GetEvents tablespace id).1.shards.length = d.shards.length
    ∧ (∃ events err, (d.GetEvents tablespace id).2 = some (events, err))
    ∧ ∀ events, (d.GetEvents tablespace id).2 = some (events, none) →
        events = (d.stored tablespace id).getD [] := by
  obtain ⟨s, hs⟩ := routed_shard d id h1
  rw [db_GetEvents_dispatch d tablespace id h1 h2]
  refine ⟨?_, ?_, dispatch_length _ _ _ _, ?_, ?_⟩
  · exact stored_of_objects d _ _ _ s hs (shard.GetEvents_objects s tablespace id)
  · rw [dispatch_eq d _ _ _ s hs]
  · rw [dispatch_eq d _ _ _ s hs]
    exact ⟨_, _, rfl⟩
  · intro events hr
    rw [dispatch_eq d _ _ _ s hs] at hr
    simp only [Option.some.injEq] at hr
    have := shard.GetEvents_result s tablespace id events hr
    rw [this]
    unfold db.stored
    rw [hs]

theorem db_InsertEvents_effect (d : db) (tablespace : String) (id : Bytes)
    (events : List Event) (h1 : 1 ≤ d.shards.length) (h2 : d.shards.length < 2 ^ 32) :
    (d.InsertEvents tablespace id events).1.log
        = d.log ++ [(ObjectLocalHash id % d.shards.length,
            ShardCall.InsertEvents tablespace id events)]
    ∧ (d.InsertEvents tablespace id events).1.shards.length = d.shards.length
    ∧ (((d.InsertEvents tablespace id events).2 = some none
        ∧ ∀ t1 id1, (d.InsertEvents tablespace id events).1.stored t1 id1
            = if t1 = tablespace ∧ id1 = id
              then some (events.foldl appendSorted ((d.stored tablespace id).getD []))
              else d.stored t1 id1)
      ∨ ((∃ err, (d.InsertEvents tablespace id events).2 = some (some err))
        ∧ (d.InsertEvents tablespace id events).1.stored = d.stored)) := by
  obtain ⟨s, hs⟩ := routed_shard d id h1
  have hst : d.stored tablespace id = s.objects tablespace id := by
    unfold db.stored; rw [hs]
  rw [db_InsertEvents_dispatch d tablespace id events h1 h2]
  refine ⟨?_, dispatch_length _ _ _ _, ?_⟩
  · rw [dispatch_eq d _ _ _ s hs]
  · rcases shard.InsertEvents_objects s tablespace id events with ⟨hr, ho⟩ | ⟨hr, ho⟩
    · left
      refine ⟨by rw [dispatch_eq d _ _ _ s hs, hr], ?_⟩
      intro t1 id1
      rw [hst]
      exact stored_of_write d _ _ s tablespace id _ hs ho t1 id1
    · right
      exact ⟨⟨_, by rw [dispatch_eq d _ _ _ s hs, hr]⟩, stored_of_objects d _ _ _ s hs ho⟩

theorem db_InsertEvent_effect (d : db) (tablespace : String) (id : Bytes)
    (event : Event) (h1 : 1 ≤ d.shards.length) (h2 : d.shards.length < 2 ^ 32) :
    (d.InsertEvent tablespace id event).1.shards.length = d.shards.length
    ∧ (((d.InsertEvent tablespace id event).2 = some none
        ∧ ∀ t1 id1, (d.InsertEvent tablespace id event).1.stored t1 id1
            = if t1 = tablespace ∧ id1 = id
              then some (appendSorted ((d.stored tablespace id).getD []) event)
              else d.stored t1 id1)
      ∨ ((∃ err, (d.InsertEvent tablespace id event).2 = some (some err))
        ∧ (d.InsertEvent tablespace id event).1.stored = d.stored)) := by
  obtain ⟨s, hs⟩ := routed_shard d id h1
  have hst : d.stored tablespace id = s.objects tablespace id := by
    unfold db.stored; rw [hs]
  rw [db_InsertEvent_dispatch d tablespace id event h1 h2]
  refine ⟨dispatch_length _ _ _ _, ?_⟩
  rcases shard.InsertEvent_objects s tablespace id event with ⟨hr, ho⟩ | ⟨hr, ho⟩
  · left
    refine ⟨by rw [dispatch_eq d _ _ _ s hs, hr], ?_⟩
    intro t1 id1
    rw [hst]
    exact stored_of_write d _ _ s tablespace id _ hs ho t1 id1
  · right
    exact ⟨⟨_, by rw [dispatch_eq d _ _ _ s hs, hr]⟩, stored_of_objects d _ _ _ s hs ho⟩

theorem db_DeleteObject_effect (d : db) (tablespace : String) (id : Bytes)
    (h1 : 1 ≤ d.shards.length) (h2 : d.shards.length < 2 ^ 32) :
    (d.DeleteObject tablespace id).1.log
        = d.log ++ [(ObjectLocalHash id % d.shards.length,
            ShardCall.DeleteObject tablespace id)]
    ∧ (d.DeleteObject tablespace id).1.shards.length = d.shards.length
    ∧ (((d.DeleteObject tablespace id).2 = some none
        ∧ ∀ t1 id1, (d.DeleteObject tablespace id).1.stored t1 id1
            = if t1 = tablespace ∧ id1 = id then none else d.stored t1 id1)
      ∨ ((∃ err, (d.DeleteObject tablespace id).2 = some (some err))
        ∧ (d.DeleteObject tablespace id).1.stored = d.stored)) := by
  obtain ⟨s, hs⟩ := routed_shard d id h1
  rw [db_DeleteObject_dispatch d tablespace id h1 h2]
  refine ⟨?_, dispatch_length _ _ _ _, ?_⟩
  · rw [dispatch_eq d _ _ _ s hs]
  · rcases shard.DeleteObject_objects s tablespace id with ⟨hr, ho⟩ | ⟨hr, ho⟩
    · left
      refine ⟨by rw [dispatch_eq d _ _ _ s hs, hr], ?_⟩
      intro t1 id1
      exact stored_of_write d _ _ s tablespace id _ hs ho t1 id1
    · right
      exact ⟨⟨_, by rw [dispatch_eq d _ _ _ s hs, hr]⟩, stored_of_objects d _ _ _ s hs ho⟩

theorem db_DeleteEvent_effect (d : db) (tablespace : String) (id : Bytes) (timestamp : Int)
    (h1 : 1 ≤ d.shards.length) (h2 : d.shards.length < 2 ^ 32) :
    (d.DeleteEvent tablespace id timestamp).1.shards.length = d.shards.length
    ∧ ((d.DeleteEvent tablespace id timestamp).1.stored = d.stored
      ∨ ∃ events, d.stored tablespace id = some events
          ∧ ∀ t1 id1, (d.DeleteEvent tablespace id timestamp).1.stored t1 id1
              = if t1 = tablespace ∧ id1 = id
                then some (events.filter (fun e => e.Timestamp ≠ timestamp))
                else d.stored t1 id1) := by
  obtain ⟨s, hs⟩ := routed_shard d id h1
  have hst : d.stored tablespace id = s.objects tablespace id := by
    unfold db.stored; rw [hs]
  rw [db_DeleteEvent_dispatch d tablespace id timestamp h1 h2]
  refine ⟨dispatch_length _ _ _ _, ?_⟩
  rcases shard.DeleteEvent_objects s tablespace id timestamp with ho | ⟨events, he, ho⟩
  · exact Or.inl (stored_of_objects d _ _ _ s hs ho)
  · right
    refine ⟨events, by rw [hst, he], ?_⟩
    intro t1 id1
    exact stored_of_write d _ _ s tablespace id _ hs ho t1 id1

theorem db_GetEvent_effect (d : db) (tablespace : String) (id : Bytes) (timestamp : Int)
    (h1 : 1 ≤ d.shards.length) (h2 : d.shards.length < 2 ^ 32) :
    (d.GetEvent tablespace id timestamp).1.shards.length = d.shards.length
    ∧ (d.GetEvent tablespace id timestamp).1.stored = d.stored := by
  obtain ⟨s, hs⟩ := routed_shard d id h1
  rw [db_GetEvent_dispatch d tablespace id timestamp h1 h2]
  exact ⟨dispatch_length _ _ _ _,
    stored_of_objects d _ _ _ s hs (shard.GetEvent_objects s tablespace id timestamp)⟩

/-! ## Events of one timestamp -/

theorem mergeEvent_self (x : Event) : mergeEvent x x = x := by
  unfold mergeEvent
  have : x.Data.filter (fun kv => x.Data.all (fun kv1 => kv1.1 ≠ kv.1)) = [] := by
    rw [List.filter_eq_nil_iff]
    intro kv hkv hall
    rw [List.all_eq_true] at hall
    have := hall kv hkv
    simp at this
  rw [this]
  rfl

theorem appendSorted_self (l : List Event) (hl : increasing l) (x : Event) (hx : x ∈ l) :
    appendSorted l x = l := by
  induction l with
  | nil => cases hx
  | cons y rest ih =>
    have hp := List.pairwise_cons.mp hl
    unfold appendSorted
    rcases List.mem_cons.mp hx with rfl | hmem
    · rw [if_neg (lt_irrefl _), if_pos rfl, mergeEvent_self]
    · have hlt := hp.1 x hmem
      rw [if_neg (by omega), if_neg (by omega), ih hp.2 hmem]

theorem foldl_appendSorted_self (l : List Event) (hl : increasing l) :
    ∀ part : List Event, (∀ x ∈ part, x ∈ l) → part.foldl appendSorted l = l := by
  intro part
  induction part with
  | nil => intro _; rfl
  | cons x rest ih =>
    intro h
    rw [List.foldl_cons, appendSorted_self l hl x (h x (List.mem_cons_self _ _))]
    exact ih (fun y hy => h y (List.mem_cons_of_mem _ hy))

/-! ## Merge under failures -/

/-- C26 (failures of `Merge`): in a database of `1 ≤ N < 2^32` shards, if `GetEvents` of
the source fails, `Merge` returns that error after that one call and no stored event list
has changed; if it returns a non-empty list and `InsertEvents` into the destination fails,
`Merge` returns that error after those two calls and no stored event list has changed, so
the source still holds its events; if the insert succeeds and `DeleteObject` of the source
fails, `Merge` returns the error of the delete, the destination holds its former events
with the source's events spliced or merged in, and the source still holds its events (for
the merge of an object into itself, given that its events are in timestamp order). -/
theorem merge_failure_semantics (d : db) (tablespace : String)
    (destinationId sourceId : Bytes)
    (h1 : 1 ≤ d.shards.length) (h2 : d.shards.length < 2 ^ 32) :
    (∀ events err, (d.GetEvents tablespace sourceId).2 = some (events, some err) →
        (d.Merge tablespace destinationId sourceId).2 = some (some err)
        ∧ (d.Merge tablespace destinationId sourceId).1.stored = d.stored
        ∧ (d.Merge tablespace destinationId sourceId).1.log
            = d.log ++ [(ObjectLocalHash sourceId % d.shards.length,
                ShardCall.GetEvents tablespace sourceId)])
    ∧ (∀ events err, events ≠ [] →
        (d.GetEvents tablespace sourceId).2 = some (events, none) →
        ((d.GetEvents tablespace sourceId).1.InsertEvents tablespace destinationId events).2
          = some (some err) →
        (d.Merge tablespace destinationId sourceId).2 = some (some err)
        ∧ d.stored tablespace sourceId = some events
        ∧ (d.Merge tablespace destinationId sourceId).1.stored = d.stored
        ∧ (d.Merge tablespace destinationId sourceId).1.log
            = d.log ++ [(ObjectLocalHash sourceId % d.shards.length,
                  ShardCall.GetEvents tablespace sourceId),
                (ObjectLocalHash destinationId % d.shards.length,
                  ShardCall.InsertEvents tablespace destinationId events)])
    ∧ (∀ events err, events ≠ [] →
        (d.GetEvents tablespace sourceId).2 = some (events, none) →
        ((d.GetEvents tablespace sourceId).1.InsertEvents tablespace destinationId events).2
          = some none →
        (((d.GetEvents tablespace sourceId).1.InsertEvents tablespace destinationId
            events).1.DeleteObject tablespace sourceId).2 = some (some err) →
        (d.Merge tablespace destinationId sourceId).2 = some (some err)
        ∧ d.stored tablespace sourceId = some events
        ∧ (d.Merge tablespace destinationId sourceId).1.stored tablespace destinationId
            = some (events.foldl appendSorted ((d.stored tablespace destinationId).getD []))
        ∧ (destinationId ≠ sourceId ∨ increasing events →
            (d.Merge tablespace destinationId sourceId).1.stored tablespace sourceId
              = some events)) := by
  obtain ⟨ma, _, mc, md⟩ := Merge_steps d tablespace destinationId sourceId h1 h2
  obtain ⟨gs, gl, gn, _, gr⟩ := db_GetEvents_effect d tablespace sourceId h1 h2
  have hsrc : ∀ events, events ≠ [] →
      (d.GetEvents tablespace sourceId).2 = some (events, none) →
      d.stored tablespace sourceId = some events := by
    intro events hne hr
    have he := gr events hr
    cases hst : d.stored tablespace sourceId with
    | none => rw [hst] at he; exact absurd he hne
    | some l => rw [hst] at he; simp only [Option.getD_some] at he; rw [he]
  refine ⟨?_, ?_, ?_⟩
  · intro events err hr
    rw [ma events err hr]
    exact ⟨rfl, gs, gl⟩
  · intro events err hne hr hi
    rw [mc events err hne hr hi]
    obtain ⟨il, _, ie⟩ :=
      db_InsertEvents_effect (d.GetEvents tablespace sourceId).1 tablespace destinationId events
        (by omega) (by omega)
    refine ⟨rfl, hsrc events hne hr, ?_, ?_⟩
    · rcases ie with ⟨hok, _⟩ | ⟨_, hst⟩
      · rw [hok] at hi
        simp at hi
      · simp only
        rw [hst, gs]
    · simp only
      rw [il, gl, gn]
      simp
  · intro events err hne hr hi hx
    rw [md events hne hr hi]
    obtain ⟨_, i_n, ie⟩ :=
      db_InsertEvents_effect (d.GetEvents tablespace sourceId).1 tablespace destinationId events
        (by omega) (by omega)
    obtain ⟨_, _, xe⟩ :=
      db_DeleteObject_effect ((d.GetEvents tablespace sourceId).1.InsertEvents tablespace
        destinationId events).1 tablespace sourceId (by omega) (by omega)
    have hxs : (((d.GetEvents tablespace sourceId).1.InsertEvents tablespace destinationId
        events).1.DeleteObject tablespace sourceId).1.stored
        = ((d.GetEvents tablespace sourceId).1.InsertEvents tablespace destinationId
            events).1.stored := by
      rcases xe with ⟨hok, _⟩ | ⟨_, hst⟩
      · rw [hok] at hx
        simp at hx
      · exact hst
    have his : ∀ t1 id1, ((d.GetEvents tablespace sourceId).1.InsertEvents tablespace
        destinationId events).1.stored t1 id1
        = if t1 = tablespace ∧ id1 = destinationId
          then some (events.foldl appendSorted ((d.stored tablespace destinationId).getD []))
          else d.stored t1 id1 := by
      rcases ie with ⟨_, hst⟩ | ⟨⟨e, he⟩, _⟩
      · intro t1 id1
        rw [hst t1 id1, gs]
      · rw [he] at hi
        simp at hi
    have hs0 := hsrc events hne hr
    refine ⟨hx, hs0, ?_, ?_⟩
    · rw [hxs, his]
      simp
    · intro hcase
      rw [hxs, his]
      by_cases hid : sourceId = destinationId
      · rw [if_pos ⟨rfl, hid⟩]
        rcases hcase with hne2 | hinc
        · exact absurd hid.symm hne2
        · rw [← hid, hs0]
          simp only [Option.getD_some]
          rw [foldl_appendSorted_self events hinc events (fun _ h => h)]
      · rw [if_neg (fun h => hid h.2)]
        exact hs0

/-! ## Databases whose stores answer -/

theorem dispatch_faults {α : Type} (d : db) (index : Nat) (call : ShardCall)
    (method : shard → shard × α) (hf : ∀ s ∈ d.shards, s.faults = [])
    (hm : ∀ s, s.faults = [] → (method s).1.faults = []) :
    ∀ s ∈ (d.dispatch index call method).1.shards, s.faults = [] := by
  unfold db.dispatch
  cases hs : d.shards[index]? with
  | none => exact hf
  | some s0 =>
    intro s hmem
    rcases List.mem_or_eq_of_mem_set hmem with h | h
    · exact hf s h
    · rw [h]
      exact hm s0 (hf s0 (List.getElem?_mem hs))

theorem db_GetEvents_answers (d : db) (tablespace : String) (id : Bytes)
    (h1 : 1 ≤ d.shards.length) (h2 : d.shards.length < 2 ^ 32)
    (hf : ∀ s ∈ d.shards, s.faults = []) :
    (d.GetEvents tablespace id).2 = some ((d.stored tablespace id).getD [], none)
    ∧ ∀ s ∈ (d.GetEvents tablespace id).1.shards, s.faults = [] := by
  obtain ⟨s, hs⟩ := routed_shard d id h1
  rw [db_GetEvents_dispatch d tablespace id h1 h2]
  constructor
  · rw [dispatch_eq d _ _ _ s hs, shard.GetEvents_ok s tablespace id (hf s (List.getElem?_mem hs))]
    unfold db.stored
    rw [hs]
  · exact dispatch_faults d _ _ _ hf
      (fun s0 h0 => by rw [shard.GetEvents_ok s0 tablespace id h0]; exact h0)

theorem db_InsertEvents_answers (d : db) (tablespace : String) (id : Bytes)
    (events : List Event)
    (h1 : 1 ≤ d.shards.length) (h2 : d.shards.length < 2 ^ 32)
    (hf : ∀ s ∈ d.shards, s.faults = []) :
    (d.InsertEvents tablespace id events).2 = some none
    ∧ ∀ s ∈ (d.InsertEvents tablespace id events).1.shards, s.faults = [] := by
  obtain ⟨s, hs⟩ := routed_shard d id h1
  rw [db_InsertEvents_dispatch d tablespace id events h1 h2]
  constructor
  · rw [dispatch_eq d _ _ _ s hs,
      shard.InsertEvents_ok s tablespace id events (hf s (List.getElem?_mem hs))]
  · exact dispatch_faults d _ _ _ hf
      (fun s0 h0 => by rw [shard.InsertEvents_ok s0 tablespace id events h0]; exact h0)

theorem db_DeleteObject_answers (d : db) (tablespace : String) (id : Bytes)
    (h1 : 1 ≤ d.shards.length) (h2 : d.shards.length < 2 ^ 32)
    (hf : ∀ s ∈ d.shards, s.faults = []) :
    (d.DeleteObject tablespace id).2 = some none
    ∧ ∀ s ∈ (d.DeleteObject tablespace id).1.shards, s.faults = [] := by
  obtain ⟨s, hs⟩ := routed_shard d id h1
  rw [db_DeleteObject_dispatch d tablespace id h1 h2]
  constructor
  · rw [dispatch_eq d _ _ _ s hs,
      shard.DeleteObject_ok s tablespace id (hf s (List.getElem?_mem hs))]
  · exact dispatch_faults d _ _ _ hf
      (fun s0 h0 => by rw [shard.DeleteObject_ok s0 tablespace id h0]; exact h0)

/-! ## Merge of an object into itself -/

/-- C29 (merge of an object into itself): in a database of `1 ≤ N < 2^32` shards whose
stores answer every call, `Merge(table, x, x)` for an object `x` that holds a non-empty
event list returns nil, makes the calls `GetEvents`, `InsertEvents`, `DeleteObject` on the
shard of `x`, and leaves no key for `x`: `GetEvents(table, x)` then returns the empty list.
For an object without events it returns nil after the one `GetEvents` call and no stored
event list has changed. -/
theorem self_merge_deletes_the_object (d : db) (tablespace : String) (id : Bytes)
    (h1 : 1 ≤ d.shards.length) (h2 : d.shards.length < 2 ^ 32)
    (hf : ∀ s ∈ d.shards, s.faults = []) :
    (∀ events, d.stored tablespace id = some events → events ≠ [] →
        (d.GetEvents tablespace id).2 = some (events, none)
        ∧ (d.Merge tablespace id id).2 = some none
        ∧ (d.Merge tablespace id id).1.stored tablespace id = none
        ∧ ((d.Merge tablespace id id).1.GetEvents tablespace id).2 = some ([], none)
        ∧ (d.Merge tablespace id id).1.log
            = d.log ++ [(ObjectLocalHash id % d.shards.length,
                  ShardCall.GetEvents tablespace id),
                (ObjectLocalHash id % d.shards.length,
                  ShardCall.InsertEvents tablespace id events),
                (ObjectLocalHash id % d.shards.length,
                  ShardCall.DeleteObject tablespace id)])
    ∧ ((d.stored tablespace id).getD [] = [] →
        (d.GetEvents tablespace id).2 = some ([], none)
        ∧ (d.Merge tablespace id id).2 = some none
        ∧ (d.Merge tablespace id id).1.stored = d.stored
        ∧ (d.Merge tablespace id id).1.log
            = d.log ++ [(ObjectLocalHash id % d.shards.length,
                ShardCall.GetEvents tablespace id)]) := by
  obtain ⟨_, mb, _, md⟩ := Merge_steps d tablespace id id h1 h2
  obtain ⟨gs, gl, gn, _, _⟩ := db_GetEvents_effect d tablespace id h1 h2
  obtain ⟨gr, gf⟩ := db_GetEvents_answers d tablespace id h1 h2 hf
  constructor
  · intro events hst hne
    rw [hst] at gr
    simp only [Option.getD_some] at gr
    obtain ⟨ir, i_f⟩ := db_InsertEvents_answers (d.GetEvents tablespace id).1 tablespace id
      events (by omega) (by omega) gf
    obtain ⟨il, i_n, _⟩ := db_InsertEvents_effect (d.GetEvents tablespace id).1 tablespace id
      events (by omega) (by omega)
    obtain ⟨xr, xf⟩ := db_DeleteObject_answers
      ((d.GetEvents tablespace id).1.InsertEvents tablespace id events).1 tablespace id
      (by omega) (by omega) i_f
    obtain ⟨xl, xn, xe⟩ := db_DeleteObject_effect
      ((d.GetEvents tablespace id).1.InsertEvents tablespace id events).1 tablespace id
      (by omega) (by omega)
    have hst3 : (((d.GetEvents tablespace id).1.InsertEvents tablespace id
        events).1.DeleteObject tablespace id).1.stored tablespace id = none := by
      rcases xe with ⟨_, hw⟩ | ⟨⟨e, he⟩, _⟩
      · rw [hw]; simp
      · rw [he] at xr; simp at xr
    obtain ⟨fr, _⟩ := db_GetEvents_answers
      (((d.GetEvents tablespace id).1.InsertEvents tablespace id events).1.DeleteObject
        tablespace id).1 tablespace id (by omega) (by omega) xf
    rw [md events hne gr ir]
    refine ⟨gr, xr, hst3, ?_, ?_⟩
    · rw [fr, hst3]; rfl
    · rw [xl, il, gl, i_n, gn]
      simp
  · intro hempty
    rw [hempty] at gr
    rw [mb gr]
    exact ⟨gr, rfl, gs, gl⟩

/-! ## Event lists in timestamp order -/

theorem appendSorted_timestamps (l : List Event) (e : Event) :
    ∀ y ∈ appendSorted l e,
      y.Timestamp = e.Timestamp ∨ ∃ z ∈ l, y.Timestamp = z.Timestamp := by
  induction l with
  | nil =>
    intro y hy
    simp only [appendSorted, List.mem_singleton] at hy
    exact Or.inl (by rw [hy])
  | cons x rest ih =>
    intro y hy
    unfold appendSorted at hy
    split at hy
    · rcases List.mem_cons.mp hy with rfl | hy
      · exact Or.inl rfl
      · exact Or.inr ⟨y, hy, rfl⟩
    · split at hy
      · rcases List.mem_cons.mp hy with rfl | hy
        · exact Or.inr ⟨x, List.mem_cons_self _ _, rfl⟩
        · exact Or.inr ⟨y, List.mem_cons_of_mem _ hy, rfl⟩
      · rcases List.mem_cons.mp hy with rfl | hy
        · exact Or.inr ⟨y, List.mem_cons_self _ _, rfl⟩
        · rcases ih y hy with h | ⟨z, hz, h⟩
          · exact Or.inl h
          · exact Or.inr ⟨z, List.mem_cons_of_mem _ hz, h⟩

theorem appendSorted_increasing (l : List Event) (e : Event) (hl : increasing l) :
    increasing (appendSorted l e) := by
  induction l with
  | nil => simp [appendSorted]
  | cons x rest ih =>
    have hp := List.pairwise_cons.mp hl
    unfold appendSorted
    split
    · rename_i hlt
      refine List.pairwise_cons.mpr ⟨?_, hl⟩
      intro y hy
      rcases List.mem_cons.mp hy with rfl | hy
      · exact hlt
      · exact lt_trans hlt (hp.1 y hy)
    · split
      · rename_i heq
        refine List.pairwise_cons.mpr ⟨?_, hp.2⟩
        intro y hy
        exact hp.1 y hy
      · rename_i hnlt hne
        refine List.pairwise_cons.mpr ⟨?_, ih hp.2⟩
        intro y hy
        rcases appendSorted_timestamps rest e y hy with h | ⟨z, hz, h⟩
        · rw [h]; omega
        · rw [h]; exact hp.1 z hz

theorem foldl_appendSorted_increasing (events : List Event) :
    ∀ l : List Event, increasing l → increasing (events.foldl appendSorted l) := by
  induction events with
  | nil => intro l hl; exact hl
  | cons e rest ih =>
    intro l hl
    exact ih _ (appendSorted_increasing l e hl)

theorem increasing_unique (l : List Event) (hl : increasing l) (a b : Event)
    (ha : a ∈ l) (hb : b ∈ l) (h : a.Timestamp = b.Timestamp) : a = b := by
  induction l with
  | nil => cases ha
  | cons x rest ih =>
    have hp := List.pairwise_cons.mp hl
    rcases List.mem_cons.mp ha with ha1 | ha1 <;> rcases List.mem_cons.mp hb with hb1 | hb1
    · rw [ha1, hb1]
    · have := hp.1 b hb1; rw [ha1] at h; omega
    · have := hp.1 a ha1; rw [hb1] at h; omega
    · exact ih hp.2 ha1 hb1

theorem increasing_same_timestamp (l : List Event) (hl : increasing l) (t : Int)
    (h : ∀ y ∈ l, y.Timestamp = t) : l.length ≤ 1 := by
  match l, hl, h with
  | [], _, _ => simp
  | [_], _, _ => simp
  | a :: b :: rest, hl, h =>
    have hp := List.pairwise_cons.mp hl
    have h1 := hp.1 b (List.mem_cons_self _ _)
    have ha := h a (List.mem_cons_self _ _)
    have hb := h b (List.mem_cons_of_mem _ (List.mem_cons_self _ _))
    omega

theorem appendSorted_at (l : List Event) (hl : increasing l) (e : Event) :
    ∃ m, m ∈ appendSorted l e ∧ m.Timestamp = e.Timestamp
      ∧ ((m = e ∧ ∀ x ∈ l, x.Timestamp ≠ e.Timestamp)
        ∨ ∃ x ∈ l, x.Timestamp = e.Timestamp ∧ m = mergeEvent x e) := by
  induction l with
  | nil => exact ⟨e, by simp [appendSorted], rfl, Or.inl ⟨rfl, by simp⟩⟩
  | cons x rest ih =>
    have hp := List.pairwise_cons.mp hl
    unfold appendSorted
    split
    · rename_i hlt
      refine ⟨e, List.mem_cons_self _ _, rfl, Or.inl ⟨rfl, ?_⟩⟩
      intro y hy
      rcases List.mem_cons.mp hy with hy1 | hy1
      · rw [hy1]; omega
      · have := hp.1 y hy1; omega
    · split
      · rename_i heq
        exact ⟨mergeEvent x e, List.mem_cons_self _ _, heq.symm,
          Or.inr ⟨x, List.mem_cons_self _ _, heq.symm, rfl⟩⟩
      · rename_i hnlt hne
        obtain ⟨m, hm, hts, hcase⟩ := ih hp.2
        refine ⟨m, List.mem_cons_of_mem _ hm, hts, ?_⟩
        rcases hcase with ⟨h, hno⟩ | ⟨y, hy, hyt, h⟩
        · refine Or.inl ⟨h, ?_⟩
          intro y hy
          rcases List.mem_cons.mp hy with hy1 | hy1
          · rw [hy1]; exact fun hc => hne hc.symm
          · exact hno y hy1
        · exact Or.inr ⟨y, List.mem_cons_of_mem _ hy, hyt, h⟩

theorem filter_singleton_of_increasing (l : List Event) (hl : increasing l) (m : Event)
    (hm : m ∈ l) :
    l.filter (fun e => e.Timestamp = m.Timestamp) = [m] := by
  have hmem : m ∈ l.filter (fun e => e.Timestamp = m.Timestamp) := by
    simp [List.mem_filter, hm]
  have hinc : increasing (l.filter (fun e => e.Timestamp = m.Timestamp)) :=
    List.Pairwise.filter _ hl
  have hlen := increasing_same_timestamp _ hinc m.Timestamp
    (fun y hy => by simpa using (List.mem_filter.mp hy).2)
  cases hf : l.filter (fun e => e.Timestamp = m.Timestamp) with
  | nil => rw [hf] at hmem; cases hmem
  | cons a t =>
    cases t with
    | nil =>
      rw [hf, List.mem_singleton] at hmem
      rw [hmem]
    | cons b t1 =>
      rw [hf] at hlen
      simp at hlen

theorem shard.GetEvents_failed (s : shard) (tablespace : String) (id : Bytes)
    (events : List Event) (err : ShardError)
    (h : (s.GetEvents tablespace id).2 = (events, some err)) : events = [] := by
  unfold shard.GetEvents at h
  cases ha : s.answer with
  | mk s1 failed =>
    rw [ha] at h
    cases failed
    · simp at h
    · simp only [Prod.mk.injEq] at h
      exact h.1.symm

/-! ## The data of merged events -/

theorem dataValue_none (data : List (Int × Value)) (k : Int) :
    dataValue data k = none ↔ ∀ kv ∈ data, kv.1 ≠ k := by
  unfold dataValue
  simp [List.find?_eq_none]

theorem dataValue_mergeEvent (old new : Event) (k : Int) :
    dataValue (mergeEvent old new).Data k
      = match dataValue new.Data k with
        | some v => some v
        | none => dataValue old.Data k := by
  cases hn : dataValue new.Data k with
  | some v =>
    simp only
    have hex : ∃ kv ∈ new.Data, kv.1 = k := by
      by_contra hc
      have : dataValue new.Data k = none :=
        (dataValue_none _ _).mpr (fun kv hkv h => hc ⟨kv, hkv, h⟩)
      rw [this] at hn
      cases hn
    have hold : (old.Data.filter (fun kv => new.Data.all (fun kv1 => kv1.1 ≠ kv.1))).find?
        (fun kv => kv.1 = k) = none := by
      rw [List.find?_eq_none]
      intro kv hkv hk
      obtain ⟨_, hall⟩ := List.mem_filter.mp hkv
      rw [List.all_eq_true] at hall
      obtain ⟨kv1, hkv1, hk1⟩ := hex
      have := hall kv1 hkv1
      simp only [decide_eq_true_eq] at hk
      simp [hk1, hk] at this
    unfold dataValue at hn ⊢
    unfold mergeEvent
    simp only [List.find?_append, hold, Option.none_or]
    exact hn
  | none =>
    simp only
    have hnone := (dataValue_none _ _).mp hn
    have hfilter : (old.Data.filter (fun kv => new.Data.all (fun kv1 => kv1.1 ≠ kv.1))).find?
        (fun kv => kv.1 = k) = old.Data.find? (fun kv => kv.1 = k) := by
      induction old.Data with
      | nil => rfl
      | cons kv rest ih =>
        by_cases hk : kv.1 = k
        · have hall : new.Data.all (fun kv1 => kv1.1 ≠ kv.1) = true := by
            rw [List.all_eq_true]
            intro kv1 hkv1
            have := hnone kv1 hkv1
            simp [hk, this]
          rw [List.filter_cons, if_pos hall, List.find?_cons, List.find?_cons]
          simp [hk]
        · by_cases hall : new.Data.all (fun kv1 => kv1.1 ≠ kv.1) = true
          · simp only [List.filter_cons, hall, if_true, List.find?_cons, hk, decide_False]
            exact ih
          · simp only [List.filter_cons, hall, if_false, List.find?_cons, hk, decide_False]
            exact ih
    unfold dataValue at hn ⊢
    unfold mergeEvent
    simp only [List.find?_append, hfilter]
    rw [Option.map_eq_none'] at hn
    rw [hn]
    cases old.Data.find? (fun kv => kv.1 = k) <;> rfl

/-! ## Two inserts at one timestamp -/

/-- C22 (merge at equal timestamp): in a database of `1 ≤ N < 2^32` shards, for an object
whose stored events are in strictly increasing timestamp order and events `e1`, `e2` of
equal timestamp, when `InsertEvent(e1)` and then `InsertEvent(e2)` both return nil, the
object's stored list is in strictly increasing order and holds exactly one event `m` of
that timestamp; for every key of `e2` the data of `m` has the value of `e2`, and for every
key of `e1` that `e2` does not have it has the value of `e1`. -/
theorem merge_at_equal_timestamp (d : db) (tablespace : String) (id : Bytes) (e1 e2 : Event)
    (h1 : 1 ≤ d.shards.length) (h2 : d.shards.length < 2 ^ 32)
    (hts : e1.Timestamp = e2.Timestamp)
    (hord : ∀ events, d.stored tablespace id = some events → increasing events)
    (hok1 : (d.InsertEvent tablespace id e1).2 = some none)
    (hok2 : ((d.InsertEvent tablespace id e1).1.InsertEvent tablespace id e2).2 = some none) :
    ∃ events m,
      ((d.InsertEvent tablespace id e1).1.InsertEvent tablespace id e2).1.stored tablespace id
        = some events
      ∧ increasing events
      ∧ events.filter (fun e => e.Timestamp = e2.Timestamp) = [m]
      ∧ (∀ k v, dataValue e2.Data k = some v → dataValue m.Data k = some v)
      ∧ (∀ k v, dataValue e2.Data k = none → dataValue e1.Data k = some v →
          dataValue m.Data k = some v) := by
  have hl0 : increasing ((d.stored tablespace id).getD []) := by
    cases hst : d.stored tablespace id with
    | none => simp
    | some l => exact hord l hst
  obtain ⟨n1, e1eff⟩ := db_InsertEvent_effect d tablespace id e1 h1 h2
  have hst1 : (d.InsertEvent tablespace id e1).1.stored tablespace id
      = some (appendSorted ((d.stored tablespace id).getD []) e1) := by
    rcases e1eff with ⟨_, hw⟩ | ⟨⟨err, he⟩, _⟩
    · rw [hw]; simp
    · rw [he] at hok1; simp at hok1
  obtain ⟨_, e2eff⟩ := db_InsertEvent_effect (d.InsertEvent tablespace id e1).1 tablespace id e2
    (by omega) (by omega)
  have hst2 : ((d.InsertEvent tablespace id e1).1.InsertEvent tablespace id e2).1.stored
      tablespace id
      = some (appendSorted (appendSorted ((d.stored tablespace id).getD []) e1) e2) := by
    rcases e2eff with ⟨_, hw⟩ | ⟨⟨err, he⟩, _⟩
    · rw [hw, hst1]; simp
    · rw [he] at hok2; simp at hok2
  have hl1 := appendSorted_increasing _ e1 hl0
  have hl2 := appendSorted_increasing _ e2 hl1
  obtain ⟨m1, hm1, hm1t, hm1c⟩ := appendSorted_at _ hl0 e1
  obtain ⟨m, hm, hmt, hmc⟩ := appendSorted_at _ hl1 e2
  have hmerge : m = mergeEvent m1 e2 := by
    rcases hmc with ⟨_, hno⟩ | ⟨x, hx, hxt, hmx⟩
    · exact absurd (hm1t.trans hts) (hno m1 hm1)
    · have : x = m1 := increasing_unique _ hl1 x m1 hx hm1 (by rw [hxt, hm1t, hts])
      rw [hmx, this]
  refine ⟨_, m, hst2, hl2, ?_, ?_, ?_⟩
  · rw [← hmt]
    exact filter_singleton_of_increasing _ hl2 m hm
  · intro k v hk
    rw [hmerge, dataValue_mergeEvent, hk]
  · intro k v hk2 hk1
    rw [hmerge, dataValue_mergeEvent, hk2]
    simp only
    rcases hm1c with ⟨h, _⟩ | ⟨x0, _, _, h⟩
    · rw [h]; exact hk1
    · rw [h, dataValue_mergeEvent, hk1]

/-! ## The order of stored events -/

theorem call_keeps_order (d : db) (call : DbCall)
    (h1 : 1 ≤ d.shards.length) (h2 : d.shards.length < 2 ^ 32)
    (hord : ∀ t id events, d.stored t id = some events → increasing events) :
    (d.call call).shards.length = d.shards.length
    ∧ ∀ t id events, (d.call call).stored t id = some events → increasing events := by
  have hget : ∀ t id, increasing ((d.stored t id).getD []) := by
    intro t id
    cases hst : d.stored t id with
    | none => simp
    | some l => exact hord t id l hst
  cases call with
  | GetEvent tablespace id timestamp =>
    obtain ⟨hn, hs⟩ := db_GetEvent_effect d tablespace id timestamp h1 h2
    refine ⟨hn, ?_⟩
    show ∀ t id1 events, (d.GetEvent tablespace id timestamp).1.stored t id1 = some events → _
    rw [hs]; exact hord
  | GetEvents tablespace id =>
    obtain ⟨hs, _, hn, _, _⟩ := db_GetEvents_effect d tablespace id h1 h2
    refine ⟨hn, ?_⟩
    show ∀ t id1 events, (d.GetEvents tablespace id).1.stored t id1 = some events → _
    rw [hs]; exact hord
  | InsertEvent tablespace id event =>
    obtain ⟨hn, he⟩ := db_InsertEvent_effect d tablespace id event h1 h2
    refine ⟨hn, ?_⟩
    show ∀ t id1 events, (d.InsertEvent tablespace id event).1.stored t id1 = some events → _
    rcases he with ⟨_, hw⟩ | ⟨_, hs⟩
    · intro t id1 events hst
      rw [hw] at hst
      split at hst
      · simp only [Option.some.injEq] at hst
        rw [← hst]
        exact appendSorted_increasing _ _ (hget tablespace id)
      · exact hord t id1 events hst
    · rw [hs]; exact hord
  | InsertEvents tablespace id newEvents =>
    obtain ⟨_, hn, he⟩ := db_InsertEvents_effect d tablespace id newEvents h1 h2
    refine ⟨hn, ?_⟩
    show ∀ t id1 events, (d.InsertEvents tablespace id newEvents).1.stored t id1 = some events → _
    rcases he with ⟨_, hw⟩ | ⟨_, hs⟩
    · intro t id1 events hst
      rw [hw] at hst
      split at hst
      · simp only [Option.some.injEq] at hst
        rw [← hst]
        exact foldl_appendSorted_increasing _ _ (hget tablespace id)
      · exact hord t id1 events hst
    · rw [hs]; exact hord
  | DeleteEvent tablespace id timestamp =>
    obtain ⟨hn, he⟩ := db_DeleteEvent_effect d tablespace id timestamp h1 h2
    refine ⟨hn, ?_⟩
    show ∀ t id1 events, (d.DeleteEvent tablespace id timestamp).1.stored t id1 = some events → _
    rcases he with hs | ⟨old, hold, hw⟩
    · rw [hs]; exact hord
    · intro t id1 events hst
      rw [hw] at hst
      split at hst
      · simp only [Option.some.injEq] at hst
        rw [← hst]
        exact List.Pairwise.filter _ (hord tablespace id old hold)
      · exact hord t id1 events hst
  | DeleteObject tablespace id =>
    obtain ⟨_, hn, he⟩ := db_DeleteObject_effect d tablespace id h1 h2
    refine ⟨hn, ?_⟩
    show ∀ t id1 events, (d.DeleteObject tablespace id).1.stored t id1 = some events → _
    rcases he with ⟨_, hw⟩ | ⟨_, hs⟩
    · intro t id1 events hst
      rw [hw] at hst
      split at hst
      · cases hst
      · exact hord t id1 events hst
    · rw [hs]; exact hord

theorem run_keeps_order (calls : List DbCall) :
    ∀ d : db, 1 ≤ d.shards.length → d.shards.length < 2 ^ 32 →
      (∀ t id events, d.stored t id = some events → increasing events) →
      (d.run calls).shards.length = d.shards.length
      ∧ ∀ t id events, (d.run calls).stored t id = some events → increasing events := by
  induction calls with
  | nil => intro d _ _ hord; exact ⟨rfl, hord⟩
  | cons call rest ih =>
    intro d h1 h2 hord
    obtain ⟨hn, ho⟩ := call_keeps_order d call h1 h2 hord
    obtain ⟨hn2, ho2⟩ := ih (d.call call) (by omega) (by omega) ho
    exact ⟨by rw [← hn]; exact hn2, ho2⟩

/-- C23 (timestamp order): in a database of `1 ≤ N < 2^32` shards whose stored event lists
are in strictly increasing timestamp order (an empty database, for one), after every
history of `GetEvent`, `GetEvents`, `InsertEvent`, `InsertEvents`, `DeleteEvent` and
`DeleteObject` calls, failed ones included, `GetEvents` of every object returns a list in
strictly increasing timestamp order, which is the stored list when the call does not
fail. -/
theorem timestamp_order_invariant (d : db) (calls : List DbCall)
    (h1 : 1 ≤ d.shards.length) (h2 : d.shards.length < 2 ^ 32)
    (hord : ∀ t id events, d.stored t id = some events → increasing events) :
    ∀ tablespace id, ∃ events err,
      ((d.run calls).GetEvents tablespace id).2 = some (events, err)
      ∧ increasing events
      ∧ (err = none → events = ((d.run calls).stored tablespace id).getD []) := by
  intro tablespace id
  obtain ⟨hn, ho⟩ := run_keeps_order calls d h1 h2 hord
  obtain ⟨_, _, _, ⟨events, err, hr⟩, hres⟩ :=
    db_GetEvents_effect (d.run calls) tablespace id (by omega) (by omega)
  refine ⟨events, err, hr, ?_, ?_⟩
  · cases err with
    | none =>
      rw [hres events hr]
      cases hst : (d.run calls).stored tablespace id with
      | none => simp
      | some l => exact ho tablespace id l hst
    | some e =>
      obtain ⟨s, hs⟩ := routed_shard (d.run calls) id (by omega)
      rw [db_GetEvents_dispatch (d.run calls) tablespace id (by omega) (by omega),
        dispatch_eq _ _ _ _ s hs] at hr
      simp only [Option.some.injEq] at hr
      rw [shard.GetEvents_failed s tablespace id events e hr]
      simp
  · intro he
    rw [he] at hr
    exact hres events hr

/-! ## The cache keeps its two directions paired -/

theorem cache.touch_paired (c : cache) (key : Bytes) (hc : c.Paired) (hk : key ∈ c.list) :
    (c.touch key).Paired ∧ (c.touch key).list.length = c.list.length := by
  unfold cache.touch
  refine ⟨⟨?_, ?_, hc.both⟩, ?_⟩
  · refine List.nodup_cons.mpr ⟨?_, hc.nodup.erase key⟩
    intro h
    exact ((hc.nodup.mem_erase_iff).mp h).1 rfl
  · intro k
    rw [← hc.held k]
    simp only [List.mem_cons]
    constructor
    · rintro (h | h)
      · rw [h]; exact hk
      · exact List.mem_of_mem_erase h
    · intro h
      by_cases hkk : k = key
      · exact Or.inl hkk
      · exact Or.inr ((hc.nodup.mem_erase_iff).mpr ⟨hkk, h⟩)
  · simp only [List.length_cons, List.length_erase_of_mem hk]
    have : 0 < c.list.length := List.length_pos_of_mem hk
    omega

theorem cache.getValue_paired (c : cache) (key : Bytes) (hc : c.Paired) :
    (c.getValue key).1.Paired ∧ (c.getValue key).1.list.length = c.list.length
    ∧ (c.getValue key).1.size = c.size := by
  unfold cache.getValue
  cases hk : c.keys key with
  | none => exact ⟨hc, rfl, rfl⟩
  | some v =>
    obtain ⟨a, b⟩ := cache.touch_paired c key hc ((hc.held key).mpr ⟨v, hk⟩)
    exact ⟨a, b, rfl⟩

theorem cache.getKey_paired (c : cache) (value : Nat) (hc : c.Paired) :
    (c.getKey value).1.Paired ∧ (c.getKey value).1.list.length = c.list.length
    ∧ (c.getKey value).1.size = c.size := by
  unfold cache.getKey
  cases hv : c.values value with
  | none => exact ⟨hc, rfl, rfl⟩
  | some k =>
    obtain ⟨a, b⟩ := cache.touch_paired c k hc
      ((hc.held k).mpr ⟨value, (hc.both k value).mpr hv⟩)
    exact ⟨a, b, rfl⟩

theorem cache.remove_paired (c : cache) (key : Bytes) (old : Nat) (hc : c.Paired)
    (hk : c.keys key = some old) :
    c.remove key
      = { c with list := c.list.erase key, keys := upd c.keys key none,
                 values := upd c.values old none }
    ∧ (c.remove key).Paired ∧ (c.remove key).list.length + 1 = c.list.length := by
  have heq : c.remove key
      = { c with list := c.list.erase key, keys := upd c.keys key none,
                 values := upd c.values old none } := by
    unfold cache.remove
    rw [hk]
  have hmem : key ∈ c.list := (hc.held key).mpr ⟨old, hk⟩
  rw [heq]
  refine ⟨rfl, ⟨hc.nodup.erase key, ?_, ?_⟩, ?_⟩
  · intro k
    simp only [hc.nodup.mem_erase_iff, upd]
    by_cases hkk : k = key
    · simp [hkk]
    · simp only [hkk, if_false, ne_eq, not_false_eq_true, true_and]
      exact hc.held k
  · intro k v
    simp only [upd]
    by_cases hkk : k = key
    · subst hkk
      simp only [if_true]
      constructor
      · intro h; cases h
      · intro h
        split at h
        · cases h
        · have := (hc.both k v).mpr h
          rw [hk] at this
          rename_i hne
          exact absurd (Option.some.inj this).symm hne
    · simp only [hkk, if_false]
      by_cases hv : v = old
      · subst hv
        simp only [if_true]
        constructor
        · intro h
          have := (hc.both k v).mp h
          rw [(hc.both key v).mp hk] at this
          exact absurd (Option.some.inj this).symm hkk
        · intro h; cases h
      · simp only [hv, if_false]
        exact hc.both k v
  · simp only [List.length_erase_of_mem hmem]
    have : 0 < c.list.length := List.length_pos_of_mem hmem
    omega

theorem cache.enter_paired (c : cache) (key : Bytes) (value : Nat) (hc : c.Paired)
    (hnew : c.keys key = none) (hfresh : ∀ other, c.keys other = some value → other = key) :
    cache.Paired { c with list := key :: c.list, keys := upd c.keys key (some value),
                          values := upd c.values value (some key) } := by
  have hnone : ∀ other, c.keys other ≠ some value := by
    intro other h
    have := hfresh other h
    rw [this, hnew] at h
    cases h
  refine ⟨?_, ?_, ?_⟩
  · refine List.nodup_cons.mpr ⟨?_, hc.nodup⟩
    intro h
    obtain ⟨v, hv⟩ := (hc.held key).mp h
    rw [hnew] at hv
    cases hv
  · intro k
    simp only [List.mem_cons, upd]
    by_cases hkk : k = key
    · simp [hkk]
    · simp only [hkk, false_or, if_false]
      exact hc.held k
  · intro k v
    simp only [upd]
    by_cases hkk : k = key
    · subst hkk
      simp only [if_true]
      constructor
      · intro h
        rw [← Option.some.inj h]
        simp
      · intro h
        split at h
        · rename_i hv; rw [hv]
        · have := (hc.both k v).mpr h
          rw [hnew] at this
          cases this
    · simp only [hkk, if_false]
      constructor
      · intro h
        have hv : v ≠ value := fun hv => hnone k (by rw [← hv]; exact h)
        simp only [hv, if_false]
        exact (hc.both k v).mp h
      · intro h
        split at h
        · exact absurd (Option.some.inj h).symm hkk
        · exact (hc.both k v).mpr h

theorem cache.replace_paired (c : cache) (key : Bytes) (value old : Nat) (hc : c.Paired)
    (hold : c.keys key = some old)
    (hfresh : ∀ other, c.keys other = some value → other = key) :
    cache.Paired { c with list := key :: c.list.erase key, keys := upd c.keys key (some value),
                          values := upd (upd c.values old none) value (some key) }
    ∧ (key :: c.list.erase key).length = c.list.length := by
  obtain ⟨ht, hlen⟩ := cache.touch_paired c key hc ((hc.held key).mpr ⟨old, hold⟩)
  refine ⟨⟨ht.nodup, ?_, ?_⟩, hlen⟩
  · intro k
    have := ht.held k
    simp only [cache.touch] at this
    rw [this]
    simp only [upd]
    by_cases hkk : k = key
    · simp [hkk, hold]
    · simp [hkk]
  · intro k v
    simp only [upd]
    by_cases hkk : k = key
    · subst hkk
      simp only [if_true]
      constructor
      · intro h
        rw [← Option.some.inj h]
        simp
      · intro h
        split at h
        · rename_i hv; rw [hv]
        · split at h
          · cases h
          · have := (hc.both k v).mpr h
            rw [hold] at this
            rename_i hne
            exact absurd (Option.some.inj this).symm hne
    · simp only [hkk, if_false]
      constructor
      · intro h
        have hv : v ≠ value := fun hv => hkk (hfresh k (by rw [← hv]; exact h))
        have hv2 : v ≠ old := by
          intro hv2
          have h3 := (hc.both k v).mp h
          rw [hv2, (hc.both key old).mp hold] at h3
          exact hkk (Option.some.inj h3).symm
        simp only [hv, hv2, if_false]
        exact (hc.both k v).mp h
      · intro h
        split at h
        · exact absurd (Option.some.inj h).symm hkk
        · split at h
          · cases h
          · exact (hc.both k v).mpr h

/-! ## Add, with and without eviction -/

theorem cache.add_existing (c : cache) (key : Bytes) (value old : Nat)
    (hold : c.keys key = some old) :
    c.add key value
      = { c with list := key :: c.list.erase key, keys := upd c.keys key (some value),
                 values := upd (upd c.values old none) value (some key) } := by
  unfold cache.add
  rw [hold]

theorem cache.add_room (c : cache) (key : Bytes) (value : Nat)
    (hnew : c.keys key = none) (hroom : c.list.length + 1 ≤ c.size) :
    c.add key value
      = { c with list := key :: c.list, keys := upd c.keys key (some value),
                 values := upd c.values value (some key) } := by
  unfold cache.add
  rw [hnew]
  simp only [List.length_cons]
  rw [if_neg (by omega)]

theorem cache.add_full (c : cache) (key : Bytes) (value : Nat) (hc : c.Paired)
    (hnew : c.keys key = none) (hsize : 1 ≤ c.size) (hfull : c.list.length = c.size) :
    ∃ oldest old, c.list.getLast? = some oldest ∧ c.keys oldest = some old ∧ oldest ≠ key
      ∧ c.add key value
        = cache.remove
            { c with list := key :: c.list, keys := upd c.keys key (some value),
                     values := upd c.values value (some key) } oldest := by
  have hne : c.list ≠ [] := by
    intro h
    rw [h] at hfull
    simp at hfull
    omega
  obtain ⟨a, t, hat⟩ := List.exists_cons_of_ne_nil hne
  cases hl : c.list.getLast? with
  | none => exact absurd (List.getLast?_eq_none_iff.mp hl) hne
  | some oldest =>
    have hmem : oldest ∈ c.list := List.mem_of_getLast?_eq_some hl
    obtain ⟨old, hold⟩ := (hc.held oldest).mp hmem
    have hok : oldest ≠ key := by
      intro h
      rw [h, hnew] at hold
      cases hold
    refine ⟨oldest, old, rfl, hold, hok, ?_⟩
    have hlast : (key :: c.list).getLast? = some oldest := by
      rw [hat, List.getLast?_cons_cons, ← hat, hl]
    unfold cache.add
    rw [hnew]
    simp only [List.length_cons, hlast]
    rw [if_pos (by omega)]

theorem cache.add_paired (c : cache) (key : Bytes) (value : Nat) (hc : c.Paired)
    (hsize : 1 ≤ c.size) (hb : c.list.length ≤ c.size)
    (hfresh : ∀ other, c.keys other = some value → other = key) :
    (c.add key value).Paired ∧ (c.add key value).list.length ≤ c.size
    ∧ (c.add key value).size = c.size := by
  cases hk : c.keys key with
  | some old =>
    rw [cache.add_existing c key value old hk]
    obtain ⟨hp, hlen⟩ := cache.replace_paired c key value old hc hk hfresh
    exact ⟨hp, by simp only; omega, rfl⟩
  | none =>
    have h1 := cache.enter_paired c key value hc hk hfresh
    by_cases hroom : c.list.length + 1 ≤ c.size
    · rw [cache.add_room c key value hk hroom]
      exact ⟨h1, by simp only [List.length_cons]; omega, rfl⟩
    · obtain ⟨oldest, old, _, hold, hok, heq⟩ :=
        cache.add_full c key value hc hk hsize (by omega)
      rw [heq]
      have hold1 : (upd c.keys key (some value)) oldest = some old := by
        simp only [upd, hok, if_false]
        exact hold
      obtain ⟨hrem, hp, hlen⟩ := cache.remove_paired _ oldest old h1 hold1
      refine ⟨hp, ?_, ?_⟩
      · simp only [List.length_cons] at hlen
        omega
      · rw [hrem]

theorem cache.run_paired (calls : List CacheCall) :
    ∀ c : cache, c.Paired → 1 ≤ c.size → c.list.length ≤ c.size → c.Distinct calls →
      (c.run calls).Paired ∧ (c.run calls).list.length ≤ c.size
      ∧ (c.run calls).size = c.size := by
  induction calls with
  | nil => intro c hc _ hb _; exact ⟨hc, hb, rfl⟩
  | cons call rest ih =>
    intro c hc hsize hb hd
    cases call with
    | add key value =>
      obtain ⟨hfresh, hrest⟩ := hd
      obtain ⟨hp, hl, hs⟩ := cache.add_paired c key value hc hsize hb hfresh
      obtain ⟨a, b, e⟩ := ih (c.add key value) hp (by omega) (by omega) hrest
      show ((c.add key value).run rest).Paired ∧ ((c.add key value).run rest).list.length ≤ c.size
        ∧ ((c.add key value).run rest).size = c.size
      exact ⟨a, by omega, by omega⟩
    | getValue key =>
      obtain ⟨hp, hl, hs⟩ := cache.getValue_paired c key hc
      obtain ⟨a, b, e⟩ := ih (c.getValue key).1 hp (by omega) (by omega) hd
      show ((c.getValue key).1.run rest).Paired
        ∧ ((c.getValue key).1.run rest).list.length ≤ c.size
        ∧ ((c.getValue key).1.run rest).size = c.size
      exact ⟨a, by omega, by omega⟩
    | getKey value =>
      obtain ⟨hp, hl, hs⟩ := cache.getKey_paired c value hc
      obtain ⟨a, b, e⟩ := ih (c.getKey value).1 hp (by omega) (by omega) hd
      show ((c.getKey value).1.run rest).Paired
        ∧ ((c.getKey value).1.run rest).list.length ≤ c.size
        ∧ ((c.getKey value).1.run rest).size = c.size
      exact ⟨a, by omega, by omega⟩

theorem newCache_paired (size : Nat) : (newCache size).Paired := by
  refine ⟨by simp [newCache], ?_, ?_⟩
  · intro k; simp [newCache]
  · intro k v; simp [newCache]

/-! ## The recency list follows the uses -/

theorem ordered_use (l recent : List Bytes) (key : Bytes) (hn : l.Nodup)
    (ho : l.Pairwise (fun a b => a ∈ recent.takeWhile (fun x => decide (x ≠ b))))
    (hm : ∀ k ∈ l, k ∈ recent) :
    (key :: l.erase key).Pairwise
        (fun a b => a ∈ (key :: recent).takeWhile (fun x => decide (x ≠ b)))
    ∧ ∀ k ∈ key :: l.erase key, k ∈ key :: recent := by
  have hstep : ∀ b, b ≠ key →
      (key :: recent).takeWhile (fun x => decide (x ≠ b))
        = key :: recent.takeWhile (fun x => decide (x ≠ b)) := by
    intro b hb
    rw [List.takeWhile_cons_of_pos]
    simpa using fun h => hb h.symm
  constructor
  · refine List.pairwise_cons.mpr ⟨?_, ?_⟩
    · intro b hb
      have hbk : b ≠ key := ((hn.mem_erase_iff).mp hb).1
      rw [hstep b hbk]
      exact List.mem_cons_self _ _
    · refine List.Pairwise.imp_of_mem ?_ (ho.sublist (List.erase_sublist key l))
      intro a b _ hb hab
      have hbk : b ≠ key := ((hn.mem_erase_iff).mp hb).1
      rw [hstep b hbk]
      exact List.mem_cons_of_mem _ hab
  · intro k hk
    rcases List.mem_cons.mp hk with h | h
    · rw [h]; exact List.mem_cons_self _ _
    · exact List.mem_cons_of_mem _ (hm k (List.mem_of_mem_erase h))

theorem cache.touch_ordered (c : cache) (recent : List Bytes) (key : Bytes) (hc : c.Paired)
    (ho : c.Ordered recent) : (c.touch key).Ordered (key :: recent) :=
  ordered_use c.list recent key hc.nodup ho.1 ho.2

theorem cache.add_ordered (c : cache) (recent : List Bytes) (key : Bytes) (value : Nat)
    (hc : c.Paired) (hsize : 1 ≤ c.size) (hb : c.list.length ≤ c.size)
    (ho : c.Ordered recent) : (c.add key value).Ordered (key :: recent) := by
  cases hk : c.keys key with
  | some old =>
    rw [cache.add_existing c key value old hk]
    exact ordered_use c.list recent key hc.nodup ho.1 ho.2
  | none =>
    have hnot : key ∉ c.list := by
      intro h
      obtain ⟨v, hv⟩ := (hc.held key).mp h
      rw [hk] at hv
      cases hv
    have h1 := ordered_use c.list recent key hc.nodup ho.1 ho.2
    rw [List.erase_of_not_mem hnot] at h1
    by_cases hroom : c.list.length + 1 ≤ c.size
    · rw [cache.add_room c key value hk hroom]
      exact h1
    · obtain ⟨oldest, old, _, hold, hok, heq⟩ :=
        cache.add_full c key value hc hk hsize (by omega)
      have hold1 : (upd c.keys key (some value)) oldest = some old := by
        simp only [upd, hok, if_false]
        exact hold
      have hrem : cache.remove
          { c with list := key :: c.list, keys := upd c.keys key (some value),
                   values := upd c.values value (some key) } oldest
          = { c with list := (key :: c.list).erase oldest,
                     keys := upd (upd c.keys key (some value)) oldest none,
                     values := upd (upd c.values value (some key)) old none } := by
        unfold cache.remove
        simp only [hold1]
      rw [heq, hrem]
      exact ⟨h1.1.sublist (List.erase_sublist oldest _),
        fun k hk => h1.2 k (List.mem_of_mem_erase hk)⟩

theorem cache.call_ordered (c : cache) (recent : List Bytes) (call : CacheCall)
    (hc : c.Paired) (hsize : 1 ≤ c.size) (hb : c.list.length ≤ c.size)
    (ho : c.Ordered recent) :
    (c.call call).Ordered ((c.used call).toList ++ recent) := by
  cases call with
  | add key value => exact cache.add_ordered c recent key value hc hsize hb ho
  | getValue key =>
    simp only [cache.call, cache.used, cache.getValue]
    cases hk : c.keys key with
    | none => exact ho
    | some v => exact cache.touch_ordered c recent key hc ho
  | getKey value =>
    simp only [cache.call, cache.used, cache.getKey]
    cases hv : c.values value with
    | none => exact ho
    | some k => exact cache.touch_ordered c recent k hc ho

theorem cache.run_ordered (calls : List CacheCall) :
    ∀ (c : cache) (recent : List Bytes), c.Paired → 1 ≤ c.size → c.list.length ≤ c.size →
      c.Distinct calls → c.Ordered recent →
      (c.run calls).Ordered ((c.uses calls).reverse ++ recent) := by
  induction calls with
  | nil => intro c recent _ _ _ _ ho; exact ho
  | cons call rest ih =>
    intro c recent hc hsize hb hd ho
    have hstep := cache.call_ordered c recent call hc hsize hb ho
    have hrev : ((c.used call).toList ++ (c.call call).uses rest).reverse ++ recent
        = ((c.call call).uses rest).reverse ++ ((c.used call).toList ++ recent) := by
      cases c.used call <;> simp
    show ((c.call call).run rest).Ordered
      ((((c.used call).toList ++ (c.call call).uses rest)).reverse ++ recent)
    rw [hrev]
    cases call with
    | add key value =>
      obtain ⟨hfresh, hrest⟩ := hd
      obtain ⟨hp, hl, hs⟩ := cache.add_paired c key value hc hsize hb hfresh
      exact ih (c.add key value) _ hp (by omega) (by omega) hrest hstep
    | getValue key =>
      obtain ⟨hp, hl, hs⟩ := cache.getValue_paired c key hc
      exact ih (c.getValue key).1 _ hp (by omega) (by omega) hd hstep
    | getKey value =>
      obtain ⟨hp, hl, hs⟩ := cache.getKey_paired c value hc
      exact ih (c.getKey value).1 _ hp (by omega) (by omega) hd hstep

theorem split_at_latest (recent : List Bytes) (k : Bytes) (h : k ∈ recent) :
    ∃ older, recent = recent.takeWhile (fun x => decide (x ≠ k)) ++ k :: older := by
  induction recent with
  | nil => cases h
  | cons x rest ih =>
    by_cases hx : x = k
    · refine ⟨rest, ?_⟩
      rw [List.takeWhile_cons, if_neg (by simp [hx]), hx]
      rfl
    · have hk : k ∈ rest := by
        rcases List.mem_cons.mp h with h1 | h1
        · exact absurd h1.symm hx
        · exact h1
      obtain ⟨older, ho⟩ := ih hk
      refine ⟨older, ?_⟩
      rw [List.takeWhile_cons_of_pos (by simpa using hx), List.cons_append, ← ho]

theorem least_recently_used (l recent : List Bytes) (oldest : Bytes)
    (ho : l.Pairwise (fun a b => a ∈ recent.takeWhile (fun x => decide (x ≠ b))))
    (hm : ∀ k ∈ l, k ∈ recent) (hlast : l.getLast? = some oldest) :
    ∃ before after, recent.reverse = before ++ oldest :: after ∧ oldest ∉ after
      ∧ ∀ k ∈ l, k ≠ oldest → k ∈ after := by
  have hl : l.dropLast ++ [oldest] = l :=
    List.dropLast_append_getLast? oldest (by rw [hlast]; exact rfl)
  have hmem : oldest ∈ l := List.mem_of_getLast?_eq_some hlast
  obtain ⟨older, hsplit⟩ := split_at_latest recent oldest (hm oldest hmem)
  rw [← hl] at ho
  obtain ⟨_, _, hcross⟩ := List.pairwise_append.mp ho
  refine ⟨older.reverse, (recent.takeWhile (fun x => decide (x ≠ oldest))).reverse, ?_, ?_, ?_⟩
  · conv_lhs => rw [hsplit]
    simp
  · intro h
    have := List.mem_takeWhile_imp (List.mem_reverse.mp h)
    simp at this
  · intro k hk hne
    rw [← hl] at hk
    rcases List.mem_append.mp hk with h | h
    · exact List.mem_reverse.mpr (hcross k h oldest (List.mem_singleton_self _))
    · exact absurd (List.mem_singleton.mp h) hne

/-- Counterexample to C21: in a cache of capacity 2 after `add("a", 1); add("b", 2)`, the
entry of `b` is retrievable in both directions; `add("c", 2)` evicts `a`, the least
recently used entry, and afterwards `getValue("b")` still returns 2 but `getKey(2)`
returns `c`: the entry of `b` is no longer retrievable in the reverse direction. -/
theorem value_under_two_keys_loses_an_entry :
    ((newCache 2).run sampleCacheHistory).list = [[98], [97]]
    ∧ (((newCache 2).run sampleCacheHistory).getValue [98]).2 = (2, true)
    ∧ (((newCache 2).run sampleCacheHistory).getKey 2).2 = ([98], true)
    ∧ ((((newCache 2).run sampleCacheHistory).add [99] 2).getValue [97]).2 = (0, false)
    ∧ ((((newCache 2).run sampleCacheHistory).add [99] 2).getValue [98]).2 = (2, true)
    ∧ ((((newCache 2).run sampleCacheHistory).add [99] 2).getKey 2).2 = ([99], true) := by
  decide

/-- C21, amended (LRU eviction): for a cache of capacity `cap ≥ 1` and every history of
`add`, `getValue` and `getKey` calls in which no `add` gives a value that the cache holds
under another key, the cache holds at most `cap` keys; and an `add` of a new key with such
a value to a full cache evicts the least recently used entry: the held key `oldest` after
whose last use (by `add`, or by a `getValue` or `getKey` that found its entry) every other
held key was used, which is the last key of the recency list.  `getValue` of that key
then returns `(0, false)` and `getKey` of its value `("", false)`, every other entry is
still retrievable in both directions, the new entry is retrievable in both directions and
the cache is full again. -/
theorem cache_lru_eviction (cap : Nat) (calls : List CacheCall) (hcap : 1 ≤ cap)
    (hd : (newCache cap).Distinct calls) :
    ((newCache cap).run calls).list.Nodup
    ∧ ((newCache cap).run calls).list.length ≤ cap
    ∧ (∀ k, (∃ v, ((newCache cap).run calls).keys k = some v)
        ↔ k ∈ ((newCache cap).run calls).list)
    ∧ ∀ key value, ((newCache cap).run calls).keys key = none →
        ((newCache cap).run calls).list.length = cap →
        (∀ other, ((newCache cap).run calls).keys other = some value → other = key) →
        ∃ oldest old, ((newCache cap).run calls).list.getLast? = some oldest
          ∧ ((newCache cap).run calls).keys oldest = some old
          ∧ (∃ before after, (newCache cap).uses calls = before ++ oldest :: after
              ∧ oldest ∉ after
              ∧ ∀ k v, k ≠ oldest → ((newCache cap).run calls).keys k = some v → k ∈ after)
          ∧ ((((newCache cap).run calls).add key value).getValue oldest).2 = (0, false)
          ∧ ((((newCache cap).run calls).add key value).getKey old).2 = ([], false)
          ∧ (∀ k v, k ≠ oldest → ((newCache cap).run calls).keys k = some v →
              ((((newCache cap).run calls).add key value).getValue k).2 = (v, true)
              ∧ ((((newCache cap).run calls).add key value).getKey v).2 = (k, true))
          ∧ ((((newCache cap).run calls).add key value).getValue key).2 = (value, true)
          ∧ ((((newCache cap).run calls).add key value).getKey value).2 = (key, true)
          ∧ (((newCache cap).run calls).add key value).list.length = cap := by
  obtain ⟨hp, hlen, hsz⟩ := cache.run_paired calls (newCache cap) (newCache_paired cap) hcap
    (by simp [newCache]) hd
  have hsz2 : ((newCache cap).run calls).size = cap := hsz
  have hlen2 : ((newCache cap).run calls).list.length ≤ cap := hlen
  have hord := cache.run_ordered calls (newCache cap) [] (newCache_paired cap) hcap
    (by simp [newCache]) hd ⟨by simp [newCache], by simp [newCache]⟩
  have hlru : ∀ oldest, ((newCache cap).run calls).list.getLast? = some oldest →
      ∃ before after, (newCache cap).uses calls = before ++ oldest :: after
        ∧ oldest ∉ after
        ∧ ∀ k v, k ≠ oldest → ((newCache cap).run calls).keys k = some v → k ∈ after := by
    intro oldest hlast
    obtain ⟨before, after, hsplit, hnot, hall⟩ :=
      least_recently_used _ _ oldest hord.1 hord.2 hlast
    refine ⟨before, after, ?_, hnot, ?_⟩
    · simpa using hsplit
    · intro k v hne hk
      exact hall k ((hp.held k).mpr ⟨v, hk⟩) hne
  refine ⟨hp.nodup, hlen2, fun k => (hp.held k).symm, ?_⟩
  intro key value hnew hfull hfresh
  generalize (newCache cap).uses calls = trace at hlru
  generalize (newCache cap).run calls = c at hp hsz2 hnew hfull hfresh hlru
  obtain ⟨oldest, old, hlast, hold, hok, heq⟩ :=
    cache.add_full c key value hp hnew (by omega) (by omega)
  have h1 := cache.enter_paired c key value hp hnew hfresh
  have hold1 : (upd c.keys key (some value)) oldest = some old := by
    simp only [upd, hok, if_false]
    exact hold
  obtain ⟨hrem, hp2, hlen3⟩ := cache.remove_paired _ oldest old h1 hold1
  have hkeys : ∀ k, (c.add key value).keys k
      = if k = oldest then none else if k = key then some value else c.keys k := by
    intro k
    rw [heq, hrem]
    simp only [upd]
  have hvalues : ∀ v, (c.add key value).values v
      = if v = old then none else if v = value then some key else c.values v := by
    intro v
    rw [heq, hrem]
    simp only [upd]
  have hov : old ≠ value := by
    intro h
    exact hok (hfresh oldest (by rw [← h]; exact hold))
  have hget : ∀ k v, (c.add key value).keys k = some v →
      ((c.add key value).getValue k).2 = (v, true) := by
    intro k v h
    unfold cache.getValue
    rw [h]
  have hgetk : ∀ k v, (c.add key value).values v = some k →
      ((c.add key value).getKey v).2 = (k, true) := by
    intro k v h
    unfold cache.getKey
    rw [h]
  refine ⟨oldest, old, hlast, hold, hlru oldest hlast, ?_, ?_, ?_, ?_, ?_, ?_⟩
  · unfold cache.getValue
    rw [hkeys oldest, if_pos rfl]
  · unfold cache.getKey
    rw [hvalues old, if_pos rfl]
  · intro k v hk hkv
    have hkk : k ≠ key := by
      intro h
      rw [h, hnew] at hkv
      cases hkv
    have hv1 : v ≠ old := by
      intro h
      have h3 := (hp.both k v).mp hkv
      rw [h, (hp.both oldest old).mp hold] at h3
      exact hk (Option.some.inj h3).symm
    have hv2 : v ≠ value := by
      intro h
      exact hkk (hfresh k (by rw [← h]; exact hkv))
    constructor
    · apply hget
      rw [hkeys k, if_neg hk, if_neg hkk]
      exact hkv
    · apply hgetk
      rw [hvalues v, if_neg hv1, if_neg hv2]
      exact (hp.both k v).mp hkv
  · apply hget
    rw [hkeys key, if_neg (fun h => hok h.symm), if_pos rfl]
  · apply hgetk
    rw [hvalues value, if_neg (fun h => hov h.symm), if_pos rfl]
  · rw [heq]
    simp only [List.length_cons] at hlen3
    omega

theorem cache.run_keys (calls : List CacheCall) :
    ∀ (c : cache) (k : Bytes) (v : Nat), (c.run calls).keys k = some v →
      c.keys k = some v ∨ CacheCall.add k v ∈ calls := by
  induction calls with
  | nil => intro c k v h; exact Or.inl h
  | cons call rest ih =>
    intro c k v h
    rcases ih (c.call call) k v h with h1 | h1
    · cases call with
      | add key value =>
        rcases cache_add_keys c key k value v h1 with ⟨rfl, rfl⟩ | h2
        · exact Or.inr (List.mem_cons_self _ _)
        · exact Or.inl h2
      | getValue key =>
        left
        simp only [cache.call, cache.getValue] at h1
        split at h1 <;> exact h1
      | getKey value =>
        left
        simp only [cache.call, cache.getKey] at h1
        split at h1 <;> exact h1
    · exact Or.inr (List.mem_cons_of_mem _ h1)

/-- Witness of C21: after `add("a", 1); add("b", 2); getValue("a")` the keys used are
`a`, `b`, `a`; `add("c", 3)` evicts `b`, after whose last use `a` was used. -/
theorem cache_lru_eviction_witness :
    (newCache 2).Distinct (sampleCacheHistory ++ [CacheCall.getValue [97]])
    ∧ (newCache 2).uses (sampleCacheHistory ++ [CacheCall.getValue [97]]) = [[97], [98], [97]]
    ∧ ((newCache 2).run (sampleCacheHistory ++ [CacheCall.getValue [97]])).list = [[97], [98]]
    ∧ ((((newCache 2).run (sampleCacheHistory ++ [CacheCall.getValue [97]])).add
        [99] 3).getValue [98]).2 = (0, false)
    ∧ ∃ oldest old,
        ((newCache 2).run (sampleCacheHistory ++ [CacheCall.getValue [97]])).list.getLast?
          = some oldest
        ∧ ((newCache 2).run (sampleCacheHistory ++ [CacheCall.getValue [97]])).keys oldest
          = some old
        ∧ (∃ before after,
            (newCache 2).uses (sampleCacheHistory ++ [CacheCall.getValue [97]])
              = before ++ oldest :: after
            ∧ oldest ∉ after
            ∧ ∀ k v, k ≠ oldest →
                ((newCache 2).run (sampleCacheHistory ++ [CacheCall.getValue [97]])).keys k
                  = some v → k ∈ after)
        ∧ ((((newCache 2).run (sampleCacheHistory ++ [CacheCall.getValue [97]])).add
            [99] 3).getValue oldest).2 = (0, false) := by
  have hd : (newCache 2).Distinct (sampleCacheHistory ++ [CacheCall.getValue [97]]) := by
    refine ⟨?_, ?_, trivial⟩
    · intro other h
      simp [newCache] at h
    · intro other h
      rcases cache_add_keys _ _ _ _ _ h with ⟨_, h2⟩ | h2
      · cases h2
      · simp [newCache] at h2
  refine ⟨hd, by decide, by decide, by decide, ?_⟩
  obtain ⟨oldest, old, h1, h2, h3, h4, _⟩ :=
    (cache_lru_eviction 2 (sampleCacheHistory ++ [CacheCall.getValue [97]]) (by decide) hd).2.2.2
      [99] 3 (by decide) (by decide)
      (fun other h => by
        rcases cache.run_keys _ _ _ _ h with h2 | h2
        · simp [newCache] at h2
        · simp [sampleCacheHistory] at h2)
  exact ⟨oldest, old, h1, h2, h3, h4⟩

/-- Witness of C22: the data `{1: 1, 2: 2}` and then `{2: 9}` at timestamp 5 leave the one
event `{1: 1, 2: 9}`. -/
theorem merge_at_equal_timestamp_witness :
    1 ≤ singleShardDb.shards.length ∧ singleShardDb.shards.length < 2 ^ 32
    ∧ (singleShardDb.InsertEvent "users" [97]
        ⟨5, [(1, Value.int64 1), (2, Value.int64 2)]⟩).2 = some none
    ∧ ((singleShardDb.InsertEvent "users" [97]
          ⟨5, [(1, Value.int64 1), (2, Value.int64 2)]⟩).1.InsertEvent "users" [97]
          ⟨5, [(2, Value.int64 9)]⟩).1.stored "users" [97]
        = some [⟨5, [(1, Value.int64 1), (2, Value.int64 9)]⟩]
    ∧ ∃ events m,
        ((singleShardDb.InsertEvent "users" [97]
          ⟨5, [(1, Value.int64 1), (2, Value.int64 2)]⟩).1.InsertEvent "users" [97]
          ⟨5, [(2, Value.int64 9)]⟩).1.stored "users" [97] = some events
        ∧ increasing events
        ∧ events.filter (fun e => e.Timestamp = 5) = [m] :=
  ⟨by decide, by decide, by decide, by decide,
    match merge_at_equal_timestamp singleShardDb "users" [97]
        ⟨5, [(1, Value.int64 1), (2, Value.int64 2)]⟩ ⟨5, [(2, Value.int64 9)]⟩
        (by decide) (by decide) rfl
        (fun events h => by
          have h0 : singleShardDb.stored "users" [97] = none := by decide
          rw [h0] at h
          cases h)
        (by decide) (by decide) with
    | ⟨events, m, h1, h2, h3, _⟩ => ⟨events, m, h1, h2, h3⟩⟩

/-- Witness of C23: events inserted at 5, 3, 4 and 1, of which the one at 4 is deleted, are
read back at 1, 3, 5. -/
theorem timestamp_order_invariant_witness :
    1 ≤ singleShardDb.shards.length ∧ singleShardDb.shards.length < 2 ^ 32
    ∧ ((singleShardDb.run
          [DbCall.InsertEvents "users" [97] [⟨5, []⟩, ⟨3, []⟩, ⟨4, []⟩],
            DbCall.InsertEvent "users" [97] ⟨1, []⟩,
            DbCall.DeleteEvent "users" [97] 4]).GetEvents "users" [97]).2
        = some ([⟨1, []⟩, ⟨3, []⟩, ⟨5, []⟩], none)
    ∧ ∃ events err,
        ((singleShardDb.run
          [DbCall.InsertEvents "users" [97] [⟨5, []⟩, ⟨3, []⟩, ⟨4, []⟩],
            DbCall.InsertEvent "users" [97] ⟨1, []⟩,
            DbCall.DeleteEvent "users" [97] 4]).GetEvents "users" [97]).2
          = some (events, err)
        ∧ increasing events :=
  ⟨by decide, by decide, by decide,
    match timestamp_order_invariant singleShardDb
        [DbCall.InsertEvents "users" [97] [⟨5, []⟩, ⟨3, []⟩, ⟨4, []⟩],
          DbCall.InsertEvent "users" [97] ⟨1, []⟩,
          DbCall.DeleteEvent "users" [97] 4]
        (by decide) (by decide)
        (fun t id events h => by
          simp [db.stored, singleShardDb, emptyShard, Nat.mod_one] at h)
        "users" [97] with
    | ⟨events, err, h1, h2, _⟩ => ⟨events, err, h1, h2⟩⟩

/-- Witness of C26: on a shard whose store fails the third call, the merge of `a` into `b`
returns the error of the delete and both objects hold the event. -/
theorem merge_failure_semantics_witness :
    1 ≤ deleteFailsDb.shards.length ∧ deleteFailsDb.shards.length < 2 ^ 32
    ∧ (deleteFailsDb.GetEvents "users" [97]).2 = some ([⟨1, []⟩], none)
    ∧ (deleteFailsDb.Merge "users" [98] [97]).2
        = some (some ⟨0, ShardCall.DeleteObject "users" [97]⟩)
    ∧ (deleteFailsDb.Merge "users" [98] [97]).1.stored "users" [98]
        = some (List.foldl appendSorted ((deleteFailsDb.stored "users" [98]).getD [])
            [⟨1, []⟩])
    ∧ (deleteFailsDb.Merge "users" [98] [97]).1.stored "users" [97] = some [⟨1, []⟩] :=
  ⟨by decide, by decide, by decide,
    ((merge_failure_semantics deleteFailsDb "users" [98] [97] (by decide) (by decide)).2.2
      [⟨1, []⟩] ⟨0, ShardCall.DeleteObject "users" [97]⟩ (by decide) (by decide) (by decide)
      (by decide)).1,
    ((merge_failure_semantics deleteFailsDb "users" [98] [97] (by decide) (by decide)).2.2
      [⟨1, []⟩] ⟨0, ShardCall.DeleteObject "users" [97]⟩ (by decide) (by decide) (by decide)
      (by decide)).2.2.1,
    ((merge_failure_semantics deleteFailsDb "users" [98] [97] (by decide) (by decide)).2.2
      [⟨1, []⟩] ⟨0, ShardCall.DeleteObject "users" [97]⟩ (by decide) (by decide) (by decide)
      (by decide)).2.2.2 (Or.inl (by decide))⟩

/-- Witness of C29: the merge of object `a` of the sample database into itself. -/
theorem self_merge_deletes_the_object_witness :
    1 ≤ sampleDb.shards.length ∧ sampleDb.shards.length < 2 ^ 32
    ∧ (∀ s ∈ sampleDb.shards, s.faults = [])
    ∧ sampleDb.stored "users" [97] = some [⟨1, []⟩]
    ∧ (sampleDb.Merge "users" [97] [97]).2 = some none
    ∧ ((sampleDb.Merge "users" [97] [97]).1.GetEvents "users" [97]).2 = some ([], none) :=
  ⟨by decide, by decide, by decide, by decide,
    ((self_merge_deletes_the_object sampleDb "users" [97] (by decide) (by decide)
      (by decide)).1 [⟨1, []⟩] (by decide) (by decide)).2.1,
    ((self_merge_deletes_the_object sampleDb "users" [97] (by decide) (by decide)
      (by decide)).1 [⟨1, []⟩] (by decide) (by decide)).2.2.2.1⟩

end Sky
